import Mathlib

/-!
# go-maplock: a named-mutex registry

A shallow embedding of `maplock.go`.

* `Mutex` models `sync.Mutex` (its only observable state: locked or not).
* `lockCtr` is the per-key entry: a mutex and the `int32` counter `waiters`.
* `MapLock` is the registry: the guard `mu`, the map `locks` from key to
  `*lockCtr`, and the heap in which the `lockCtr` objects live (the map stores
  pointers, and a caller blocked in `Lock` keeps a pointer to an entry).
* Every method is cut at its statements: `Pc` is the position of a caller
  inside a method (named after the source line it is about to execute,
  together with the local variables live there), `step` executes that one
  statement.  `run` drives one caller alone; `MapLock.Lock`, `MapLock.TryLock`
  and `MapLock.Unlock` are the three methods run by a single caller.
-/

namespace Maplock

/-! ## sync.Mutex -/

/-- The state of a `sync.Mutex`. -/
structure Mutex where
  locked : Bool
deriving DecidableEq, Repr

/-- The call `m.Lock()`: `none` when the mutex is taken (the caller has to wait). -/
def Mutex.Lock (m : Mutex) : Option Mutex :=
  if m.locked then none else some { locked := true }

/-- The call `m.TryLock()`: never waits, reports whether the mutex was obtained. -/
def Mutex.TryLock (m : Mutex) : Bool × Mutex :=
  if m.locked then (false, m) else (true, { locked := true })

/-- The call `m.Unlock()`: `none` is the runtime's fatal error
"sync: unlock of unlocked mutex". -/
def Mutex.Unlock (m : Mutex) : Option Mutex :=
  if m.locked then some { locked := false } else none

/-! ## lockCtr (maplock.go, lines 15-51) -/

/-- Two's complement wrap-around of `int32` arithmetic. -/
def wrapInt32 (x : Int) : Int :=
  (x + 2147483648) % 4294967296 - 2147483648

/-- The struct `lockCtr`: a mutex and the number of waiters (an `int32`). -/
structure lockCtr where
  mu : Mutex
  waiters : Int
deriving DecidableEq, Repr

/-- The method `inc`: `atomic.AddInt32(&l.waiters, 1)`. -/
def lockCtr.inc (l : lockCtr) : lockCtr :=
  { l with waiters := wrapInt32 (l.waiters + 1) }

/-- The method `dec`: `atomic.AddInt32(&l.waiters, -1)`. -/
def lockCtr.dec (l : lockCtr) : lockCtr :=
  { l with waiters := wrapInt32 (l.waiters + -1) }

/-- The method `count`: `atomic.LoadInt32(&l.waiters)`. -/
def lockCtr.count (l : lockCtr) : Int :=
  l.waiters

/-- The method `Lock` of `lockCtr`: `l.mu.Lock()`. -/
def lockCtr.Lock (l : lockCtr) : Option lockCtr :=
  (l.mu.Lock).map fun m => { l with mu := m }

/-- The method `Unlock` of `lockCtr`: `l.mu.Unlock()`. -/
def lockCtr.Unlock (l : lockCtr) : Option lockCtr :=
  (l.mu.Unlock).map fun m => { l with mu := m }

/-- The method `TryLock` of `lockCtr`: `l.mu.TryLock()`. -/
def lockCtr.TryLock (l : lockCtr) : Bool × lockCtr :=
  ((l.mu.TryLock).1, { l with mu := (l.mu.TryLock).2 })

/-! ## MapLock (maplock.go, lines 9-13 and 53-58) -/

/-- The struct `MapLock[T]` together with the heap its entries live in.
`locks = none` is the nil map of a zero-value `MapLock`; otherwise the map
sends a key to the address of its `lockCtr`.  `heap` gives the object at each
address and `next` is the first address not yet allocated. -/
structure MapLock (T : Type) where
  mu : Mutex
  locks : Option (T → Option Nat)
  heap : Nat → lockCtr
  next : Nat

/-- The zero value `lockCtr{}`. -/
def lockCtr.zero : lockCtr :=
  { mu := { locked := false }, waiters := 0 }

/-- The constructor `New`: unlocked guard, empty (non-nil) map. -/
def New {T : Type} : MapLock T :=
  { mu := { locked := false }, locks := some (fun _ => none), heap := fun _ => lockCtr.zero, next := 0 }

/-- The zero-value `MapLock`: unlocked guard, nil map. -/
def MapLock.zeroValue {T : Type} : MapLock T :=
  { mu := { locked := false }, locks := none, heap := fun _ => lockCtr.zero, next := 0 }

/-- The map read `l.locks[name]`, which on a nil map finds nothing. -/
def MapLock.lookup {T : Type} (l : MapLock T) (name : T) : Option Nat :=
  match l.locks with
  | none => none
  | some m => m name

/-- The entry of a key as a value: the object its pointer refers to. -/
def MapLock.entry {T : Type} (l : MapLock T) (name : T) : Option lockCtr :=
  (l.lookup name).map l.heap

/-- The statement `if l.locks == nil { l.locks = make(map[T]*lockCtr) }`. -/
def MapLock.makeIfNil {T : Type} (l : MapLock T) : MapLock T :=
  match l.locks with
  | none => { l with locks := some (fun _ => none) }
  | some _ => l

/-- The statements `nameLock = &lockCtr{}; l.locks[name] = nameLock` on the
non-nil map `m`: a fresh object is allocated and stored under `name`. -/
def MapLock.create {T : Type} [DecidableEq T] (l : MapLock T) (m : T → Option Nat) (name : T) :
    MapLock T :=
  { l with
    locks := some (Function.update m name (some l.next))
    heap := Function.update l.heap l.next lockCtr.zero
    next := l.next + 1 }

/-- The statements `nameLock, exists := l.locks[name]; if !exists { nameLock =
&lockCtr{}; l.locks[name] = nameLock }`: the pointer found or freshly allocated,
and the registry after it.  `none` is the panic "assignment to entry in nil
map" of a write to a nil map. -/
def MapLock.lookupOrCreate {T : Type} [DecidableEq T] (l : MapLock T) (name : T) :
    Option (Nat × MapLock T) :=
  match l.lookup name with
  | some p => some (p, l)
  | none =>
    match l.locks with
    | none => none
    | some m => some (l.next, l.create m name)

/-- The result of `lookupOrCreate` in closed form, with a nil map read as the
empty map (on which `lookupOrCreate` panics; `Lock` and `TryLock` make the map
before they get there). -/
def MapLock.lookupOrCreateD {T : Type} [DecidableEq T] (l : MapLock T) (name : T) : Nat × MapLock T :=
  match l.lookup name with
  | some p => (p, l)
  | none => (l.next, l.create (l.locks.getD (fun _ => none)) name)

/-- The statement `delete(l.locks, name)`, a no-op on a nil map. -/
def MapLock.delete {T : Type} [DecidableEq T] (l : MapLock T) (name : T) : MapLock T :=
  match l.locks with
  | none => l
  | some m => { l with locks := some (Function.update m name none) }

/-- The registry with its guard in state `m`. -/
def MapLock.setMu {T : Type} (l : MapLock T) (m : Mutex) : MapLock T :=
  { l with mu := m }

/-- Replace the object at address `p`. -/
def MapLock.store {T : Type} (l : MapLock T) (p : Nat) (c : lockCtr) : MapLock T :=
  { l with heap := Function.update l.heap p c }

/-! ## The methods, statement by statement -/

/-- Where a caller stands inside `Lock`, `TryLock` or `Unlock`: the source line
it executes next, with the locals `name`, `nameLock` (`p`), the value read by
`count()` (`c`) and `try` (`b`).  The last three are the ways a call ends. -/
inductive Pc (T : Type) where
  | L62 (name : T)
  | L63 (name : T)
  | L67 (name : T)
  | L75 (p : Nat)
  | L76 (p : Nat)
  | L80 (p : Nat)
  | L81 (p : Nat)
  | T86 (name : T)
  | T87 (name : T)
  | T91 (name : T)
  | T99 (p : Nat)
  | T100 (p : Nat)
  | T104 (p : Nat) (b : Bool)
  | T105 (p : Nat) (b : Bool)
  | U112 (name : T)
  | U113 (name : T)
  | U115
  | U119 (name : T) (p : Nat)
  | U120 (name : T) (p : Nat) (c : Int)
  | U122 (p : Nat)
  | U124
  | ret (v : Option Bool)
  | panicked (msg : String)
  | fatal (msg : String)
deriving DecidableEq, Repr

/-- The fatal error of unlocking a `sync.Mutex` that is not locked. -/
def fatalUnlock : String := "sync: unlock of unlocked mutex"

/-- The message `Unlock` panics with. -/
def panicUnlock : String := "unlock of unlocked entry"

/-- The panic of a write to a nil map. -/
def panicNilMap : String := "assignment to entry in nil map"

/-- One statement of a method.  `none`: the caller cannot proceed, either
because it waits for a mutex or because its call has ended. -/
def step {T : Type} [DecidableEq T] : Pc T → MapLock T → Option (Pc T × MapLock T)
  -- Lock, line 62: l.mu.Lock()
  | .L62 name, l => (l.mu.Lock).map fun m => (.L63 name, l.setMu m)
  -- lines 63-65: if l.locks == nil ...
  | .L63 name, l => some (.L67 name, l.makeIfNil)
  -- lines 67-71: look the entry up, create it when missing
  | .L67 name, l =>
    match l.lookupOrCreate name with
    | some r => some (.L75 r.1, r.2)
    | none => some (.panicked panicNilMap, l)
  -- line 75: nameLock.inc()
  | .L75 p, l => some (.L76 p, l.store p (l.heap p).inc)
  -- line 76: l.mu.Unlock()
  | .L76 p, l =>
    match l.mu.Unlock with
    | some m => some (.L80 p, l.setMu m)
    | none => some (.fatal fatalUnlock, l)
  -- line 80: nameLock.Lock()
  | .L80 p, l => ((l.heap p).Lock).map fun c => (.L81 p, l.store p c)
  -- line 81: nameLock.dec()
  | .L81 p, l => some (.ret none, l.store p (l.heap p).dec)
  -- TryLock, line 86: l.mu.Lock()
  | .T86 name, l => (l.mu.Lock).map fun m => (.T87 name, l.setMu m)
  -- lines 87-89
  | .T87 name, l => some (.T91 name, l.makeIfNil)
  -- lines 91-95
  | .T91 name, l =>
    match l.lookupOrCreate name with
    | some r => some (.T99 r.1, r.2)
    | none => some (.panicked panicNilMap, l)
  -- line 99: nameLock.inc()
  | .T99 p, l => some (.T100 p, l.store p (l.heap p).inc)
  -- line 100: try := l.mu.TryLock()
  | .T100 p, l => some (.T104 p (l.mu.TryLock).1, l.setMu (l.mu.TryLock).2)
  -- line 104: nameLock.Lock()
  | .T104 p b, l => ((l.heap p).Lock).map fun c => (.T105 p b, l.store p c)
  -- lines 105-106: nameLock.dec(); return try
  | .T105 p b, l => some (.ret (some b), l.store p (l.heap p).dec)
  -- Unlock, line 112: l.mu.Lock()
  | .U112 name, l => (l.mu.Lock).map fun m => (.U113 name, l.setMu m)
  -- lines 113-114: nameLock, exists := l.locks[name]; if !exists
  | .U113 name, l =>
    match l.lookup name with
    | none => some (.U115, l)
    | some p => some (.U119 name p, l)
  -- lines 115-116: l.mu.Unlock(); panic("unlock of unlocked entry")
  | .U115, l =>
    match l.mu.Unlock with
    | some m => some (.panicked panicUnlock, l.setMu m)
    | none => some (.fatal fatalUnlock, l)
  -- line 119: nameLock.count()
  | .U119 name p, l => some (.U120 name p (l.heap p).count, l)
  -- lines 119-121: if ... == 0 { delete(l.locks, name) }
  | .U120 name p c, l => some (.U122 p, if c = 0 then l.delete name else l)
  -- line 122: nameLock.Unlock()
  | .U122 p, l =>
    match (l.heap p).Unlock with
    | some c => some (.U124, l.store p c)
    | none => some (.fatal fatalUnlock, l)
  -- line 124: l.mu.Unlock()
  | .U124, l =>
    match l.mu.Unlock with
    | some m => some (.ret none, l.setMu m)
    | none => some (.fatal fatalUnlock, l)
  | .ret _, _ => none
  | .panicked _, _ => none
  | .fatal _, _ => none

/-- A single caller executing up to `fuel` statements with nobody else
running: it stops where `step` has nothing to do, that is at the end of its
call or waiting for a mutex nobody will release. -/
def run {T : Type} [DecidableEq T] : Nat → Pc T × MapLock T → Pc T × MapLock T
  | 0, c => c
  | fuel + 1, c =>
    match step c.1 c.2 with
    | none => c
    | some c' => run fuel c'

/-- The method `Lock(name)` called by a single caller (seven statements). -/
def MapLock.Lock {T : Type} [DecidableEq T] (l : MapLock T) (name : T) : Pc T × MapLock T :=
  run 7 (.L62 name, l)

/-- The method `TryLock(name)` called by a single caller (seven statements). -/
def MapLock.TryLock {T : Type} [DecidableEq T] (l : MapLock T) (name : T) : Pc T × MapLock T :=
  run 7 (.T86 name, l)

/-- The method `Unlock(name)` called by a single caller (at most six statements). -/
def MapLock.Unlock {T : Type} [DecidableEq T] (l : MapLock T) (name : T) : Pc T × MapLock T :=
  run 7 (.U112 name, l)

/-! ## Well-formed registries -/

/-- The range of an `int32`. -/
def inInt32 (x : Int) : Prop :=
  -2147483648 ≤ x ∧ x < 2147483648

/-- What the heap of a registry always satisfies: the pointers stored in the
map refer to allocated objects, two keys never share an object (every entry is
created by its own `&lockCtr{}`), and the counters are `int32` values. -/
structure MapLock.WF {T : Type} (l : MapLock T) : Prop where
  below : ∀ k p, l.lookup k = some p → p < l.next
  inj : ∀ k1 k2 p, l.lookup k1 = some p → l.lookup k2 = some p → k1 = k2
  range : ∀ k p, l.lookup k = some p → inInt32 (l.heap p).waiters

/-- Whether the exclusive lock of `name` is held: `name` has an entry and the
mutex of that entry is locked. -/
def MapLock.isHeld {T : Type} (l : MapLock T) (name : T) : Bool :=
  match l.entry name with
  | some c => c.mu.locked
  | none => false

/-- The waiter count of the entry of `name`, when it has one. -/
def MapLock.waitersOf {T : Type} (l : MapLock T) (name : T) : Option Int :=
  (l.entry name).map lockCtr.count

/-! ## Sequences of calls by a single caller -/

/-- The pair `Lock(name); Unlock(name)`: `Unlock` is called once `Lock` has
returned. -/
def MapLock.lockUnlock {T : Type} [DecidableEq T] (l : MapLock T) (name : T) : Pc T × MapLock T :=
  match l.Lock name with
  | (.ret _, l1) => l1.Unlock name
  | c => c

/-- A finite sequence of `Lock(k); Unlock(k)` pairs, one for each key of the
list; it stops at the first call that does not return. -/
def MapLock.lockUnlockAll {T : Type} [DecidableEq T] : List T → MapLock T → Pc T × MapLock T
  | [], l => (.ret none, l)
  | k :: ks, l =>
    match l.lockUnlock k with
    | (.ret _, l2) => MapLock.lockUnlockAll ks l2
    | c => c

/-- A call of one of the three methods. -/
inductive Call (T : Type) where
  | Lock (name : T)
  | TryLock (name : T)
  | Unlock (name : T)
deriving DecidableEq, Repr

/-- The registry together with the callers' side of the contract: `held k`
says that some caller holds the lock of `k`, having acquired it (by a `Lock`
that returned or a `TryLock` that returned true) and not yet released it. -/
structure Session (T : Type) where
  l : MapLock T
  held : T → Bool

/-- A fresh registry that nobody holds anything of. -/
def Session.fresh {T : Type} : Session T :=
  { l := New, held := fun _ => false }

/-- One completed call that follows the caller contract: `Unlock(k)` only for
a key that is held.  `none` when the call does not return, or breaks the
contract. -/
def Session.call {T : Type} [DecidableEq T] (s : Session T) : Call T → Option (Session T)
  | .Lock k =>
    match s.l.Lock k with
    | (.ret _, l1) => some { l := l1, held := Function.update s.held k true }
    | _ => none
  | .TryLock k =>
    match s.l.TryLock k with
    | (.ret (some true), l1) => some { l := l1, held := Function.update s.held k true }
    | (.ret _, l1) => some { l := l1, held := s.held }
    | _ => none
  | .Unlock k =>
    if s.held k then
      match s.l.Unlock k with
      | (.ret _, l1) => some { l := l1, held := Function.update s.held k false }
      | _ => none
    else none

/-- A sequence of completed calls that follows the caller contract. -/
def Session.calls {T : Type} [DecidableEq T] : List (Call T) → Session T → Option (Session T)
  | [], s => some s
  | c :: cs, s =>
    match s.call c with
    | some s1 => Session.calls cs s1
    | none => none

/-! ## Registries used as examples -/

/-- The registry after `New()` and `Lock("a")`: the key "a" is held. -/
def heldA : MapLock String :=
  ((New : MapLock String).Lock "a").2

/-- The registry in which "a" is held and a second caller of `Lock("a")` waits
for it (at line 80, counted as a waiter). -/
def heldAWaited : MapLock String :=
  (heldA.Lock "a").2

/-- The registry after `New()`, `Lock("foo")`, `Unlock("foo")`. -/
def releasedFoo : MapLock String :=
  ((New : MapLock String).lockUnlock "foo").2

/-- The registry after `New()` and a completed `TryLock("a")`. -/
def triedA : MapLock String :=
  ((New : MapLock String).TryLock "a").2

/-- The registry after `New()`, `Lock("a")` and a completed `TryLock("b")`: the
key "a" is held. -/
def heldATriedB : MapLock String :=
  (heldA.TryLock "b").2

/-- The registry after `New()`, `Lock("a")`, a second `Lock("a")` that waits,
and the holder's `Unlock("a")`: the entry of "a" is unlocked with count 1. -/
def releasedAWaited : MapLock String :=
  (heldAWaited.Unlock "a").2

/-- Whether a call is a `TryLock`. -/
def Call.isTryLock {T : Type} : Call T → Bool
  | .TryLock _ => true
  | _ => false

/-- The state a session is in between the completed calls of callers that use
`Lock` and `Unlock` only: guard free, and a key has an entry exactly when it is
held, that entry being locked with no waiter. -/
structure Session.Quiet {T : Type} (s : Session T) : Prop where
  wf : s.l.WF
  guard : s.l.mu.locked = false
  held : ∀ k, s.held k = true → ∃ p, s.l.lookup k = some p ∧ s.l.heap p = ⟨⟨true⟩, 0⟩
  free : ∀ k, s.held k = false → s.l.lookup k = none

/-! ## Concurrent callers

The callers of property P1 and of `Test2`: each of `N` callers runs
`for i := 0; i < M; i++ { m.Lock(key); n++; m.Unlock(key) }` on a shared
registry `m`, where `n` is the counter that `key` protects and `n++` is a read
followed by a write.  The callers are interleaved statement by statement. -/

/-- Where a caller stands in its loop. -/
inductive Phase (T : Type) where
  | loop
  | inLock (pc : Pc T)
  | incr (tmp : Nat)
  | inUnlock (pc : Pc T)
  | finished
deriving DecidableEq, Repr

/-- A caller: its loop counter `i` and where it stands. -/
structure Thread (T : Type) where
  i : Nat
  phase : Phase T
deriving DecidableEq, Repr

/-- One statement of a caller with key `key` and `M` rounds, on the registry
`m` and the counters `n`.  `none`: the caller waits for a mutex, has finished,
or has died in a panic or fatal error. -/
def Thread.step {T : Type} [DecidableEq T] (key : T) (M : Nat) (θ : Thread T) (m : MapLock T)
    (n : T → Nat) : Option (Thread T × MapLock T × (T → Nat)) :=
  match θ.phase with
  -- the loop test `i < M`, then the call m.Lock(key)
  | .loop => some ({ i := θ.i, phase := if θ.i < M then .inLock (.L62 key) else .finished }, m, n)
  -- m.Lock(key) has returned: n++ reads n
  | .inLock (.ret _) => some ({ i := θ.i, phase := .incr (n key) }, m, n)
  -- inside m.Lock(key)
  | .inLock pc => (Maplock.step pc m).map fun c => ({ i := θ.i, phase := .inLock c.1 }, c.2, n)
  -- n++ writes n, then the call m.Unlock(key)
  | .incr tmp => some ({ i := θ.i, phase := .inUnlock (.U112 key) }, m, Function.update n key (tmp + 1))
  -- m.Unlock(key) has returned: i++
  | .inUnlock (.ret _) => some ({ i := θ.i + 1, phase := .loop }, m, n)
  -- inside m.Unlock(key)
  | .inUnlock pc => (Maplock.step pc m).map fun c => ({ i := θ.i, phase := .inUnlock c.1 }, c.2, n)
  | .finished => none

/-- The shared registry, the counters (one for each key) and the callers. -/
structure System (T : Type) (N : Nat) where
  m : MapLock T
  n : T → Nat
  threads : Fin N → Thread T

/-- The start: `m := New()`, `n := 0`, every caller at the head of its loop. -/
def System.init {T : Type} {N : Nat} : System T N :=
  { m := New, n := fun _ => 0, threads := fun _ => { i := 0, phase := .loop } }

/-- The system after caller `t` has moved to `θ`, leaving the registry `m`
and the counters `n`. -/
def System.set {T : Type} {N : Nat} (σ : System T N) (t : Fin N) (θ : Thread T) (m : MapLock T)
    (n : T → Nat) : System T N :=
  { m := m, n := n, threads := Function.update σ.threads t θ }

/-- The caller `t` executes one statement. -/
def System.step {T : Type} [DecidableEq T] {N : Nat} (key : Fin N → T) (M : Nat) (t : Fin N)
    (σ : System T N) : Option (System T N) :=
  ((σ.threads t).step (key t) M σ.m σ.n).map fun r => σ.set t r.1 r.2.1 r.2.2

/-- The states reached from the start by interleaving the callers. -/
inductive Reachable {T : Type} [DecidableEq T] {N : Nat} (key : Fin N → T) (M : Nat) :
    System T N → Prop where
  | init : Reachable key M System.init
  | step (σ σ1 : System T N) (t : Fin N) : Reachable key M σ → System.step key M t σ = some σ1 →
      Reachable key M σ1

/-- A caller holds the exclusive lock of its key from the moment
`nameLock.Lock()` (line 80) has succeeded inside `Lock` until
`nameLock.Unlock()` (line 122) has been executed inside `Unlock`. -/
def Phase.holding {T : Type} : Phase T → Bool
  | .inLock (.L81 _) => true
  | .inLock (.ret _) => true
  | .incr _ => true
  | .inUnlock .U124 => false
  | .inUnlock (.ret _) => false
  | .inUnlock _ => true
  | _ => false

/-- A caller has the registry guard between `l.mu.Lock()` and `l.mu.Unlock()`. -/
def Phase.guardHeld {T : Type} : Phase T → Bool
  | .inLock (.L63 _) => true
  | .inLock (.L67 _) => true
  | .inLock (.L75 _) => true
  | .inLock (.L76 _) => true
  | .inUnlock (.U113 _) => true
  | .inUnlock .U115 => true
  | .inUnlock (.U119 _ _) => true
  | .inUnlock (.U120 _ _ _) => true
  | .inUnlock (.U122 _) => true
  | .inUnlock .U124 => true
  | _ => false

/-- A caller is counted in `waiters` of the object at `p` between its `inc`
(line 75) and its `dec` (line 81). -/
def Phase.pending {T : Type} (p : Nat) : Phase T → Bool
  | .inLock (.L76 q) => decide (q = p)
  | .inLock (.L80 q) => decide (q = p)
  | .inLock (.L81 q) => decide (q = p)
  | _ => false

/-- The number of times a caller has executed `n++`. -/
def Thread.increments {T : Type} (θ : Thread T) : Nat :=
  match θ.phase with
  | .inUnlock _ => θ.i + 1
  | _ => θ.i

/-- The number of callers counted as waiters of the object at `p`. -/
def System.pendingOn {T : Type} {N : Nat} (σ : System T N) (p : Nat) : Nat :=
  ∑ t : Fin N, if (σ.threads t).phase.pending p then 1 else 0

/-- What a caller with key `k` knows where it stands (`k` is the argument of
its calls, `p` points to the entry of `k`, and so on). -/
def Thread.Ok {T : Type} (k : T) (M : Nat) (m : MapLock T) (n : T → Nat) (θ : Thread T) : Prop :=
  match θ.phase with
  | .loop => θ.i ≤ M
  | .finished => θ.i = M
  | .inLock (.L62 name) => θ.i < M ∧ name = k
  | .inLock (.L63 name) => θ.i < M ∧ name = k
  | .inLock (.L67 name) => θ.i < M ∧ name = k
  | .inLock (.L75 p) => θ.i < M ∧ m.lookup k = some p
  | .inLock (.L76 p) => θ.i < M ∧ m.lookup k = some p
  | .inLock (.L80 p) => θ.i < M ∧ m.lookup k = some p
  | .inLock (.L81 p) => θ.i < M ∧ m.lookup k = some p ∧ (m.heap p).mu.locked = true
  | .inLock (.ret _) => θ.i < M ∧ ∃ p, m.lookup k = some p ∧ (m.heap p).mu.locked = true
  | .incr tmp => θ.i < M ∧ tmp = n k ∧ ∃ p, m.lookup k = some p ∧ (m.heap p).mu.locked = true
  | .inUnlock (.U112 name) =>
    θ.i < M ∧ name = k ∧ ∃ p, m.lookup k = some p ∧ (m.heap p).mu.locked = true
  | .inUnlock (.U113 name) =>
    θ.i < M ∧ name = k ∧ ∃ p, m.lookup k = some p ∧ (m.heap p).mu.locked = true
  | .inUnlock (.U119 name p) =>
    θ.i < M ∧ name = k ∧ m.lookup k = some p ∧ (m.heap p).mu.locked = true
  | .inUnlock (.U120 name p c) =>
    θ.i < M ∧ name = k ∧ m.lookup k = some p ∧ (m.heap p).mu.locked = true ∧
      c = (m.heap p).waiters
  | .inUnlock (.U122 p) =>
    θ.i < M ∧ (m.heap p).mu.locked = true ∧
      (m.lookup k = some p ∨ (m.lookup k = none ∧ ∀ k1, m.lookup k1 ≠ some p))
  | .inUnlock .U124 => θ.i < M
  | .inUnlock (.ret _) => θ.i < M
  | _ => False

/-- The invariant of the interleaved system. -/
structure System.Inv {T : Type} [DecidableEq T] {N : Nat} (key : Fin N → T) (M : Nat) (σ : System T N) : Prop where
  ok : ∀ t, (σ.threads t).Ok (key t) M σ.m σ.n
  guardOwner : ∀ t, (σ.threads t).phase.guardHeld = true →
    σ.m.mu.locked = true ∧ ∀ t2, (σ.threads t2).phase.guardHeld = true → t2 = t
  guardOwned : σ.m.mu.locked = true → ∃ t, (σ.threads t).phase.guardHeld = true
  excl : ∀ t1 t2, (σ.threads t1).phase.holding = true → (σ.threads t2).phase.holding = true →
    key t1 = key t2 → t1 = t2
  owned : ∀ k p, σ.m.lookup k = some p → (σ.m.heap p).mu.locked = true →
    ∃ t, (σ.threads t).phase.holding = true ∧ key t = k
  count : ∀ p, (σ.m.heap p).waiters = (σ.pendingOn p : Int)
  below : ∀ k p, σ.m.lookup k = some p → p < σ.m.next
  inj : ∀ k1 k2 p, σ.m.lookup k1 = some p → σ.m.lookup k2 = some p → k1 = k2
  counter : ∀ k, σ.n k = ∑ t : Fin N, if key t = k then (σ.threads t).increments else 0
  map : σ.m.locks.isSome = true

/-- A caller has died: its call ended in a panic or in a fatal error. -/
def Phase.dead {T : Type} : Phase T → Bool
  | .inLock (.panicked _) => true
  | .inLock (.fatal _) => true
  | .inUnlock (.panicked _) => true
  | .inUnlock (.fatal _) => true
  | _ => false

/-- The number of statements a caller has passed in its current round. -/
def Phase.offset {T : Type} : Phase T → Nat
  | .loop => 0
  | .inLock (.L62 _) => 1
  | .inLock (.L63 _) => 2
  | .inLock (.L67 _) => 3
  | .inLock (.L75 _) => 4
  | .inLock (.L76 _) => 5
  | .inLock (.L80 _) => 6
  | .inLock (.L81 _) => 7
  | .inLock (.ret _) => 8
  | .incr _ => 9
  | .inUnlock (.U112 _) => 10
  | .inUnlock (.U113 _) => 11
  | .inUnlock (.U119 _ _) => 12
  | .inUnlock (.U120 _ _ _) => 13
  | .inUnlock (.U122 _) => 14
  | .inUnlock .U124 => 15
  | .inUnlock (.ret _) => 16
  | _ => 0

/-- The number of statements a caller still has to execute: seventeen for each
round (the loop test, seven of `Lock`, two of `n++`, six of `Unlock`, `i++`) and
the last loop test. -/
def Thread.remaining {T : Type} (M : Nat) (θ : Thread T) : Nat :=
  match θ.phase with
  | .finished => 0
  | ph => 17 * (M - θ.i) + 1 - ph.offset

/-- The number of statements the callers still have to execute. -/
def System.remaining {T : Type} {N : Nat} (M : Nat) (σ : System T N) : Nat :=
  ∑ t : Fin N, (σ.threads t).remaining M

/-- The callers of the list execute one statement each, in that order; a
caller that cannot proceed is skipped. -/
def System.runSchedule {T : Type} [DecidableEq T] {N : Nat} (key : Fin N → T) (M : Nat) :
    List (Fin N) → System T N → System T N
  | [], σ => σ
  | t :: ts, σ =>
    match System.step key M t σ with
    | some σ1 => System.runSchedule key M ts σ1
    | none => System.runSchedule key M ts σ

/-- The three callers of `Test2` (one round each on "foo"), run one after the
other: eighteen statements each. -/
def test2Schedule : List (Fin 3) :=
  List.replicate 18 0 ++ List.replicate 18 1 ++ List.replicate 18 2

/-- The state in which the three callers of `Test2` end. -/
def test2Final : System String 3 :=
  System.runSchedule (fun _ => "foo") 1 test2Schedule System.init

/-! ## Arbitrary callers

Any number of callers, each calling `Lock`, `TryLock` and `Unlock` on any keys
in any order, whether or not it follows the caller contract, interleaved
statement by statement. -/

/-- The first statement of a call. -/
def Call.start {T : Type} : Call T → Pc T
  | .Lock name => .L62 name
  | .TryLock name => .T86 name
  | .Unlock name => .U112 name

/-- What a caller does next: it starts a call, or it executes the next
statement of the call it is in. -/
inductive Move (T : Type) where
  | call (c : Call T)
  | exec
deriving DecidableEq, Repr

/-- A caller is between two calls: its last call has returned, or has panicked
and the panic was recovered. -/
def Pc.idle {T : Type} : Pc T → Bool
  | .ret _ => true
  | .panicked _ => true
  | _ => false

/-- The shared registry and the place where each caller stands. -/
structure Callers (T : Type) (N : Nat) where
  m : MapLock T
  pcs : Fin N → Pc T

/-- The start: `New()`, and no caller inside a call. -/
def Callers.init {T : Type} {N : Nat} : Callers T N :=
  { m := New, pcs := fun _ => .ret none }

/-- The callers after caller `t` has moved to `pc`, leaving the registry `m`. -/
def Callers.set {T : Type} {N : Nat} (σ : Callers T N) (t : Fin N) (pc : Pc T) (m : MapLock T) :
    Callers T N :=
  { m := m, pcs := Function.update σ.pcs t pc }

/-- The caller `t` makes the move `a`.  `none`: it cannot (it is inside a call
and asked to start one, it waits for a mutex, or it has nothing to execute). -/
def Callers.step {T : Type} [DecidableEq T] {N : Nat} (t : Fin N) (a : Move T) (σ : Callers T N) :
    Option (Callers T N) :=
  match a with
  | .call c => if (σ.pcs t).idle then some (σ.set t c.start σ.m) else none
  | .exec => (Maplock.step (σ.pcs t) σ.m).map fun r => σ.set t r.1 r.2

/-- The states reached from the start by any moves of any callers. -/
inductive Callers.Reachable {T : Type} [DecidableEq T] {N : Nat} : Callers T N → Prop where
  | init : Callers.Reachable Callers.init
  | step (σ σ1 : Callers T N) (t : Fin N) (a : Move T) : Callers.Reachable σ →
      Callers.step t a σ = some σ1 → Callers.Reachable σ1

/-- The moves of the list are made in that order; a move that cannot be made
is skipped. -/
def Callers.runMoves {T : Type} [DecidableEq T] {N : Nat} :
    List (Fin N × Move T) → Callers T N → Callers T N
  | [], σ => σ
  | x :: xs, σ =>
    match Callers.step x.1 x.2 σ with
    | some σ1 => Callers.runMoves xs σ1
    | none => Callers.runMoves xs σ

/-- A caller is counted in `waiters` of the object at `p`: it has executed
`inc` (line 75 or 99) and not yet `dec` (line 81 or 105) on it. -/
def Pc.counted {T : Type} (p : Nat) : Pc T → Bool
  | .L76 q => decide (q = p)
  | .L80 q => decide (q = p)
  | .L81 q => decide (q = p)
  | .T100 q => decide (q = p)
  | .T104 q _ => decide (q = p)
  | .T105 q _ => decide (q = p)
  | _ => false

/-- A caller holds the pointer `p` in `nameLock` and is about to count itself
on the object, or is counted on it. -/
def Pc.aims {T : Type} (p : Nat) : Pc T → Bool
  | .L75 q => decide (q = p)
  | .T99 q => decide (q = p)
  | pc => pc.counted p

/-- A caller is between `l.mu.Lock()` and the next `l.mu.Unlock()` of its call
(`TryLock` has none). -/
def Pc.hasGuard {T : Type} : Pc T → Bool
  | .L63 _ => true
  | .L67 _ => true
  | .L75 _ => true
  | .L76 _ => true
  | .T87 _ => true
  | .T91 _ => true
  | .T99 _ => true
  | .T100 _ => true
  | .T104 _ _ => true
  | .T105 _ _ => true
  | .U113 _ => true
  | .U115 => true
  | .U119 _ _ => true
  | .U120 _ _ _ => true
  | .U122 _ => true
  | .U124 => true
  | _ => false

/-- The number of callers counted on the object at `p`. -/
def Callers.countedOn {T : Type} {N : Nat} (σ : Callers T N) (p : Nat) : Nat :=
  ∑ t : Fin N, if (σ.pcs t).counted p then 1 else 0

/-- The invariant of arbitrary callers: the waiter count of every object is the
number of callers counted on it, the pointers in use are allocated, the value
read for the zero-check is not negative, and the guard is locked while a caller
is inside its guarded section, one caller at a time. -/
structure Callers.Inv {T : Type} {N : Nat} (σ : Callers T N) : Prop where
  count : ∀ p, (σ.m.heap p).waiters = (σ.countedOn p : Int)
  ptrs : ∀ t p, (σ.pcs t).aims p = true → p < σ.m.next
  below : ∀ k p, σ.m.lookup k = some p → p < σ.m.next
  read : ∀ t name p c, σ.pcs t = .U120 name p c → 0 ≤ c
  guardLocked : ∀ t, (σ.pcs t).hasGuard = true → σ.m.mu.locked = true
  guardOne : ∀ t1 t2, (σ.pcs t1).hasGuard = true → (σ.pcs t2).hasGuard = true → t1 = t2

/-- Two callers on the key "a": the first takes the lock, the second calls
`Lock("a")` and waits at line 80, the first calls `Unlock("a")` and has read the
count for the zero-check (line 119). -/
def contendedMoves : List (Fin 2 × Move String) :=
  (0, .call (.Lock "a")) :: List.replicate 7 (0, .exec) ++
  (1, .call (.Lock "a")) :: List.replicate 5 (1, .exec) ++
  (0, .call (.Unlock "a")) :: List.replicate 3 (0, .exec)

/-- The state reached by `contendedMoves`. -/
def contended : Callers String 2 :=
  Callers.runMoves contendedMoves Callers.init

/-! ## Statement-level lemmas -/

section stepEqs
variable {T : Type} [DecidableEq T] (l : MapLock T) (name : T) (p : Nat) (b : Bool) (c : Int)
@[simp] theorem step_L62 : step (.L62 name) l = (l.mu.Lock).map fun m => (.L63 name, l.setMu m) := rfl
@[simp] theorem step_L63 : step (.L63 name) l = some (.L67 name, l.makeIfNil) := rfl
@[simp] theorem step_L67 : step (.L67 name) l = (match l.lookupOrCreate name with
    | some r => some (.L75 r.1, r.2)
    | none => some (.panicked panicNilMap, l)) := rfl
@[simp] theorem step_L75 : step (.L75 p : Pc T) l = some (.L76 p, l.store p (l.heap p).inc) := rfl
@[simp] theorem step_L76 : step (.L76 p : Pc T) l = (match l.mu.Unlock with
    | some m => some (.L80 p, l.setMu m)
    | none => some (.fatal fatalUnlock, l)) := rfl
@[simp] theorem step_L80 : step (.L80 p : Pc T) l = ((l.heap p).Lock).map fun c => (.L81 p, l.store p c) := rfl
@[simp] theorem step_L81 : step (.L81 p : Pc T) l = some (.ret none, l.store p (l.heap p).dec) := rfl
@[simp] theorem step_T86 : step (.T86 name) l = (l.mu.Lock).map fun m => (.T87 name, l.setMu m) := rfl
@[simp] theorem step_T87 : step (.T87 name) l = some (.T91 name, l.makeIfNil) := rfl
@[simp] theorem step_T91 : step (.T91 name) l = (match l.lookupOrCreate name with
    | some r => some (.T99 r.1, r.2)
    | none => some (.panicked panicNilMap, l)) := rfl
@[simp] theorem step_T99 : step (.T99 p : Pc T) l = some (.T100 p, l.store p (l.heap p).inc) := rfl
@[simp] theorem step_T100 : step (.T100 p : Pc T) l = some (.T104 p (l.mu.TryLock).1, l.setMu (l.mu.TryLock).2) := rfl
@[simp] theorem step_T104 : step (.T104 p b : Pc T) l = ((l.heap p).Lock).map fun c => (.T105 p b, l.store p c) := rfl
@[simp] theorem step_T105 : step (.T105 p b : Pc T) l = some (.ret (some b), l.store p (l.heap p).dec) := rfl
@[simp] theorem step_U112 : step (.U112 name) l = (l.mu.Lock).map fun m => (.U113 name, l.setMu m) := rfl
@[simp] theorem step_U113 : step (.U113 name) l = (match l.lookup name with
    | none => some (.U115, l)
    | some p => some (.U119 name p, l)) := rfl
@[simp] theorem step_U115 : step (.U115 : Pc T) l = (match l.mu.Unlock with
    | some m => some (.panicked panicUnlock, l.setMu m)
    | none => some (.fatal fatalUnlock, l)) := rfl
@[simp] theorem step_U119 : step (.U119 name p) l = some (.U120 name p (l.heap p).count, l) := rfl
@[simp] theorem step_U120 : step (.U120 name p c) l = some (.U122 p, if c = 0 then l.delete name else l) := rfl
@[simp] theorem step_U122 : step (.U122 p : Pc T) l = (match (l.heap p).Unlock with
    | some c => some (.U124, l.store p c)
    | none => some (.fatal fatalUnlock, l)) := rfl
@[simp] theorem step_U124 : step (.U124 : Pc T) l = (match l.mu.Unlock with
    | some m => some (.ret none, l.setMu m)
    | none => some (.fatal fatalUnlock, l)) := rfl
@[simp] theorem step_ret (v : Option Bool) : step (.ret v : Pc T) l = none := rfl
@[simp] theorem step_panicked (msg : String) : step (.panicked msg : Pc T) l = none := rfl
@[simp] theorem step_fatal (msg : String) : step (.fatal msg : Pc T) l = none := rfl
end stepEqs

section basics
variable {T : Type} [DecidableEq T]

@[simp] theorem run_zero (c : Pc T × MapLock T) : run 0 c = c := rfl

@[simp] theorem run_succ (n : Nat) (pc : Pc T) (l : MapLock T) :
    run (n + 1) (pc, l) = (match step pc l with
      | none => (pc, l)
      | some c' => run n c') := rfl

omit [DecidableEq T] in
theorem lookup_eq_bind (l : MapLock T) (k : T) : l.lookup k = l.locks.bind fun m => m k := by
  cases l with | mk g m h n => cases m <;> rfl

omit [DecidableEq T] in
@[simp] theorem lookup_mk (g : Mutex) (m : Option (T → Option Nat)) (h : Nat → lockCtr) (n : Nat) (k : T) :
    (MapLock.mk g m h n).lookup k = m.bind fun f => f k := by
  cases m <;> rfl

omit [DecidableEq T] in
@[simp] theorem lookup_setMu (l : MapLock T) (m : Mutex) (k : T) : (l.setMu m).lookup k = l.lookup k := by
  simp [MapLock.setMu, lookup_eq_bind]

omit [DecidableEq T] in
@[simp] theorem heap_setMu (l : MapLock T) (m : Mutex) : (l.setMu m).heap = l.heap := rfl

omit [DecidableEq T] in
@[simp] theorem mu_setMu (l : MapLock T) (m : Mutex) : (l.setMu m).mu = m := rfl

omit [DecidableEq T] in
@[simp] theorem next_setMu (l : MapLock T) (m : Mutex) : (l.setMu m).next = l.next := rfl

omit [DecidableEq T] in
@[simp] theorem lookup_store (l : MapLock T) (p : Nat) (c : lockCtr) (k : T) :
    (l.store p c).lookup k = l.lookup k := by
  simp [MapLock.store, lookup_eq_bind]

omit [DecidableEq T] in
theorem heap_store (l : MapLock T) (p : Nat) (c : lockCtr) (q : Nat) :
    (l.store p c).heap q = if q = p then c else l.heap q := by
  simp [MapLock.store, Function.update]

omit [DecidableEq T] in
@[simp] theorem mu_store (l : MapLock T) (p : Nat) (c : lockCtr) : (l.store p c).mu = l.mu := rfl

omit [DecidableEq T] in
@[simp] theorem next_store (l : MapLock T) (p : Nat) (c : lockCtr) : (l.store p c).next = l.next := rfl

omit [DecidableEq T] in
@[simp] theorem lookup_makeIfNil (l : MapLock T) (k : T) : l.makeIfNil.lookup k = l.lookup k := by
  cases l with | mk g m h n => cases m <;> rfl

omit [DecidableEq T] in
@[simp] theorem heap_makeIfNil (l : MapLock T) : l.makeIfNil.heap = l.heap := by
  cases l with | mk g m h n => cases m <;> rfl

omit [DecidableEq T] in
@[simp] theorem mu_makeIfNil (l : MapLock T) : l.makeIfNil.mu = l.mu := by
  cases l with | mk g m h n => cases m <;> rfl

omit [DecidableEq T] in
@[simp] theorem next_makeIfNil (l : MapLock T) : l.makeIfNil.next = l.next := by
  cases l with | mk g m h n => cases m <;> rfl

theorem lookup_delete (l : MapLock T) (name k : T) :
    (l.delete name).lookup k = if k = name then none else l.lookup k := by
  cases l with | mk g m h n =>
  cases m with
  | none => simp [MapLock.delete]
  | some f => by_cases hk : k = name <;> simp [MapLock.delete, Function.update, hk]

@[simp] theorem heap_delete (l : MapLock T) (name : T) : (l.delete name).heap = l.heap := by
  cases l with | mk g m h n => cases m <;> rfl

@[simp] theorem mu_delete (l : MapLock T) (name : T) : (l.delete name).mu = l.mu := by
  cases l with | mk g m h n => cases m <;> rfl

@[simp] theorem next_delete (l : MapLock T) (name : T) : (l.delete name).next = l.next := by
  cases l with | mk g m h n => cases m <;> rfl

omit [DecidableEq T] in
@[simp] theorem locks_setMu (l : MapLock T) (m : Mutex) : (l.setMu m).locks = l.locks := rfl

omit [DecidableEq T] in
@[simp] theorem locks_store (l : MapLock T) (p : Nat) (c : lockCtr) : (l.store p c).locks = l.locks := rfl

omit [DecidableEq T] in
@[simp] theorem locks_isSome_makeIfNil (l : MapLock T) : l.makeIfNil.locks.isSome = true := by
  cases l with | mk g m h n => cases m <;> rfl

theorem locks_isSome_delete (l : MapLock T) (name : T) (h : l.locks.isSome = true) :
    (l.delete name).locks.isSome = true := by
  cases l with | mk g m h n =>
  cases m with
  | none => exact h
  | some f => rfl

theorem locks_isSome_lookupOrCreateD (l : MapLock T) (name : T) (h : l.locks.isSome = true) :
    (l.lookupOrCreateD name).2.locks.isSome = true := by
  unfold MapLock.lookupOrCreateD MapLock.create
  split
  · exact h
  · rfl

/-- On a map that is not nil `lookupOrCreate` does not panic. -/
theorem lookupOrCreate_eq (l : MapLock T) (name : T) (h : l.locks.isSome = true) :
    l.lookupOrCreate name = some (l.lookupOrCreateD name) := by
  cases l with | mk g m hp n =>
  cases m with
  | none => cases h
  | some f =>
    simp only [MapLock.lookupOrCreate, MapLock.lookupOrCreateD, MapLock.lookup, Option.getD]
    cases f name <;> rfl

/-- On a nil map `lookupOrCreate` panics. -/
theorem lookupOrCreate_nil (l : MapLock T) (name : T) (h : l.locks = none) :
    l.lookupOrCreate name = none := by
  cases l with | mk g m hp n =>
  simp only at h
  subst h
  rfl

@[simp] theorem lookupOrCreate_makeIfNil (l : MapLock T) (name : T) :
    l.makeIfNil.lookupOrCreate name = some (l.makeIfNil.lookupOrCreateD name) :=
  lookupOrCreate_eq _ _ (locks_isSome_makeIfNil l)

@[simp] theorem mu_lookupOrCreateD (l : MapLock T) (name : T) : (l.lookupOrCreateD name).2.mu = l.mu := by
  unfold MapLock.lookupOrCreateD MapLock.create
  split <;> rfl

theorem fst_lookupOrCreateD (l : MapLock T) (name : T) :
    (l.lookupOrCreateD name).1 = (l.lookup name).getD l.next := by
  unfold MapLock.lookupOrCreateD MapLock.create
  split <;> simp [*]

theorem lookup_lookupOrCreateD (l : MapLock T) (name k : T) :
    (l.lookupOrCreateD name).2.lookup k =
      if k = name then some ((l.lookup name).getD l.next) else l.lookup k := by
  unfold MapLock.lookupOrCreateD MapLock.create
  split
  · rename_i p hp
    by_cases hk : k = name <;> simp [hk, hp]
  · rename_i hp
    by_cases hk : k = name
    · simp [hk, hp]
    · simp [hk, Function.update, lookup_eq_bind]
      cases l.locks <;> rfl

theorem heap_lookupOrCreateD (l : MapLock T) (name : T) (q : Nat) :
    (l.lookupOrCreateD name).2.heap q =
      if (l.lookup name).isSome then l.heap q
      else if q = l.next then lockCtr.zero else l.heap q := by
  unfold MapLock.lookupOrCreateD MapLock.create
  split <;> simp [*, Function.update]

theorem next_lookupOrCreateD (l : MapLock T) (name : T) :
    (l.lookupOrCreateD name).2.next = if (l.lookup name).isSome then l.next else l.next + 1 := by
  unfold MapLock.lookupOrCreateD MapLock.create
  split <;> simp [*]

theorem lookupOrCreateD_of_some (l : MapLock T) (name : T) (p : Nat) (h : l.lookup name = some p) :
    l.lookupOrCreateD name = (p, l) := by
  simp [MapLock.lookupOrCreateD, h]

theorem lookupOrCreateD_of_none (l : MapLock T) (name : T) (h : l.lookup name = none) :
    l.lookupOrCreateD name = (l.next, l.create (l.locks.getD (fun _ => none)) name) := by
  simp [MapLock.lookupOrCreateD, h]

theorem mutex_eq_of_locked (m : Mutex) (b : Bool) (h : m.locked = b) : m = { locked := b } := by
  cases m
  simp_all

theorem wrapInt32_of_inInt32 (x : Int) (h : inInt32 x) : wrapInt32 x = x := by
  unfold inInt32 at h
  unfold wrapInt32
  omega

theorem wrapInt32_inc_dec (x : Int) (h : inInt32 x) : wrapInt32 (wrapInt32 (x + 1) + -1) = x := by
  unfold inInt32 at h
  unfold wrapInt32
  omega

theorem inInt32_wrapInt32 (x : Int) : inInt32 (wrapInt32 x) := by
  unfold inInt32 wrapInt32
  omega

end basics

section methods
variable {T : Type} [DecidableEq T]

/-! ## What each method does, case by case -/

/-- `Lock` on a registry whose guard is taken waits at line 62. -/
theorem Lock_guard_taken (l : MapLock T) (K : T) (hg : l.mu.locked = true) :
    l.Lock K = (.L62 K, l) := by
  simp [MapLock.Lock, Mutex.Lock, hg]

/-- `Lock` of a key whose entry exists and is unlocked: it returns with the
entry locked and the counter incremented and decremented once. -/
theorem Lock_present_free (l : MapLock T) (K : T) (p : Nat) (hg : l.mu.locked = false)
    (hp : l.lookup K = some p) (hfree : (l.heap p).mu.locked = false) :
    (l.Lock K).1 = .ret none ∧ (l.Lock K).2.mu.locked = false ∧
    (∀ k, (l.Lock K).2.lookup k = l.lookup k) ∧
    (∀ q, (l.Lock K).2.heap q = if q = p then
      ⟨⟨true⟩, wrapInt32 (wrapInt32 ((l.heap p).waiters + 1) + -1)⟩ else l.heap q) ∧
    (l.Lock K).2.next = l.next := by
  simp [MapLock.Lock, Mutex.Lock, Mutex.Unlock, lockCtr.Lock, lockCtr.inc, lockCtr.dec,
    fst_lookupOrCreateD, lookup_lookupOrCreateD, heap_lookupOrCreateD, next_lookupOrCreateD, heap_store,
    hg, hp, hfree]
  intro q
  by_cases hq : q = p <;> simp [hq]

/-- `Lock` of a key whose entry is locked: the caller waits at line 80, counted
as a waiter, with the guard released. -/
theorem Lock_present_held (l : MapLock T) (K : T) (p : Nat) (hg : l.mu.locked = false)
    (hp : l.lookup K = some p) (hheld : (l.heap p).mu.locked = true) :
    (l.Lock K).1 = .L80 p ∧ (l.Lock K).2.mu.locked = false ∧
    (∀ k, (l.Lock K).2.lookup k = l.lookup k) ∧
    (∀ q, (l.Lock K).2.heap q = if q = p then
      ⟨⟨true⟩, wrapInt32 ((l.heap p).waiters + 1)⟩ else l.heap q) ∧
    (l.Lock K).2.next = l.next := by
  have hm := mutex_eq_of_locked _ _ hheld
  simp [MapLock.Lock, Mutex.Lock, Mutex.Unlock, lockCtr.Lock, lockCtr.inc, lockCtr.dec,
    fst_lookupOrCreateD, lookup_lookupOrCreateD, heap_lookupOrCreateD, next_lookupOrCreateD, heap_store,
    hg, hp, hheld, hm]

/-- `Lock` of a key without entry: it returns with a new, locked entry whose
counter is 0. -/
theorem Lock_absent (l : MapLock T) (K : T) (hg : l.mu.locked = false)
    (hp : l.lookup K = none) :
    (l.Lock K).1 = .ret none ∧ (l.Lock K).2.mu.locked = false ∧
    (∀ k, (l.Lock K).2.lookup k = if k = K then some l.next else l.lookup k) ∧
    (∀ q, (l.Lock K).2.heap q = if q = l.next then ⟨⟨true⟩, 0⟩ else l.heap q) ∧
    (l.Lock K).2.next = l.next + 1 := by
  have h1 : wrapInt32 (wrapInt32 1 + -1) = 0 := by decide
  simp [MapLock.Lock, Mutex.Lock, Mutex.Unlock, lockCtr.Lock, lockCtr.inc, lockCtr.dec,
    fst_lookupOrCreateD, lookup_lookupOrCreateD, heap_lookupOrCreateD, next_lookupOrCreateD, heap_store,
    hg, hp, lockCtr.zero, h1]
  intro q
  by_cases hq : q = l.next <;> simp [hq]

/-- `TryLock` on a registry whose guard is taken waits at line 86. -/
theorem TryLock_guard_taken (l : MapLock T) (K : T) (hg : l.mu.locked = true) :
    l.TryLock K = (.T86 K, l) := by
  simp [MapLock.TryLock, Mutex.Lock, hg]

/-- `TryLock` of a key whose entry exists and is unlocked: line 100 tries the
guard, which the caller itself holds, so `try` is false; line 104 then locks
the entry; the call returns false and keeps the guard. -/
theorem TryLock_present_free (l : MapLock T) (K : T) (p : Nat) (hg : l.mu.locked = false)
    (hp : l.lookup K = some p) (hfree : (l.heap p).mu.locked = false) :
    (l.TryLock K).1 = .ret (some false) ∧ (l.TryLock K).2.mu.locked = true ∧
    (∀ k, (l.TryLock K).2.lookup k = l.lookup k) ∧
    (∀ q, (l.TryLock K).2.heap q = if q = p then
      ⟨⟨true⟩, wrapInt32 (wrapInt32 ((l.heap p).waiters + 1) + -1)⟩ else l.heap q) ∧
    (l.TryLock K).2.next = l.next := by
  simp [MapLock.TryLock, Mutex.Lock, Mutex.TryLock, lockCtr.Lock, lockCtr.inc, lockCtr.dec,
    fst_lookupOrCreateD, lookup_lookupOrCreateD, heap_lookupOrCreateD, next_lookupOrCreateD, heap_store,
    hg, hp, hfree]
  intro q
  by_cases hq : q = p <;> simp [hq]

/-- `TryLock` of a key whose entry is locked: the caller waits at line 104 for
the entry, counted as a waiter and holding the guard. -/
theorem TryLock_present_held (l : MapLock T) (K : T) (p : Nat) (hg : l.mu.locked = false)
    (hp : l.lookup K = some p) (hheld : (l.heap p).mu.locked = true) :
    (l.TryLock K).1 = .T104 p false ∧ (l.TryLock K).2.mu.locked = true ∧
    (∀ k, (l.TryLock K).2.lookup k = l.lookup k) ∧
    (∀ q, (l.TryLock K).2.heap q = if q = p then
      ⟨⟨true⟩, wrapInt32 ((l.heap p).waiters + 1)⟩ else l.heap q) ∧
    (l.TryLock K).2.next = l.next := by
  have hm := mutex_eq_of_locked _ _ hheld
  simp [MapLock.TryLock, Mutex.Lock, Mutex.TryLock, lockCtr.Lock, lockCtr.inc, lockCtr.dec,
    fst_lookupOrCreateD, lookup_lookupOrCreateD, heap_lookupOrCreateD, next_lookupOrCreateD, heap_store,
    hg, hp, hheld, hm]

/-- `TryLock` of a key without entry: the entry is created and locked, and the
call returns false keeping the guard. -/
theorem TryLock_absent (l : MapLock T) (K : T) (hg : l.mu.locked = false)
    (hp : l.lookup K = none) :
    (l.TryLock K).1 = .ret (some false) ∧ (l.TryLock K).2.mu.locked = true ∧
    (∀ k, (l.TryLock K).2.lookup k = if k = K then some l.next else l.lookup k) ∧
    (∀ q, (l.TryLock K).2.heap q = if q = l.next then ⟨⟨true⟩, 0⟩ else l.heap q) ∧
    (l.TryLock K).2.next = l.next + 1 := by
  have h1 : wrapInt32 (wrapInt32 1 + -1) = 0 := by decide
  simp [MapLock.TryLock, Mutex.Lock, Mutex.TryLock, lockCtr.Lock, lockCtr.inc, lockCtr.dec,
    fst_lookupOrCreateD, lookup_lookupOrCreateD, heap_lookupOrCreateD, next_lookupOrCreateD, heap_store,
    hg, hp, lockCtr.zero, h1]
  intro q
  by_cases hq : q = l.next <;> simp [hq]

/-- `TryLock` never returns true, whatever the registry and the key. -/
theorem TryLock_never_true (l : MapLock T) (K : T) : (l.TryLock K).1 ≠ .ret (some true) := by
  cases hg : l.mu.locked with
  | true => simp [TryLock_guard_taken l K hg]
  | false =>
    cases hp : l.lookup K with
    | none => simp [(TryLock_absent l K hg hp).1]
    | some p =>
      cases hh : (l.heap p).mu.locked with
      | true => simp [(TryLock_present_held l K p hg hp hh).1]
      | false => simp [(TryLock_present_free l K p hg hp hh).1]

/-- `Unlock` on a registry whose guard is taken waits at line 112. -/
theorem Unlock_guard_taken (l : MapLock T) (K : T) (hg : l.mu.locked = true) :
    l.Unlock K = (.U112 K, l) := by
  simp [MapLock.Unlock, Mutex.Lock, hg]

/-- `Unlock` of a key without entry panics and leaves the registry as it was. -/
theorem Unlock_absent (l : MapLock T) (K : T) (hg : l.mu.locked = false)
    (hp : l.lookup K = none) :
    l.Unlock K = (.panicked panicUnlock, l) := by
  have hm := mutex_eq_of_locked _ _ hg
  cases l with | mk g m h n =>
  simp only at hm
  subst hm
  simp only [lookup_mk] at hp
  simp [MapLock.Unlock, Mutex.Lock, Mutex.Unlock, MapLock.setMu, hp]

/-- `Unlock` of a key whose entry is locked: the entry leaves the map exactly
when its counter is 0, and its mutex is unlocked. -/
theorem Unlock_present_held (l : MapLock T) (K : T) (p : Nat) (hg : l.mu.locked = false)
    (hp : l.lookup K = some p) (hheld : (l.heap p).mu.locked = true) :
    (l.Unlock K).1 = .ret none ∧ (l.Unlock K).2.mu.locked = false ∧
    (∀ k, (l.Unlock K).2.lookup k =
      if k = K ∧ (l.heap p).waiters = 0 then none else l.lookup k) ∧
    (∀ q, (l.Unlock K).2.heap q = if q = p then ⟨⟨false⟩, (l.heap p).waiters⟩ else l.heap q) ∧
    (l.Unlock K).2.next = l.next := by
  by_cases hw : (l.heap p).waiters = 0 <;>
  simp [MapLock.Unlock, Mutex.Lock, Mutex.Unlock, lockCtr.Unlock, lockCtr.count, heap_store,
    lookup_delete, hg, hp, hheld, hw]

/-- `Unlock` of a key whose entry is not locked dies of the runtime's
"unlock of unlocked mutex", after the zero-check and with the guard kept. -/
theorem Unlock_present_free (l : MapLock T) (K : T) (p : Nat) (hg : l.mu.locked = false)
    (hp : l.lookup K = some p) (hfree : (l.heap p).mu.locked = false) :
    (l.Unlock K).1 = .fatal fatalUnlock ∧ (l.Unlock K).2.mu.locked = true ∧
    (∀ k, (l.Unlock K).2.lookup k =
      if k = K ∧ (l.heap p).waiters = 0 then none else l.lookup k) ∧
    (∀ q, (l.Unlock K).2.heap q = l.heap q) ∧
    (l.Unlock K).2.next = l.next := by
  by_cases hw : (l.heap p).waiters = 0 <;>
  simp [MapLock.Unlock, Mutex.Lock, Mutex.Unlock, lockCtr.Unlock, lockCtr.count, heap_store,
    lookup_delete, hg, hp, hfree, hw]

/-- Seven statements are enough for `Lock`: where the call stands after them,
nothing is left to execute (it has returned, or it waits for a mutex). -/
theorem Lock_stops (l : MapLock T) (K : T) : step (l.Lock K).1 (l.Lock K).2 = none := by
  cases hg : l.mu.locked with
  | true => simp [Lock_guard_taken l K hg, Mutex.Lock, hg]
  | false =>
    cases hp : l.lookup K with
    | none => simp [(Lock_absent l K hg hp).1]
    | some p =>
      cases hh : (l.heap p).mu.locked with
      | true =>
        obtain ⟨h1, _, _, h4, _⟩ := Lock_present_held l K p hg hp hh
        simp [h1, h4, lockCtr.Lock, Mutex.Lock]
      | false => simp [(Lock_present_free l K p hg hp hh).1]

/-- Seven statements are enough for `TryLock`. -/
theorem TryLock_stops (l : MapLock T) (K : T) :
    step (l.TryLock K).1 (l.TryLock K).2 = none := by
  cases hg : l.mu.locked with
  | true => simp [TryLock_guard_taken l K hg, Mutex.Lock, hg]
  | false =>
    cases hp : l.lookup K with
    | none => simp [(TryLock_absent l K hg hp).1]
    | some p =>
      cases hh : (l.heap p).mu.locked with
      | true =>
        obtain ⟨h1, _, _, h4, _⟩ := TryLock_present_held l K p hg hp hh
        simp [h1, h4, lockCtr.Lock, Mutex.Lock]
      | false => simp [(TryLock_present_free l K p hg hp hh).1]

/-- Seven statements are enough for `Unlock`. -/
theorem Unlock_stops (l : MapLock T) (K : T) : step (l.Unlock K).1 (l.Unlock K).2 = none := by
  cases hg : l.mu.locked with
  | true => simp [Unlock_guard_taken l K hg, Mutex.Lock, hg]
  | false =>
    cases hp : l.lookup K with
    | none => simp [Unlock_absent l K hg hp]
    | some p =>
      cases hh : (l.heap p).mu.locked with
      | true => simp [(Unlock_present_held l K p hg hp hh).1]
      | false => simp [(Unlock_present_free l K p hg hp hh).1]

end methods

section claims
variable {T : Type} [DecidableEq T]

/-! ## The claims about single calls -/

omit [DecidableEq T] in
theorem entry_eq_none_iff (l : MapLock T) (k : T) : l.entry k = none ↔ l.lookup k = none := by
  simp [MapLock.entry]

omit [DecidableEq T] in
theorem entry_eq_some_iff (l : MapLock T) (k : T) (c : lockCtr) :
    l.entry k = some c ↔ ∃ p, l.lookup k = some p ∧ l.heap p = c := by
  simp [MapLock.entry]

omit [DecidableEq T] in
theorem New_WF : (New : MapLock T).WF := by
  constructor <;> simp [New, MapLock.lookup]

/-- C2, on the code: with "a" held and the guard free, `TryLock("b")` of the key
"b", which has no entry, returns false and not true (line 100 tries the registry
guard, which the call itself holds), although it has locked the entry of "b". -/
theorem TryLock_unheld_key_returns_false :
    heldA.mu.locked = false ∧ heldA.isHeld "a" = true ∧ heldA.entry "b" = none ∧
    (heldA.TryLock "b").1 = Pc.ret (some false) ∧
    (heldA.TryLock "b").2.isHeld "b" = true := by
  decide

/-- C3, on the code: `TryLock("a")` while "a" is held does not return false: it
waits at line 104 (the blocking `nameLock.Lock()`), holding the registry guard
and counted as a waiter of "a" (count 1 instead of 0); the holder's
`Unlock("a")` then waits for the guard at line 112, so the wait never ends. -/
theorem TryLock_held_key_waits :
    heldA.mu.locked = false ∧ heldA.isHeld "a" = true ∧ heldA.waitersOf "a" = some 0 ∧
    (heldA.TryLock "a").1 = Pc.T104 0 false ∧
    step (heldA.TryLock "a").1 (heldA.TryLock "a").2 = none ∧
    (heldA.TryLock "a").2.mu.locked = true ∧
    (heldA.TryLock "a").2.waitersOf "a" = some 1 ∧
    ((heldA.TryLock "a").2.Unlock "a").1 = Pc.U112 "a" := by
  refine ⟨by decide, by decide, by decide, by decide, ?_, by decide, by decide, by decide⟩
  rfl

/-- C4, on the code: `TryLock("a")` on a fresh registry returns false and yet
leaves the lock of "a", which had no entry, locked. -/
theorem TryLock_false_leaves_key_locked :
    (New : MapLock String).isHeld "a" = false ∧
    ((New : MapLock String).TryLock "a").1 = Pc.ret (some false) ∧
    ((New : MapLock String).TryLock "a").2.isHeld "a" = true := by
  decide

/-- C5, on the code: `TryLock("a")` on a fresh registry returns with the
registry guard still locked, and a following `Lock("b")` or `Unlock("a")` waits
for the guard at line 62 or 112. -/
theorem TryLock_keeps_guard :
    (New : MapLock String).mu.locked = false ∧
    ((New : MapLock String).TryLock "a").1 = Pc.ret (some false) ∧
    ((New : MapLock String).TryLock "a").2.mu.locked = true ∧
    (((New : MapLock String).TryLock "a").2.Lock "b").1 = Pc.L62 "b" ∧
    (((New : MapLock String).TryLock "a").2.Unlock "a").1 = Pc.U112 "a" := by
  decide

end claims

section claims2
variable {T : Type} [DecidableEq T]

/-- Whatever the key, `TryLock` started with the guard free ends (returned or
waiting) with the guard locked. -/
theorem TryLock_guard_kept (l : MapLock T) (K : T) (hg : l.mu.locked = false) :
    (l.TryLock K).2.mu.locked = true := by
  cases hp : l.lookup K with
  | none => exact (TryLock_absent l K hg hp).2.1
  | some p =>
    cases hh : (l.heap p).mu.locked with
    | true => exact (TryLock_present_held l K p hg hp hh).2.1
    | false => exact (TryLock_present_free l K p hg hp hh).2.1

/-- Whatever the key, `Lock` started with the guard free ends (returned or
waiting for the entry) with the guard free. -/
theorem Lock_guard_released (l : MapLock T) (K : T) (hg : l.mu.locked = false) :
    (l.Lock K).2.mu.locked = false := by
  cases hp : l.lookup K with
  | none => exact (Lock_absent l K hg hp).2.1
  | some p =>
    cases hh : (l.heap p).mu.locked with
    | true => exact (Lock_present_held l K p hg hp hh).2.1
    | false => exact (Lock_present_free l K p hg hp hh).2.1

/-- When `Unlock` started with the guard free returns or panics, the guard is
free again. -/
theorem Unlock_guard_released (l : MapLock T) (K : T) (hg : l.mu.locked = false)
    (hend : (l.Unlock K).1 = .ret none ∨ (l.Unlock K).1 = .panicked panicUnlock) :
    (l.Unlock K).2.mu.locked = false := by
  cases hp : l.lookup K with
  | none => rw [Unlock_absent l K hg hp]; exact hg
  | some p =>
    cases hh : (l.heap p).mu.locked with
    | true => exact (Unlock_present_held l K p hg hp hh).2.1
    | false =>
      have h1 := (Unlock_present_free l K p hg hp hh).1
      rw [h1] at hend
      simp at hend

/-- C6, on the code: after a completed `TryLock("a")` on a fresh registry (it
returned false) the key "b" has no entry, and `Unlock("b")` does not panic: it
waits at line 112 for the registry guard, which `TryLock` has left locked, with
no step enabled and the registry as it was, so the wait never ends. -/
theorem Unlock_without_entry_waits_after_TryLock :
    ((New : MapLock String).TryLock "a").1 = Pc.ret (some false) ∧
    triedA.entry "b" = none ∧ triedA.mu.locked = true ∧
    (triedA.Unlock "b").1 = Pc.U112 "b" ∧
    ¬ (triedA.Unlock "b").1 = Pc.panicked "unlock of unlocked entry" ∧
    step (triedA.Unlock "b").1 (triedA.Unlock "b").2 = none ∧
    (triedA.Unlock "b").2 = triedA := by
  have hu : triedA.Unlock "b" = (Pc.U112 "b", triedA) := Unlock_guard_taken triedA "b" (by decide)
  refine ⟨by decide, by decide, by decide, by decide, by decide, ?_, ?_⟩
  · rw [hu]
    rfl
  · rw [hu]

/-- Where the guard is free (which it is as long as no `TryLock` has been
called), `Unlock(K)` of a key without entry panics with "unlock of unlocked
entry" and leaves the whole registry, hence every entry, as it was. -/
theorem Unlock_without_entry_panics (l : MapLock T) (K : T) (hg : l.mu.locked = false)
    (hK : l.entry K = none) :
    (l.Unlock K).1 = Pc.panicked "unlock of unlocked entry" ∧ (l.Unlock K).2 = l ∧
    ∀ k, (l.Unlock K).2.entry k = l.entry k := by
  have h := Unlock_absent l K hg ((entry_eq_none_iff l K).1 hK)
  rw [h]
  exact ⟨rfl, rfl, fun _ => rfl⟩

/-- Example: the second `Unlock("foo")` of `Lock("foo"); Unlock("foo");
Unlock("foo")` on a fresh registry panics. -/
theorem Unlock_without_entry_panics_witness :
    releasedFoo.mu.locked = false ∧ releasedFoo.entry "foo" = none ∧
    (releasedFoo.Unlock "foo").1 = Pc.panicked "unlock of unlocked entry" ∧
    (releasedFoo.Unlock "foo").2 = releasedFoo ∧
    ∀ k, (releasedFoo.Unlock "foo").2.entry k = releasedFoo.entry k :=
  ⟨by decide, by decide, Unlock_without_entry_panics releasedFoo "foo" (by decide) (by decide)⟩

/-- `Lock(K); Unlock(K)` of a key without entry: both calls return, the map is
as before, and the heap changes only at the address that was allocated. -/
theorem lockUnlock_absent (l : MapLock T) (K : T) (hg : l.mu.locked = false)
    (hp : l.lookup K = none) :
    (l.lockUnlock K).1 = .ret none ∧ (l.lockUnlock K).2.mu.locked = false ∧
    (∀ k, (l.lockUnlock K).2.lookup k = l.lookup k) ∧
    (∀ q, q ≠ l.next → (l.lockUnlock K).2.heap q = l.heap q) ∧
    (l.lockUnlock K).2.next = l.next + 1 := by
  obtain ⟨h1, h2, h3, h4, h5⟩ := Lock_absent l K hg hp
  have e : l.Lock K = (.ret none, (l.Lock K).2) := by rw [← h1]
  have hl : l.lockUnlock K = (l.Lock K).2.Unlock K := by
    unfold MapLock.lockUnlock
    rw [e]
  have hp' : (l.Lock K).2.lookup K = some l.next := by simp [h3]
  have hh' : ((l.Lock K).2.heap l.next).mu.locked = true := by simp [h4]
  obtain ⟨u1, u2, u3, u4, u5⟩ := Unlock_present_held _ K l.next h2 hp' hh'
  rw [hl]
  refine ⟨u1, u2, ?_, ?_, by rw [u5, h5]⟩
  · intro k
    rw [u3, h3]
    by_cases hk : k = K
    · simp [hk, h4, hp]
    · simp [hk]
  · intro q hq
    simp [u4, h4, hq]

/-- The pair `Lock(K); Unlock(K)` of a key without entry keeps a registry
well formed and leaves every entry as it was. -/
theorem lockUnlock_absent_entries (l : MapLock T) (K : T) (hwf : l.WF) (hg : l.mu.locked = false)
    (hp : l.lookup K = none) :
    (l.lockUnlock K).1 = .ret none ∧ (l.lockUnlock K).2.mu.locked = false ∧
    (l.lockUnlock K).2.WF ∧ ∀ k, (l.lockUnlock K).2.entry k = l.entry k := by
  obtain ⟨h1, h2, h3, h4, h5⟩ := lockUnlock_absent l K hg hp
  have hheap : ∀ k p, l.lookup k = some p → (l.lockUnlock K).2.heap p = l.heap p := by
    intro k p hk
    exact h4 p (Nat.ne_of_lt (hwf.below k p hk))
  refine ⟨h1, h2, ⟨?_, ?_, ?_⟩, ?_⟩
  · intro k p hk
    rw [h3] at hk
    rw [h5]
    exact Nat.lt_succ_of_lt (hwf.below k p hk)
  · intro k1 k2 p hk1 hk2
    rw [h3] at hk1 hk2
    exact hwf.inj k1 k2 p hk1 hk2
  · intro k p hk
    rw [h3] at hk
    rw [hheap k p hk]
    exact hwf.range k p hk
  · intro k
    unfold MapLock.entry
    rw [h3]
    cases hk : l.lookup k with
    | none => rfl
    | some p => simp [hheap k p hk]

/-- Any finite sequence of `Lock(k); Unlock(k)` pairs on keys without entry
returns and leaves every entry as it was. -/
theorem lockUnlockAll_absent (ks : List T) (l : MapLock T) (hwf : l.WF) (hg : l.mu.locked = false)
    (hks : ∀ k ∈ ks, l.entry k = none) :
    (MapLock.lockUnlockAll ks l).1 = .ret none ∧
    (MapLock.lockUnlockAll ks l).2.mu.locked = false ∧
    ∀ k, (MapLock.lockUnlockAll ks l).2.entry k = l.entry k := by
  induction ks generalizing l with
  | nil => exact ⟨rfl, hg, fun _ => rfl⟩
  | cons K ks ih =>
    have hK : l.lookup K = none := (entry_eq_none_iff l K).1 (hks K (List.mem_cons_self K ks))
    obtain ⟨h1, h2, h3, h4⟩ := lockUnlock_absent_entries l K hwf hg hK
    have e : l.lockUnlock K = (.ret none, (l.lockUnlock K).2) := by rw [← h1]
    have hrec : MapLock.lockUnlockAll (K :: ks) l = MapLock.lockUnlockAll ks (l.lockUnlock K).2 := by
      conv_lhs => unfold MapLock.lockUnlockAll
      rw [e]
    have hks' : ∀ k ∈ ks, (l.lockUnlock K).2.entry k = none := by
      intro k hk
      rw [h4]
      exact hks k (List.mem_cons_of_mem K hk)
    obtain ⟨r1, r2, r3⟩ := ih (l.lockUnlock K).2 h3 h2 hks'
    rw [hrec]
    exact ⟨r1, r2, fun k => by rw [r3, h4]⟩

/-- C7, on the code: after a completed `TryLock("a")` on a fresh registry (it
returned false) the key "b" has no entry, and the pair `Lock("b"); Unlock("b")`
does not complete: `Lock("b")` waits at line 62 for the registry guard, which
`TryLock` has left locked, with no step enabled, so it blocks for ever. -/
theorem Lock_without_entry_waits_after_TryLock :
    ((New : MapLock String).TryLock "a").1 = Pc.ret (some false) ∧
    triedA.entry "b" = none ∧ triedA.mu.locked = true ∧
    (triedA.Lock "b").1 = Pc.L62 "b" ∧
    ¬ (triedA.Lock "b").1 = Pc.ret none ∧
    step (triedA.Lock "b").1 (triedA.Lock "b").2 = none ∧
    (triedA.lockUnlock "b").1 = Pc.L62 "b" := by
  have hl : triedA.Lock "b" = (Pc.L62 "b", triedA) := Lock_guard_taken triedA "b" (by decide)
  refine ⟨by decide, by decide, by decide, by decide, by decide, ?_, by decide⟩
  rw [hl]
  rfl

/-- Where the guard is free (which it is as long as no `TryLock` has been
called), on a well-formed registry `Lock(K); Unlock(K)` of a key without entry
returns from both calls (no wait, no panic) and leaves the guard free and every
entry as it was, so `K` has no entry again; the same holds for any finite
sequence of such pairs. -/
theorem lock_unlock_leaves_no_entry (l : MapLock T) (K : T) (hwf : l.WF)
    (hg : l.mu.locked = false) (hK : l.entry K = none) :
    (l.Lock K).1 = Pc.ret none ∧ ((l.Lock K).2.Unlock K).1 = Pc.ret none ∧
    l.lockUnlock K = (l.Lock K).2.Unlock K ∧
    (l.lockUnlock K).2.mu.locked = false ∧
    (l.lockUnlock K).2.entry K = none ∧
    (∀ k, (l.lockUnlock K).2.entry k = l.entry k) ∧
    ∀ ks : List T, (∀ k ∈ ks, l.entry k = none) →
      (MapLock.lockUnlockAll ks l).1 = Pc.ret none ∧
      (MapLock.lockUnlockAll ks l).2.mu.locked = false ∧
      ∀ k, (MapLock.lockUnlockAll ks l).2.entry k = l.entry k := by
  have hp : l.lookup K = none := (entry_eq_none_iff l K).1 hK
  have h1 := (Lock_absent l K hg hp).1
  have e : l.Lock K = (.ret none, (l.Lock K).2) := by rw [← h1]
  have hl : l.lockUnlock K = (l.Lock K).2.Unlock K := by
    unfold MapLock.lockUnlock
    rw [e]
  obtain ⟨p1, p2, _, p4⟩ := lockUnlock_absent_entries l K hwf hg hp
  refine ⟨h1, ?_, hl, p2, ?_, p4, fun ks hks => lockUnlockAll_absent ks l hwf hg hks⟩
  · rw [← hl]
    exact p1
  · rw [p4]
    exact hK

/-- Example: `Test1`, the pair on "foo" on a fresh registry, followed by
further pairs. -/
theorem lock_unlock_leaves_no_entry_witness :
    ((New : MapLock String).Lock "foo").1 = Pc.ret none ∧
    (((New : MapLock String).Lock "foo").2.Unlock "foo").1 = Pc.ret none ∧
    (∀ k, ((New : MapLock String).lockUnlock "foo").2.entry k = none) ∧
    (MapLock.lockUnlockAll ["foo", "bar", "foo"] (New : MapLock String)).1 = Pc.ret none ∧
    ∀ k, (MapLock.lockUnlockAll ["foo", "bar", "foo"] (New : MapLock String)).2.entry k = none :=
  have h := lock_unlock_leaves_no_entry (New : MapLock String) "foo" New_WF (by decide) (by decide)
  have hs := h.2.2.2.2.2.2 ["foo", "bar", "foo"] (fun _ _ => rfl)
  ⟨h.1, h.2.1, h.2.2.2.2.2.1, hs.1, hs.2.2⟩

/-- C8, on the code: with "a" held (waiter count 0) and after a completed
`TryLock("b")` (it returned false), the holder's `Unlock("a")` neither removes
the entry of "a" nor releases its lock: it waits at line 112 for the registry
guard, which `TryLock` has left locked, with no step enabled, and the entry of
"a" stays in the map, locked, with count 0. -/
theorem Unlock_of_held_key_waits_after_TryLock :
    heldA.mu.locked = false ∧ (heldA.TryLock "b").1 = Pc.ret (some false) ∧
    heldATriedB.mu.locked = true ∧
    heldATriedB.entry "a" = some ⟨⟨true⟩, 0⟩ ∧ heldATriedB.isHeld "a" = true ∧
    (heldATriedB.Unlock "a").1 = Pc.U112 "a" ∧
    step (heldATriedB.Unlock "a").1 (heldATriedB.Unlock "a").2 = none ∧
    (heldATriedB.Unlock "a").2.entry "a" = some ⟨⟨true⟩, 0⟩ ∧
    (heldATriedB.Unlock "a").2.isHeld "a" = true := by
  have hu : heldATriedB.Unlock "a" = (Pc.U112 "a", heldATriedB) :=
    Unlock_guard_taken heldATriedB "a" (by decide)
  refine ⟨by decide, by decide, by decide, by decide, by decide, by decide, ?_, by decide,
    by decide⟩
  rw [hu]
  rfl

/-- Where the guard is free (which it is as long as no `TryLock` has been
called), `Unlock(K)` of a key whose entry is locked returns; the entry leaves
the map if and only if its waiter count is 0; otherwise it stays with the same
count; in both cases its mutex is unlocked. -/
theorem Unlock_removes_iff_zero_waiters (l : MapLock T) (K : T) (p : Nat)
    (hg : l.mu.locked = false) (hp : l.lookup K = some p)
    (hheld : (l.heap p).mu.locked = true) :
    (l.Unlock K).1 = Pc.ret none ∧
    ((l.Unlock K).2.entry K = none ↔ (l.heap p).count = 0) ∧
    ((l.heap p).count ≠ 0 →
      (l.Unlock K).2.entry K = some ⟨⟨false⟩, (l.heap p).count⟩) ∧
    (l.Unlock K).2.heap p = ⟨⟨false⟩, (l.heap p).count⟩ := by
  obtain ⟨u1, _, u3, u4, _⟩ := Unlock_present_held l K p hg hp hheld
  refine ⟨u1, ?_, ?_, ?_⟩
  · rw [entry_eq_none_iff, u3]
    by_cases hw : (l.heap p).waiters = 0 <;> simp [hw, hp, lockCtr.count]
  · intro hw
    have hw' : (l.heap p).waiters ≠ 0 := hw
    simp [MapLock.entry, u3, u4, hw', hp, lockCtr.count]
  · simp [u4, lockCtr.count]

/-- Example: "a" is held and a second caller waits for it (count 1), so that
`Unlock("a")` keeps the entry, unlocked, with count 1. -/
theorem Unlock_removes_iff_zero_waiters_witness :
    (heldAWaited.mu.locked = false ∧ heldAWaited.lookup "a" = some 0 ∧
      (heldAWaited.heap 0).mu.locked = true ∧ (heldAWaited.heap 0).count = 1) ∧
    (heldAWaited.Unlock "a").1 = Pc.ret none ∧
    ((heldAWaited.Unlock "a").2.entry "a" = none ↔ (heldAWaited.heap 0).count = 0) ∧
    ((heldAWaited.heap 0).count ≠ 0 →
      (heldAWaited.Unlock "a").2.entry "a" = some ⟨⟨false⟩, (heldAWaited.heap 0).count⟩) ∧
    (heldAWaited.Unlock "a").2.heap 0 = ⟨⟨false⟩, (heldAWaited.heap 0).count⟩ :=
  ⟨by decide,
    Unlock_removes_iff_zero_waiters heldAWaited "a" 0 (by decide) (by decide) (by decide)⟩

end claims2

section claims3
variable {T : Type} [DecidableEq T]

/-- C9, on the code: after the single completed call `TryLock("a")` on a fresh
registry, which returned false so that by the contract nobody holds "a" and
nobody may unlock it, the key "a" has an entry. -/
theorem TryLock_false_leaves_entry_nobody_holds :
    ((Session.calls [Call.TryLock "a"] Session.fresh).map
      fun s => ((s.l.entry "a").isSome, s.held "a")) = some (true, false) := by
  decide

omit [DecidableEq T] in
theorem Session.fresh_quiet : (Session.fresh : Session T).Quiet := by
  refine ⟨New_WF, rfl, ?_, ?_⟩ <;> simp [Session.fresh, New, MapLock.lookup]

/-- A completed `Lock` or `Unlock` that follows the contract keeps a session quiet. -/
theorem Session.Quiet.call {s s1 : Session T} (hs : s.Quiet) (c : Call T)
    (hc : c.isTryLock = false) (h : s.call c = some s1) : s1.Quiet := by
  cases c with
  | TryLock k => simp [Call.isTryLock] at hc
  | Lock k =>
    cases hk : s.held k with
    | true =>
      obtain ⟨p, hp, hh⟩ := hs.held k hk
      have h1 := (Lock_present_held s.l k p hs.guard hp (by rw [hh])).1
      have e : s.l.Lock k = (.L80 p, (s.l.Lock k).2) := by rw [← h1]
      simp only [Session.call] at h
      rw [e] at h
      simp at h
    | false =>
      have hp := hs.free k hk
      obtain ⟨h1, h2, h3, h4, h5⟩ := Lock_absent s.l k hs.guard hp
      have e : s.l.Lock k = (.ret none, (s.l.Lock k).2) := by rw [← h1]
      simp only [Session.call] at h
      rw [e] at h
      simp only [Option.some.injEq] at h
      subst h
      have hne : ∀ k' p, s.l.lookup k' = some p → p ≠ s.l.next :=
        fun k' p hk' => Nat.ne_of_lt (hs.wf.below k' p hk')
      refine ⟨⟨?_, ?_, ?_⟩, h2, ?_, ?_⟩
      · intro k' p hk'
        simp only [h3, h5] at hk' ⊢
        by_cases e : k' = k
        · simp [e] at hk'
          omega
        · simp [e] at hk'
          exact Nat.lt_succ_of_lt (hs.wf.below k' p hk')
      · intro k1 k2 p hk1 hk2
        simp only [h3] at hk1 hk2
        by_cases e1 : k1 = k <;> by_cases e2 : k2 = k <;> simp [e1, e2] at hk1 hk2
        · rw [e1, e2]
        · subst hk1
          exact absurd rfl (hne k2 _ hk2)
        · subst hk2
          exact absurd rfl (hne k1 _ hk1)
        · exact hs.wf.inj k1 k2 p hk1 hk2
      · intro k' p hk'
        simp only [h3, h4] at hk' ⊢
        by_cases e : k' = k
        · simp [e] at hk'
          simp [← hk', inInt32]
        · simp [e] at hk'
          simp [hne k' p hk']
          exact hs.wf.range k' p hk'
      · intro k' hk'
        simp only [h3, h4]
        by_cases e : k' = k
        · exact ⟨s.l.next, by simp [e], by simp⟩
        · simp [Function.update, e] at hk'
          obtain ⟨p, hp1, hp2⟩ := hs.held k' hk'
          exact ⟨p, by simp [e, hp1], by simp [hne k' p hp1, hp2]⟩
      · intro k' hk'
        simp only [h3]
        by_cases e : k' = k
        · simp [Function.update, e] at hk'
        · simp [Function.update, e] at hk'
          simp [e, hs.free k' hk']
  | Unlock k =>
    cases hk : s.held k with
    | false => simp [Session.call, hk] at h
    | true =>
      obtain ⟨p, hp, hh⟩ := hs.held k hk
      obtain ⟨h1, h2, h3, h4, h5⟩ := Unlock_present_held s.l k p hs.guard hp (by rw [hh])
      have e : s.l.Unlock k = (.ret none, (s.l.Unlock k).2) := by rw [← h1]
      simp only [Session.call, hk, if_true] at h
      rw [e] at h
      simp only [Option.some.injEq] at h
      subst h
      have hw : (s.l.heap p).waiters = 0 := by rw [hh]
      simp only [hw, and_true] at h3
      have hne : ∀ k' p', k' ≠ k → s.l.lookup k' = some p' → p' ≠ p :=
        fun k' p' e hk' hpp => e (hs.wf.inj k' k p (by rw [← hpp]; exact hk') hp)
      refine ⟨⟨?_, ?_, ?_⟩, h2, ?_, ?_⟩
      · intro k' p' hk'
        simp only [h3, h5] at hk' ⊢
        by_cases e : k' = k
        · simp [e] at hk'
        · simp [e] at hk'
          exact hs.wf.below k' p' hk'
      · intro k1 k2 p' hk1 hk2
        simp only [h3] at hk1 hk2
        by_cases e1 : k1 = k <;> by_cases e2 : k2 = k <;> simp [e1, e2] at hk1 hk2
        exact hs.wf.inj k1 k2 p' hk1 hk2
      · intro k' p' hk'
        simp only [h3, h4] at hk' ⊢
        by_cases e : k' = k
        · simp [e] at hk'
        · simp [e] at hk'
          simp [hne k' p' e hk']
          exact hs.wf.range k' p' hk'
      · intro k' hk'
        simp only [h3, h4]
        by_cases e : k' = k
        · simp [Function.update, e] at hk'
        · simp [Function.update, e] at hk'
          obtain ⟨p', hp1, hp2⟩ := hs.held k' hk'
          exact ⟨p', by simp [e, hp1], by simp [hne k' p' e hp1, hp2]⟩
      · intro k' hk'
        simp only [h3]
        by_cases e : k' = k
        · simp [e]
        · simp [Function.update, e] at hk'
          simp [e, hs.free k' hk']

/-- Sequences of completed `Lock` and `Unlock` calls that follow the contract
keep a session quiet. -/
theorem Session.Quiet.calls (cs : List (Call T)) {s s1 : Session T} (hs : s.Quiet)
    (hcs : ∀ c ∈ cs, c.isTryLock = false) (h : Session.calls cs s = some s1) : s1.Quiet := by
  induction cs generalizing s with
  | nil =>
    simp only [Session.calls, Option.some.injEq] at h
    exact h ▸ hs
  | cons c cs ih =>
    simp only [Session.calls] at h
    cases hc : s.call c with
    | none => simp [hc] at h
    | some s2 =>
      simp only [hc] at h
      exact ih (hs.call c (hcs c (List.mem_cons_self c cs)) hc)
        (fun c' hc' => hcs c' (List.mem_cons_of_mem c hc')) h

/-- Without `TryLock` the entry-existence invariant holds: after any sequence
of completed `Lock` and `Unlock` calls that follows the contract, a key has an
entry if and only if it is held. -/
theorem entry_iff_held_without_TryLock (cs : List (Call T)) (s : Session T)
    (hcs : ∀ c ∈ cs, c.isTryLock = false) (h : Session.calls cs Session.fresh = some s) (k : T) :
    (s.l.entry k).isSome = s.held k := by
  have hq := Session.Quiet.calls cs Session.fresh_quiet hcs h
  cases hk : s.held k with
  | true =>
    obtain ⟨p, hp, _⟩ := hq.held k hk
    simp [MapLock.entry, hp]
  | false => simp [MapLock.entry, hq.free k hk]

end claims3

section claims4
variable {T : Type} [DecidableEq T]

/-- C10, as stated, fails: after a single `Lock("foo")` on a fresh registry the
call has returned and holds the lock, and the waiter count of the entry is 0,
not 1. -/
theorem Lock_fresh_waiter_count_is_zero :
    ((New : MapLock String).Lock "foo").1 = Pc.ret none ∧
    ((New : MapLock String).Lock "foo").2.isHeld "foo" = true ∧
    ((New : MapLock String).Lock "foo").2.waitersOf "foo" = some 0 ∧
    ¬ ((New : MapLock String).Lock "foo").2.waitersOf "foo" = some 1 := by
  decide

/-- C10, amended: the waiter count counts a caller of `Lock(K)` from `inc` until
it has obtained the lock, not while it holds it.  For every registry (its
counters being `int32` values) and every key `K`: while the registry guard is
locked, `Lock(K)` waits for it at line 62 and changes nothing; with the guard
free, if the lock of `K` is held, `Lock(K)` waits at line 80 and the count of
the entry is the old one plus one (in `int32`); if it is not held, `Lock(K)`
returns with the entry present and locked and the count back at its value
before the call, 0 if the call created the entry. -/
theorem Lock_counts_caller_until_acquired (l : MapLock T) (K : T)
    (hr : ∀ c, l.entry K = some c → inInt32 c.waiters) :
    if l.mu.locked = true then
      (l.Lock K).1 = Pc.L62 K ∧ step (l.Lock K).1 (l.Lock K).2 = none ∧ (l.Lock K).2 = l
    else if l.isHeld K = true then
      step (l.Lock K).1 (l.Lock K).2 = none ∧ (∃ p, (l.Lock K).1 = Pc.L80 p) ∧
      (l.Lock K).2.isHeld K = true ∧
      (l.Lock K).2.waitersOf K = (l.waitersOf K).map fun w => wrapInt32 (w + 1)
    else
      (l.Lock K).1 = Pc.ret none ∧ (l.Lock K).2.isHeld K = true ∧
      (l.Lock K).2.waitersOf K = some ((l.waitersOf K).getD 0) := by
  cases hg : l.mu.locked with
  | true =>
    rw [Lock_guard_taken l K hg]
    simp [Mutex.Lock, hg]
  | false =>
    simp only [Bool.false_eq_true, if_false]
    cases hp : l.lookup K with
    | none =>
      obtain ⟨h1, _, h3, h4, _⟩ := Lock_absent l K hg hp
      simp [MapLock.isHeld, MapLock.waitersOf, MapLock.entry, hp, h1, h3, h4, lockCtr.count]
    | some p =>
      have hr' := hr (l.heap p) (by simp [MapLock.entry, hp])
      cases hh : (l.heap p).mu.locked with
      | true =>
        obtain ⟨h1, _, h3, h4, _⟩ := Lock_present_held l K p hg hp hh
        simp [MapLock.isHeld, MapLock.waitersOf, MapLock.entry, hp, hh, h1, h3, h4,
          lockCtr.count, lockCtr.Lock, Mutex.Lock]
      | false =>
        obtain ⟨h1, _, h3, h4, _⟩ := Lock_present_free l K p hg hp hh
        simp [MapLock.isHeld, MapLock.waitersOf, MapLock.entry, hp, hh, h1, h3, h4,
          lockCtr.count, wrapInt32_inc_dec _ hr']

/-- C10, witness: the three cases on the key "a", whose entry exists with an
`int32` count.  Held with count 0 and the guard free: `Lock("a")` waits at line
80 with count 1.  Released by its holder while a second caller is counted (not
held, count 1): `Lock("a")` returns with the entry locked and count 1.  After a
completed `TryLock("a")` (guard left locked, entry locked with count 0):
`Lock("a")` waits at line 62 and the count stays 0. -/
theorem Lock_counts_caller_until_acquired_witness :
    (heldA.mu.locked = false ∧ heldA.entry "a" = some ⟨⟨true⟩, 0⟩ ∧
      (heldA.Lock "a").1 = Pc.L80 0 ∧ (heldA.Lock "a").2.waitersOf "a" = some 1) ∧
    (releasedAWaited.mu.locked = false ∧ releasedAWaited.entry "a" = some ⟨⟨false⟩, 1⟩ ∧
      (releasedAWaited.Lock "a").1 = Pc.ret none ∧
      (releasedAWaited.Lock "a").2.entry "a" = some ⟨⟨true⟩, 1⟩) ∧
    (triedA.mu.locked = true ∧ triedA.entry "a" = some ⟨⟨true⟩, 0⟩ ∧
      (triedA.Lock "a").1 = Pc.L62 "a" ∧ (triedA.Lock "a").2.waitersOf "a" = some 0) ∧
    (if heldA.mu.locked = true then
      (heldA.Lock "a").1 = Pc.L62 "a" ∧ step (heldA.Lock "a").1 (heldA.Lock "a").2 = none ∧
      (heldA.Lock "a").2 = heldA
    else if heldA.isHeld "a" = true then
      step (heldA.Lock "a").1 (heldA.Lock "a").2 = none ∧
      (∃ p, (heldA.Lock "a").1 = Pc.L80 p) ∧ (heldA.Lock "a").2.isHeld "a" = true ∧
      (heldA.Lock "a").2.waitersOf "a" = (heldA.waitersOf "a").map fun w => wrapInt32 (w + 1)
    else
      (heldA.Lock "a").1 = Pc.ret none ∧ (heldA.Lock "a").2.isHeld "a" = true ∧
      (heldA.Lock "a").2.waitersOf "a" = some ((heldA.waitersOf "a").getD 0)) ∧
    (if releasedAWaited.mu.locked = true then
      (releasedAWaited.Lock "a").1 = Pc.L62 "a" ∧
      step (releasedAWaited.Lock "a").1 (releasedAWaited.Lock "a").2 = none ∧
      (releasedAWaited.Lock "a").2 = releasedAWaited
    else if releasedAWaited.isHeld "a" = true then
      step (releasedAWaited.Lock "a").1 (releasedAWaited.Lock "a").2 = none ∧
      (∃ p, (releasedAWaited.Lock "a").1 = Pc.L80 p) ∧
      (releasedAWaited.Lock "a").2.isHeld "a" = true ∧
      (releasedAWaited.Lock "a").2.waitersOf "a" =
        (releasedAWaited.waitersOf "a").map fun w => wrapInt32 (w + 1)
    else
      (releasedAWaited.Lock "a").1 = Pc.ret none ∧
      (releasedAWaited.Lock "a").2.isHeld "a" = true ∧
      (releasedAWaited.Lock "a").2.waitersOf "a" =
        some ((releasedAWaited.waitersOf "a").getD 0)) ∧
    (if triedA.mu.locked = true then
      (triedA.Lock "a").1 = Pc.L62 "a" ∧ step (triedA.Lock "a").1 (triedA.Lock "a").2 = none ∧
      (triedA.Lock "a").2 = triedA
    else if triedA.isHeld "a" = true then
      step (triedA.Lock "a").1 (triedA.Lock "a").2 = none ∧
      (∃ p, (triedA.Lock "a").1 = Pc.L80 p) ∧ (triedA.Lock "a").2.isHeld "a" = true ∧
      (triedA.Lock "a").2.waitersOf "a" = (triedA.waitersOf "a").map fun w => wrapInt32 (w + 1)
    else
      (triedA.Lock "a").1 = Pc.ret none ∧ (triedA.Lock "a").2.isHeld "a" = true ∧
      (triedA.Lock "a").2.waitersOf "a" = some ((triedA.waitersOf "a").getD 0)) :=
  ⟨by decide, by decide, by decide,
    Lock_counts_caller_until_acquired heldA "a" (fun c hc => by
      have h1 : heldA.entry "a" = some ⟨⟨true⟩, 0⟩ := by decide
      rw [h1] at hc
      rw [← Option.some.inj hc]
      exact ⟨by decide, by decide⟩),
    Lock_counts_caller_until_acquired releasedAWaited "a" (fun c hc => by
      have h1 : releasedAWaited.entry "a" = some ⟨⟨false⟩, 1⟩ := by decide
      rw [h1] at hc
      rw [← Option.some.inj hc]
      exact ⟨by decide, by decide⟩),
    Lock_counts_caller_until_acquired triedA "a" (fun c hc => by
      have h1 : triedA.entry "a" = some ⟨⟨true⟩, 0⟩ := by decide
      rw [h1] at hc
      rw [← Option.some.inj hc]
      exact ⟨by decide, by decide⟩)⟩

end claims4

/-! ## Concurrent callers: the invariant -/

section concurrent
variable {T : Type} [DecidableEq T] {N : Nat}

omit [DecidableEq T] in
/-- Replacing one caller changes a sum over the callers at that caller only. -/
theorem sum_update_threads (g : Fin N → Thread T → Nat) (thr : Fin N → Thread T) (t : Fin N)
    (θ : Thread T) :
    (∑ x : Fin N, g x (Function.update thr t θ x)) + g t (thr t) =
      (∑ x : Fin N, g x (thr x)) + g t θ := by
  have h1 := Finset.add_sum_erase Finset.univ (fun x => g x (Function.update thr t θ x))
    (Finset.mem_univ t)
  have h2 := Finset.add_sum_erase Finset.univ (fun x => g x (thr x)) (Finset.mem_univ t)
  have h3 : ∑ x ∈ Finset.univ.erase t, g x (Function.update thr t θ x) =
      ∑ x ∈ Finset.univ.erase t, g x (thr x) := by
    apply Finset.sum_congr rfl
    intro x hx
    rw [Function.update_noteq (Finset.ne_of_mem_erase hx)]
  simp only [Function.update_same] at h1 h2
  rw [h3] at h1
  omega

omit [DecidableEq T] in
theorem pendingOn_le (σ : System T N) (p : Nat) : σ.pendingOn p ≤ N := by
  unfold System.pendingOn
  calc (∑ t : Fin N, if (σ.threads t).phase.pending p then 1 else 0)
      ≤ ∑ _t : Fin N, 1 := Finset.sum_le_sum (fun t _ => by split <;> simp)
    _ = N := by simp

omit [DecidableEq T] in
theorem Thread.Ok.frame {k : T} {M : Nat} {m m1 : MapLock T} {n n1 : T → Nat} {θ : Thread T}
    (h : θ.Ok k M m n) (hl : ∀ k1, m1.lookup k1 = m.lookup k1) (hh : ∀ p, m1.heap p = m.heap p)
    (hn : n1 k = n k) : θ.Ok k M m1 n1 := by
  unfold Thread.Ok at h ⊢
  simp only [hl, hh, hn]
  exact h

theorem System.init_inv (key : Fin N → T) (M : Nat) : (System.init : System T N).Inv key M := by
  refine ⟨?_, ?_, ?_, ?_, ?_, ?_, ?_, ?_, ?_, ?_⟩
  all_goals simp [System.init, Thread.Ok, Phase.guardHeld, Phase.holding, New, MapLock.lookup,
    System.pendingOn, Phase.pending, lockCtr.zero, Thread.increments]

end concurrent

section concurrent2
variable {T : Type} [DecidableEq T] {N : Nat}

omit [DecidableEq T] in
@[simp] theorem System.set_m (σ : System T N) (t : Fin N) (θ : Thread T) (m : MapLock T)
    (n : T → Nat) : (σ.set t θ m n).m = m := rfl

omit [DecidableEq T] in
@[simp] theorem System.set_n (σ : System T N) (t : Fin N) (θ : Thread T) (m : MapLock T)
    (n : T → Nat) : (σ.set t θ m n).n = n := rfl

omit [DecidableEq T] in
@[simp] theorem System.set_threads_self (σ : System T N) (t : Fin N) (θ : Thread T)
    (m : MapLock T) (n : T → Nat) : (σ.set t θ m n).threads t = θ := by
  simp [System.set]

omit [DecidableEq T] in
theorem System.set_threads_of_ne (σ : System T N) (t : Fin N) (θ : Thread T)
    (m : MapLock T) (n : T → Nat) (t2 : Fin N) (h : t2 ≠ t) :
    (σ.set t θ m n).threads t2 = σ.threads t2 := by
  simp [System.set, Function.update_noteq h]

omit [DecidableEq T] in
/-- A quantity of the callers that the moving caller keeps is kept by all. -/
theorem System.set_flag {α : Type} (f : Thread T → α) (σ : System T N) (t : Fin N) (θ : Thread T)
    (m : MapLock T) (n : T → Nat) (hf : f θ = f (σ.threads t)) (t2 : Fin N) :
    f ((σ.set t θ m n).threads t2) = f (σ.threads t2) := by
  by_cases h : t2 = t
  · subst h
    simp [hf]
  · rw [System.set_threads_of_ne _ _ _ _ _ _ h]

omit [DecidableEq T] in
theorem System.pendingOn_set (σ : System T N) (t : Fin N) (θ : Thread T)
    (m : MapLock T) (n : T → Nat) (p : Nat) :
    (σ.set t θ m n).pendingOn p + (if (σ.threads t).phase.pending p then 1 else 0) =
      σ.pendingOn p + (if θ.phase.pending p then 1 else 0) :=
  sum_update_threads (fun _ θ => if θ.phase.pending p then 1 else 0) σ.threads t θ

/-- A move that leaves the map, the heap and the counters alone and keeps what
the moving caller holds, waits for and has counted. -/
theorem System.Inv.set_same_heap {key : Fin N → T} {M : Nat} {σ : System T N}
    (h : σ.Inv key M) (t : Fin N) (θ : Thread T) (m : MapLock T)
    (hok : θ.Ok (key t) M m σ.n)
    (hl : ∀ k, m.lookup k = σ.m.lookup k) (hh : ∀ p, m.heap p = σ.m.heap p)
    (hnx : m.next = σ.m.next) (hmap : m.locks.isSome = true)
    (hhold : θ.phase.holding = (σ.threads t).phase.holding)
    (hpend : ∀ p, θ.phase.pending p = (σ.threads t).phase.pending p)
    (hinc : θ.increments = (σ.threads t).increments)
    (hg1 : ∀ t1, ((σ.set t θ m σ.n).threads t1).phase.guardHeld = true →
      m.mu.locked = true ∧
        ∀ t2, ((σ.set t θ m σ.n).threads t2).phase.guardHeld = true → t2 = t1)
    (hg2 : m.mu.locked = true → ∃ t1, ((σ.set t θ m σ.n).threads t1).phase.guardHeld = true) :
    (σ.set t θ m σ.n).Inv key M := by
  have fh := System.set_flag (fun θ => θ.phase.holding) σ t θ m σ.n hhold
  have fp := fun p => System.set_flag (fun θ => θ.phase.pending p) σ t θ m σ.n (hpend p)
  have fi := System.set_flag (fun θ => θ.increments) σ t θ m σ.n hinc
  simp only at fh fp fi
  refine ⟨?_, hg1, hg2, ?_, ?_, ?_, ?_, ?_, ?_, hmap⟩
  · intro t2
    by_cases e : t2 = t
    · subst e
      simpa using hok
    · rw [System.set_threads_of_ne _ _ _ _ _ _ e]
      exact (h.ok t2).frame hl hh rfl
  · intro t1 t2 h1 h2
    rw [fh] at h1 h2
    exact h.excl t1 t2 h1 h2
  · intro k p hk hp
    simp only [System.set_m, hl, hh] at hk hp
    obtain ⟨t1, ht1, hk1⟩ := h.owned k p hk hp
    exact ⟨t1, by rw [fh]; exact ht1, hk1⟩
  · intro p
    simp only [System.set_m, hh, System.pendingOn, fp]
    exact h.count p
  · intro k p hk
    simp only [System.set_m, hl, hnx] at hk ⊢
    exact h.below k p hk
  · intro k1 k2 p hk1 hk2
    simp only [System.set_m, hl] at hk1 hk2
    exact h.inj k1 k2 p hk1 hk2
  · intro k
    simp only [System.set_n, fi]
    exact h.counter k

/-- A move of one caller that touches nothing shared and keeps whether the
caller has the guard. -/
theorem System.Inv.set_local {key : Fin N → T} {M : Nat} {σ : System T N}
    (h : σ.Inv key M) (t : Fin N) (θ : Thread T) (m : MapLock T)
    (hok : θ.Ok (key t) M m σ.n)
    (hl : ∀ k, m.lookup k = σ.m.lookup k) (hh : ∀ p, m.heap p = σ.m.heap p)
    (hnx : m.next = σ.m.next) (hmu : m.mu = σ.m.mu) (hmap : m.locks.isSome = true)
    (hhold : θ.phase.holding = (σ.threads t).phase.holding)
    (hpend : ∀ p, θ.phase.pending p = (σ.threads t).phase.pending p)
    (hinc : θ.increments = (σ.threads t).increments)
    (hguard : θ.phase.guardHeld = (σ.threads t).phase.guardHeld) :
    (σ.set t θ m σ.n).Inv key M := by
  have fg := System.set_flag (fun θ => θ.phase.guardHeld) σ t θ m σ.n hguard
  simp only at fg
  refine h.set_same_heap t θ m hok hl hh hnx hmap hhold hpend hinc ?_ ?_
  · intro t1 h1
    rw [fg] at h1
    rw [hmu]
    refine ⟨(h.guardOwner t1 h1).1, fun t2 h2 => ?_⟩
    rw [fg] at h2
    exact (h.guardOwner t1 h1).2 t2 h2
  · intro hm
    rw [hmu] at hm
    obtain ⟨t1, ht1⟩ := h.guardOwned hm
    exact ⟨t1, by rw [fg]; exact ht1⟩

/-- A caller takes the guard, which was free. -/
theorem System.Inv.set_acquire {key : Fin N → T} {M : Nat} {σ : System T N}
    (h : σ.Inv key M) (t : Fin N) (θ : Thread T)
    (hfree : σ.m.mu.locked = false)
    (hok : θ.Ok (key t) M (σ.m.setMu ⟨true⟩) σ.n)
    (hhold : θ.phase.holding = (σ.threads t).phase.holding)
    (hpend : ∀ p, θ.phase.pending p = (σ.threads t).phase.pending p)
    (hinc : θ.increments = (σ.threads t).increments)
    (hguard : θ.phase.guardHeld = true) :
    (σ.set t θ (σ.m.setMu ⟨true⟩) σ.n).Inv key M := by
  have hnone : ∀ t2, (σ.threads t2).phase.guardHeld = false := by
    intro t2
    cases e : (σ.threads t2).phase.guardHeld with
    | false => rfl
    | true =>
      have := (h.guardOwner t2 e).1
      rw [hfree] at this
      cases this
  have hother : ∀ t2, ((σ.set t θ (σ.m.setMu ⟨true⟩) σ.n).threads t2).phase.guardHeld = true →
      t2 = t := by
    intro t2 h2
    by_contra e
    rw [System.set_threads_of_ne _ _ _ _ _ _ e, hnone] at h2
    cases h2
  refine h.set_same_heap t θ _ hok (by simp) (by simp) (by simp) h.map hhold hpend hinc ?_ ?_
  · intro t1 h1
    refine ⟨rfl, fun t2 h2 => ?_⟩
    rw [hother t1 h1, hother t2 h2]
  · intro _
    exact ⟨t, by simpa using hguard⟩

/-- The caller that has the guard releases it. -/
theorem System.Inv.set_release {key : Fin N → T} {M : Nat} {σ : System T N}
    (h : σ.Inv key M) (t : Fin N) (θ : Thread T)
    (hhad : (σ.threads t).phase.guardHeld = true)
    (hok : θ.Ok (key t) M (σ.m.setMu ⟨false⟩) σ.n)
    (hhold : θ.phase.holding = (σ.threads t).phase.holding)
    (hpend : ∀ p, θ.phase.pending p = (σ.threads t).phase.pending p)
    (hinc : θ.increments = (σ.threads t).increments)
    (hguard : θ.phase.guardHeld = false) :
    (σ.set t θ (σ.m.setMu ⟨false⟩) σ.n).Inv key M := by
  have hnone : ∀ t2, ((σ.set t θ (σ.m.setMu ⟨false⟩) σ.n).threads t2).phase.guardHeld = false := by
    intro t2
    by_cases e : t2 = t
    · subst e
      simpa using hguard
    · rw [System.set_threads_of_ne _ _ _ _ _ _ e]
      cases e2 : (σ.threads t2).phase.guardHeld with
      | false => rfl
      | true => exact absurd ((h.guardOwner t hhad).2 t2 e2) e
  refine h.set_same_heap t θ _ hok (by simp) (by simp) (by simp) h.map hhold hpend hinc ?_ ?_
  · intro t1 h1
    rw [hnone] at h1
    cases h1
  · intro hm
    simp at hm

end concurrent2

section concurrent3
variable {T : Type} [DecidableEq T] {N : Nat}

omit [DecidableEq T] in
/-- What a caller knows survives a change of the registry that keeps the map,
only locks mutexes, and keeps the counters that the caller has read. -/
theorem Thread.Ok.mono {k : T} {M : Nat} {m m1 : MapLock T} {n n1 : T → Nat} {θ : Thread T}
    (h : θ.Ok k M m n) (hl : ∀ k1, m1.lookup k1 = m.lookup k1)
    (hlk : ∀ p, (m.heap p).mu.locked = true → (m1.heap p).mu.locked = true)
    (hw : ∀ p, θ.phase.guardHeld = true → θ.phase.holding = true → m.lookup k = some p →
      (m1.heap p).waiters = (m.heap p).waiters)
    (hn : θ.phase.holding = true → n1 k = n k) : θ.Ok k M m1 n1 := by
  obtain ⟨i, ph⟩ := θ
  cases ph with
  | loop => exact h
  | finished => exact h
  | incr tmp =>
    simp only [Thread.Ok, hl] at h ⊢
    obtain ⟨h1, h2, p, h3, h4⟩ := h
    exact ⟨h1, by rw [hn rfl]; exact h2, p, h3, hlk p h4⟩
  | inLock pc =>
    cases pc <;> simp only [Thread.Ok, hl] at h ⊢ <;> try exact h
    · exact ⟨h.1, h.2.1, hlk _ h.2.2⟩
    · obtain ⟨h1, p, h3, h4⟩ := h
      exact ⟨h1, p, h3, hlk p h4⟩
  | inUnlock pc =>
    cases pc <;> simp only [Thread.Ok, hl] at h ⊢ <;> try exact h
    · obtain ⟨h1, h2, p, h3, h4⟩ := h
      exact ⟨h1, h2, p, h3, hlk p h4⟩
    · obtain ⟨h1, h2, p, h3, h4⟩ := h
      exact ⟨h1, h2, p, h3, hlk p h4⟩
    · exact ⟨h.1, h.2.1, h.2.2.1, hlk _ h.2.2.2⟩
    · obtain ⟨h1, h2, h3, h4, h5⟩ := h
      exact ⟨h1, h2, h3, hlk _ h4, by rw [hw _ rfl rfl h3]; exact h5⟩
    · exact ⟨h.1, hlk _ h.2.1, h.2.2⟩

omit [DecidableEq T] in
/-- What a caller without the guard knows survives a change of the registry
that keeps the entry of its key, when it waits for or holds it, and keeps that
entry locked when it is. -/
theorem Thread.Ok.stable {k : T} {M : Nat} {m m1 : MapLock T} {n : T → Nat} {θ : Thread T}
    (h : θ.Ok k M m n) (hng : θ.phase.guardHeld = false)
    (hl : ∀ p, m.lookup k = some p → (θ.phase.holding = true ∨ θ.phase.pending p = true) →
      m1.lookup k = some p)
    (hlk : ∀ p, m.lookup k = some p → θ.phase.holding = true → (m.heap p).mu.locked = true →
      (m1.heap p).mu.locked = true) : θ.Ok k M m1 n := by
  obtain ⟨i, ph⟩ := θ
  cases ph with
  | loop => exact h
  | finished => exact h
  | incr tmp =>
    simp only [Thread.Ok] at h ⊢
    obtain ⟨h1, h2, p, h3, h4⟩ := h
    exact ⟨h1, h2, p, hl p h3 (Or.inl rfl), hlk p h3 rfl h4⟩
  | inLock pc =>
    cases pc <;> simp only [Thread.Ok, Phase.guardHeld] at h hng ⊢ <;> try exact h
    all_goals try cases hng
    · exact ⟨h.1, hl _ h.2 (Or.inr (by simp [Phase.pending]))⟩
    · exact ⟨h.1, hl _ h.2.1 (Or.inl rfl), hlk _ h.2.1 rfl h.2.2⟩
    · obtain ⟨h1, p, h3, h4⟩ := h
      exact ⟨h1, p, hl p h3 (Or.inl rfl), hlk p h3 rfl h4⟩
  | inUnlock pc =>
    cases pc <;> simp only [Thread.Ok, Phase.guardHeld] at h hng ⊢ <;> try exact h
    all_goals try cases hng
    · obtain ⟨h1, h2, p, h3, h4⟩ := h
      exact ⟨h1, h2, p, hl p h3 (Or.inl rfl), hlk p h3 rfl h4⟩

end concurrent3

section concurrent4
variable {T : Type} [DecidableEq T] {N : Nat}

/-- Keeping the guard flag and the guard keeps the two guard invariants. -/
theorem System.Inv.guard_same {key : Fin N → T} {M : Nat} {σ : System T N}
    (h : σ.Inv key M) (t : Fin N) (θ : Thread T) (m : MapLock T) (n : T → Nat)
    (hguard : θ.phase.guardHeld = (σ.threads t).phase.guardHeld) (hmu : m.mu = σ.m.mu) :
    (∀ t1, ((σ.set t θ m n).threads t1).phase.guardHeld = true →
      m.mu.locked = true ∧
        ∀ t2, ((σ.set t θ m n).threads t2).phase.guardHeld = true → t2 = t1) ∧
    (m.mu.locked = true → ∃ t1, ((σ.set t θ m n).threads t1).phase.guardHeld = true) := by
  have fg := System.set_flag (fun θ => θ.phase.guardHeld) σ t θ m n hguard
  simp only at fg
  constructor
  · intro t1 h1
    rw [fg] at h1
    rw [hmu]
    refine ⟨(h.guardOwner t1 h1).1, fun t2 h2 => ?_⟩
    rw [fg] at h2
    exact (h.guardOwner t1 h1).2 t2 h2
  · intro hm
    rw [hmu] at hm
    obtain ⟨t1, ht1⟩ := h.guardOwned hm
    exact ⟨t1, by rw [fg]; exact ht1⟩

/-- While a caller has the guard, no other caller has it. -/
theorem System.Inv.others_unguarded {key : Fin N → T} {M : Nat} {σ : System T N}
    (h : σ.Inv key M) (t : Fin N) (ht : (σ.threads t).phase.guardHeld = true) (t2 : Fin N)
    (hne : t2 ≠ t) : (σ.threads t2).phase.guardHeld = false := by
  cases e : (σ.threads t2).phase.guardHeld with
  | false => rfl
  | true => exact absurd ((h.guardOwner t ht).2 t2 e) hne

/-- Keeping the holding flag keeps mutual exclusion. -/
theorem System.Inv.excl_same {key : Fin N → T} {M : Nat} {σ : System T N}
    (h : σ.Inv key M) (t : Fin N) (θ : Thread T) (m : MapLock T) (n : T → Nat)
    (hhold : θ.phase.holding = true → (σ.threads t).phase.holding = true) :
    ∀ t1 t2, ((σ.set t θ m n).threads t1).phase.holding = true →
      ((σ.set t θ m n).threads t2).phase.holding = true → key t1 = key t2 → t1 = t2 := by
  have key1 : ∀ t1, ((σ.set t θ m n).threads t1).phase.holding = true →
      (σ.threads t1).phase.holding = true := by
    intro t1 h1
    by_cases e : t1 = t
    · subst e
      exact hhold (by simpa using h1)
    · rwa [System.set_threads_of_ne _ _ _ _ _ _ e] at h1
  intro t1 t2 h1 h2
  exact h.excl t1 t2 (key1 t1 h1) (key1 t2 h2)

/-- Keeping the pending flags and the counts keeps the count invariant. -/
theorem System.Inv.count_same {key : Fin N → T} {M : Nat} {σ : System T N}
    (h : σ.Inv key M) (t : Fin N) (θ : Thread T) (m : MapLock T) (n : T → Nat)
    (hpend : ∀ p, θ.phase.pending p = (σ.threads t).phase.pending p)
    (hw : ∀ p, (m.heap p).waiters = (σ.m.heap p).waiters) :
    ∀ p, (m.heap p).waiters = ((σ.set t θ m n).pendingOn p : Int) := by
  intro p
  have fp := System.set_flag (fun θ => θ.phase.pending p) σ t θ m n (hpend p)
  simp only at fp
  simp only [hw, System.pendingOn, fp]
  exact h.count p

/-- Keeping the number of increments and the counters keeps the counter
invariant. -/
theorem System.Inv.counter_same {key : Fin N → T} {M : Nat} {σ : System T N}
    (h : σ.Inv key M) (t : Fin N) (θ : Thread T) (m : MapLock T)
    (hinc : θ.increments = (σ.threads t).increments) :
    ∀ k, σ.n k = ∑ x : Fin N, if key x = k then ((σ.set t θ m σ.n).threads x).increments else 0 := by
  intro k
  have fi := System.set_flag (fun θ => θ.increments) σ t θ m σ.n hinc
  simp only at fi
  simp only [fi]
  exact h.counter k

omit [DecidableEq T] in
/-- A holder's entry is locked. -/
theorem Thread.Ok.holding_locked {k : T} {M : Nat} {m : MapLock T} {n : T → Nat} {θ : Thread T}
    (h : θ.Ok k M m n) (hh : θ.phase.holding = true) (p : Nat) (hp : m.lookup k = some p) :
    (m.heap p).mu.locked = true := by
  obtain ⟨i, ph⟩ := θ
  cases ph with
  | loop => cases hh
  | finished => cases hh
  | incr tmp =>
    obtain ⟨_, _, q, h3, h4⟩ := h
    rw [hp] at h3
    cases h3
    exact h4
  | inLock pc =>
    cases pc <;> simp only [Thread.Ok, Phase.holding] at h hh <;> try cases hh
    · rw [hp] at h
      obtain ⟨_, h2, h3⟩ := h
      cases h2
      exact h3
    · obtain ⟨_, q, h3, h4⟩ := h
      rw [hp] at h3
      cases h3
      exact h4
  | inUnlock pc =>
    cases pc <;> simp only [Thread.Ok, Phase.holding] at h hh <;> try cases hh
    · obtain ⟨_, _, q, h3, h4⟩ := h
      rw [hp] at h3
      cases h3
      exact h4
    · obtain ⟨_, _, q, h3, h4⟩ := h
      rw [hp] at h3
      cases h3
      exact h4
    · obtain ⟨_, _, h3, h4⟩ := h
      rw [hp] at h3
      cases h3
      exact h4
    · obtain ⟨_, _, h3, h4, _⟩ := h
      rw [hp] at h3
      cases h3
      exact h4
    · obtain ⟨_, h2, h3⟩ := h
      rw [hp] at h3
      rcases h3 with h3 | h3
      · cases h3
        exact h2
      · cases h3.1

omit [DecidableEq T] in
/-- A caller counted on an object has that object as the entry of its key. -/
theorem Thread.Ok.pending_lookup {k : T} {M : Nat} {m : MapLock T} {n : T → Nat} {θ : Thread T}
    (h : θ.Ok k M m n) (p : Nat) (hp : θ.phase.pending p = true) : m.lookup k = some p := by
  obtain ⟨i, ph⟩ := θ
  cases ph with
  | loop => cases hp
  | finished => cases hp
  | incr tmp => cases hp
  | inUnlock pc => cases hp
  | inLock pc =>
    cases pc <;> simp only [Thread.Ok, Phase.pending, decide_eq_true_eq] at h hp <;> try cases hp
    · exact h.2
    · exact h.2
    · exact h.2.1

omit [DecidableEq T] in
/-- A caller counted on an object makes its count positive. -/
theorem System.pendingOn_pos (σ : System T N) (t : Fin N) (p : Nat)
    (hp : (σ.threads t).phase.pending p = true) : 1 ≤ σ.pendingOn p := by
  unfold System.pendingOn
  have h1 := Finset.single_le_sum (f := fun x => if (σ.threads x).phase.pending p then 1 else 0)
    (fun _ _ => Nat.zero_le _) (Finset.mem_univ t)
  simpa [hp] using h1

/-- Nobody is counted on an address that is not allocated. -/
theorem System.Inv.pendingOn_next {key : Fin N → T} {M : Nat} {σ : System T N}
    (h : σ.Inv key M) : σ.pendingOn σ.m.next = 0 := by
  unfold System.pendingOn
  apply Finset.sum_eq_zero
  intro x _
  cases e : (σ.threads x).phase.pending σ.m.next with
  | false => simp
  | true =>
    have := h.below _ _ ((h.ok x).pending_lookup _ e)
    omega

end concurrent4

section concurrent5
variable {T : Type} [DecidableEq T] {N : Nat}

/-- Lines 67-71 of `Lock` when the key has no entry: a fresh object is
allocated and stored in the map. -/
theorem System.Inv.set_create {key : Fin N → T} {M : Nat} {σ : System T N}
    (h : σ.Inv key M) (t : Fin N) (i : Nat) (ht : σ.threads t = ⟨i, .inLock (.L67 (key t))⟩)
    (hnone : σ.m.lookup (key t) = none) :
    (σ.set t ⟨i, .inLock (.L75 σ.m.next)⟩ (σ.m.lookupOrCreateD (key t)).2 σ.n).Inv key M := by
  have hok := h.ok t
  rw [ht] at hok
  have hl : ∀ k, (σ.m.lookupOrCreateD (key t)).2.lookup k =
      if k = key t then some σ.m.next else σ.m.lookup k := by
    intro k
    rw [lookup_lookupOrCreateD, hnone]
    rfl
  have hh : ∀ q, (σ.m.lookupOrCreateD (key t)).2.heap q =
      if q = σ.m.next then lockCtr.zero else σ.m.heap q := by
    intro q
    rw [heap_lookupOrCreateD, hnone]
    rfl
  have hnx : (σ.m.lookupOrCreateD (key t)).2.next = σ.m.next + 1 := by
    rw [next_lookupOrCreateD, hnone]
    rfl
  have hgt : (σ.threads t).phase.guardHeld = true := by rw [ht]; rfl
  have hne : ∀ k p, σ.m.lookup k = some p → p ≠ σ.m.next :=
    fun k p hk => Nat.ne_of_lt (h.below k p hk)
  have hg := h.guard_same t ⟨i, .inLock (.L75 σ.m.next)⟩ (σ.m.lookupOrCreateD (key t)).2 σ.n
    (by rw [ht]; rfl) (mu_lookupOrCreateD _ _)
  have fh := System.set_flag (fun θ => θ.phase.holding) σ t ⟨i, .inLock (.L75 σ.m.next)⟩
    (σ.m.lookupOrCreateD (key t)).2 σ.n (by rw [ht]; rfl)
  simp only at fh
  refine ⟨?_, hg.1, hg.2, ?_, ?_, ?_, ?_, ?_, ?_, locks_isSome_lookupOrCreateD _ _ h.map⟩
  · intro t2
    by_cases e : t2 = t
    · subst e
      simp only [System.set_threads_self, System.set_m, System.set_n, Thread.Ok, hl]
      exact ⟨hok.1, by simp⟩
    · rw [System.set_threads_of_ne _ _ _ _ _ _ e]
      refine (h.ok t2).stable (h.others_unguarded t hgt t2 e) ?_ ?_
      · intro p hp _
        have hk : key t2 ≠ key t := fun ek => by rw [ek, hnone] at hp; cases hp
        simp [hl, hk, hp]
      · intro p hp _ hlk
        simp only [System.set_m, hh, hne _ p hp, if_false]
        exact hlk
  · exact h.excl_same t _ _ _ (by rw [ht]; exact id)
  · intro k p hk hp
    simp only [System.set_m, hl, hh] at hk hp
    by_cases ek : k = key t
    · simp only [ek, if_true, Option.some.injEq] at hk
      simp [← hk, lockCtr.zero] at hp
    · simp only [ek, if_false] at hk
      simp only [hne k p hk, if_false] at hp
      obtain ⟨t1, ht1, hk1⟩ := h.owned k p hk hp
      exact ⟨t1, by rw [fh]; exact ht1, hk1⟩
  · intro p
    have fp := System.set_flag (fun θ => θ.phase.pending p) σ t ⟨i, .inLock (.L75 σ.m.next)⟩
      (σ.m.lookupOrCreateD (key t)).2 σ.n (by rw [ht]; rfl)
    simp only at fp
    simp only [System.set_m, hh, System.pendingOn, fp]
    by_cases ep : p = σ.m.next
    · have h0 := h.pendingOn_next
      unfold System.pendingOn at h0
      simp [ep, h0, lockCtr.zero]
    · simp only [ep, if_false]
      exact h.count p
  · intro k p hk
    simp only [System.set_m, hl, hnx] at hk ⊢
    by_cases ek : k = key t
    · simp only [ek, if_true, Option.some.injEq] at hk
      omega
    · simp only [ek, if_false] at hk
      exact Nat.lt_succ_of_lt (h.below k p hk)
  · intro k1 k2 p hk1 hk2
    simp only [System.set_m, hl] at hk1 hk2
    by_cases e1 : k1 = key t <;> by_cases e2 : k2 = key t <;>
      simp only [e1, e2, if_true, if_false, Option.some.injEq] at hk1 hk2
    · rw [e1, e2]
    · subst hk1
      exact absurd rfl (hne k2 _ hk2)
    · subst hk2
      exact absurd rfl (hne k1 _ hk1)
    · exact h.inj k1 k2 p hk1 hk2
  · exact h.counter_same t _ _ (by rw [ht]; rfl)

/-- Line 75 of `Lock`: `nameLock.inc()`. -/
theorem System.Inv.set_inc {key : Fin N → T} {M : Nat} {σ : System T N} (hN : N < 2147483648)
    (h : σ.Inv key M) (t : Fin N) (i p : Nat) (ht : σ.threads t = ⟨i, .inLock (.L75 p)⟩) :
    (σ.set t ⟨i, .inLock (.L76 p)⟩ (σ.m.store p (σ.m.heap p).inc) σ.n).Inv key M := by
  have hok := h.ok t
  rw [ht] at hok
  have hgt : (σ.threads t).phase.guardHeld = true := by rw [ht]; rfl
  have hg := h.guard_same t ⟨i, .inLock (.L76 p)⟩ (σ.m.store p (σ.m.heap p).inc) σ.n
    (by rw [ht]; rfl) rfl
  have fh := System.set_flag (fun θ => θ.phase.holding) σ t ⟨i, .inLock (.L76 p)⟩
    (σ.m.store p (σ.m.heap p).inc) σ.n (by rw [ht]; rfl)
  simp only at fh
  have hmu : ∀ q, ((σ.m.store p (σ.m.heap p).inc).heap q).mu = (σ.m.heap q).mu := by
    intro q
    rw [heap_store]
    split
    · rename_i e
      rw [e]
      rfl
    · rfl
  refine ⟨?_, hg.1, hg.2, ?_, ?_, ?_, ?_, ?_, ?_, h.map⟩
  · intro t2
    by_cases e : t2 = t
    · subst e
      simp only [System.set_threads_self, System.set_m, System.set_n, Thread.Ok, lookup_store]
      exact hok
    · rw [System.set_threads_of_ne _ _ _ _ _ _ e]
      refine (h.ok t2).stable (h.others_unguarded t hgt t2 e) ?_ ?_
      · intro q hq _
        simpa using hq
      · intro q _ _ hlk
        simp only [System.set_m, hmu]
        exact hlk
  · exact h.excl_same t _ _ _ (by rw [ht]; exact id)
  · intro k q hk hq
    simp only [System.set_m, lookup_store, hmu] at hk hq
    obtain ⟨t1, ht1, hk1⟩ := h.owned k q hk hq
    exact ⟨t1, by rw [fh]; exact ht1, hk1⟩
  · intro q
    have hs := System.pendingOn_set σ t ⟨i, .inLock (.L76 p)⟩ (σ.m.store p (σ.m.heap p).inc) σ.n q
    have hle := pendingOn_le (σ.set t ⟨i, .inLock (.L76 p)⟩ (σ.m.store p (σ.m.heap p).inc) σ.n) q
    have hc := h.count q
    simp only [System.set_m, heap_store]
    generalize (σ.set t ⟨i, .inLock (.L76 p)⟩ (σ.m.store p (σ.m.heap p).inc) σ.n).pendingOn q = P
      at hs hle ⊢
    by_cases e : q = p
    · subst e
      have hs' : P = σ.pendingOn q + 1 := by simpa [ht, Phase.pending] using hs
      simp only [if_true, lockCtr.inc, hc]
      rw [wrapInt32_of_inInt32]
      · omega
      · unfold inInt32
        omega
    · have e' : ¬ p = q := fun x => e x.symm
      have hs' : P = σ.pendingOn q := by simpa [ht, Phase.pending, e'] using hs
      simp only [e, if_false]
      omega
  · intro k q hk
    exact h.below k q (by simpa using hk)
  · intro k1 k2 q hk1 hk2
    exact h.inj k1 k2 q (by simpa using hk1) (by simpa using hk2)
  · exact h.counter_same t _ _ (by rw [ht]; rfl)

end concurrent5

section concurrent6
variable {T : Type} [DecidableEq T] {N : Nat}

/-- Line 80 of `Lock`: `nameLock.Lock()` succeeds on an unlocked entry. -/
theorem System.Inv.set_lock {key : Fin N → T} {M : Nat} {σ : System T N}
    (h : σ.Inv key M) (t : Fin N) (i p : Nat) (ht : σ.threads t = ⟨i, .inLock (.L80 p)⟩)
    (hfree : (σ.m.heap p).mu.locked = false) :
    (σ.set t ⟨i, .inLock (.L81 p)⟩
      (σ.m.store p ⟨⟨true⟩, (σ.m.heap p).waiters⟩) σ.n).Inv key M := by
  have hok := h.ok t
  rw [ht] at hok
  have hg := h.guard_same t ⟨i, .inLock (.L81 p)⟩ (σ.m.store p ⟨⟨true⟩, (σ.m.heap p).waiters⟩)
    σ.n (by rw [ht]; rfl) rfl
  have hlk : ∀ q, (σ.m.heap q).mu.locked = true →
      ((σ.m.store p ⟨⟨true⟩, (σ.m.heap p).waiters⟩).heap q).mu.locked = true := by
    intro q hq
    rw [heap_store]
    split
    · rfl
    · exact hq
  have hw : ∀ q, ((σ.m.store p ⟨⟨true⟩, (σ.m.heap p).waiters⟩).heap q).waiters =
      (σ.m.heap q).waiters := by
    intro q
    rw [heap_store]
    split
    · rename_i e
      rw [e]
    · rfl
  have hnohold : ∀ t2, (σ.threads t2).phase.holding = true → key t2 ≠ key t := by
    intro t2 h2 ek
    have := (h.ok t2).holding_locked h2 p (by rw [ek]; exact hok.2)
    rw [hfree] at this
    cases this
  refine ⟨?_, hg.1, hg.2, ?_, ?_, ?_, ?_, ?_, ?_, h.map⟩
  · intro t2
    by_cases e : t2 = t
    · subst e
      simp only [System.set_threads_self, System.set_m, System.set_n, Thread.Ok, lookup_store,
        heap_store, if_true]
      exact ⟨hok.1, hok.2, trivial⟩
    · rw [System.set_threads_of_ne _ _ _ _ _ _ e]
      exact (h.ok t2).mono (by simp) hlk (fun q _ _ _ => hw q) (fun _ => rfl)
  · intro t1 t2 h1 h2 ek
    by_cases e1 : t1 = t <;> by_cases e2 : t2 = t
    · rw [e1, e2]
    · rw [System.set_threads_of_ne _ _ _ _ _ _ e2] at h2
      exact absurd (e1 ▸ ek.symm) (hnohold t2 h2)
    · rw [System.set_threads_of_ne _ _ _ _ _ _ e1] at h1
      exact absurd (e2 ▸ ek) (hnohold t1 h1)
    · rw [System.set_threads_of_ne _ _ _ _ _ _ e1] at h1
      rw [System.set_threads_of_ne _ _ _ _ _ _ e2] at h2
      exact h.excl t1 t2 h1 h2 ek
  · intro k q hk hq
    simp only [System.set_m, lookup_store, heap_store] at hk hq
    by_cases e : q = p
    · refine ⟨t, by simp [Phase.holding], ?_⟩
      rw [e] at hk
      exact h.inj _ _ p hok.2 hk
    · simp only [e, if_false] at hq
      obtain ⟨t1, ht1, hk1⟩ := h.owned k q hk hq
      have e1 : t1 ≠ t := fun x => by rw [x, ht] at ht1; cases ht1
      exact ⟨t1, by rw [System.set_threads_of_ne _ _ _ _ _ _ e1]; exact ht1, hk1⟩
  · exact h.count_same t _ _ _ (by rw [ht]; intro q; rfl) hw
  · intro k q hk
    exact h.below k q (by simpa using hk)
  · intro k1 k2 q hk1 hk2
    exact h.inj k1 k2 q (by simpa using hk1) (by simpa using hk2)
  · exact h.counter_same t _ _ (by rw [ht]; rfl)

/-- Line 81 of `Lock`: `nameLock.dec()`. -/
theorem System.Inv.set_dec {key : Fin N → T} {M : Nat} {σ : System T N} (hN : N < 2147483648)
    (h : σ.Inv key M) (t : Fin N) (i p : Nat) (ht : σ.threads t = ⟨i, .inLock (.L81 p)⟩) :
    (σ.set t ⟨i, .inLock (.ret none)⟩ (σ.m.store p (σ.m.heap p).dec) σ.n).Inv key M := by
  have hok := h.ok t
  rw [ht] at hok
  have hht : (σ.threads t).phase.holding = true := by rw [ht]; rfl
  have hg := h.guard_same t ⟨i, .inLock (.ret none)⟩ (σ.m.store p (σ.m.heap p).dec) σ.n
    (by rw [ht]; rfl) rfl
  have fh := System.set_flag (fun θ => θ.phase.holding) σ t ⟨i, .inLock (.ret none)⟩
    (σ.m.store p (σ.m.heap p).dec) σ.n (by rw [ht]; rfl)
  simp only at fh
  have hmu : ∀ q, ((σ.m.store p (σ.m.heap p).dec).heap q).mu = (σ.m.heap q).mu := by
    intro q
    rw [heap_store]
    split
    · rename_i e
      rw [e]
      rfl
    · rfl
  refine ⟨?_, hg.1, hg.2, ?_, ?_, ?_, ?_, ?_, ?_, h.map⟩
  · intro t2
    by_cases e : t2 = t
    · subst e
      simp only [System.set_threads_self, System.set_m, System.set_n, Thread.Ok, lookup_store, hmu]
      exact ⟨hok.1, p, hok.2.1, hok.2.2⟩
    · rw [System.set_threads_of_ne _ _ _ _ _ _ e]
      refine (h.ok t2).mono (by simp) (fun q hq => by rw [System.set_m, hmu]; exact hq) ?_
        (fun _ => rfl)
      intro q _ hh2 hq
      have eq : q ≠ p := by
        intro x
        rw [x] at hq
        exact e (h.excl t2 t hh2 hht (h.inj _ _ p hq hok.2.1))
      simp [heap_store, eq]
  · exact h.excl_same t _ _ _ (fun _ => hht)
  · intro k q hk hq
    simp only [System.set_m, lookup_store, hmu] at hk hq
    obtain ⟨t1, ht1, hk1⟩ := h.owned k q hk hq
    exact ⟨t1, by rw [fh]; exact ht1, hk1⟩
  · intro q
    have hs := System.pendingOn_set σ t ⟨i, .inLock (.ret none)⟩ (σ.m.store p (σ.m.heap p).dec)
      σ.n q
    have hle := pendingOn_le σ q
    have hc := h.count q
    simp only [System.set_m, heap_store]
    generalize (σ.set t ⟨i, .inLock (.ret none)⟩ (σ.m.store p (σ.m.heap p).dec) σ.n).pendingOn q
      = P at hs ⊢
    by_cases e : q = p
    · subst e
      have hs' : P + 1 = σ.pendingOn q := by simpa [ht, Phase.pending] using hs
      simp only [if_true, lockCtr.dec, hc]
      rw [wrapInt32_of_inInt32]
      · omega
      · unfold inInt32
        omega
    · have e' : ¬ p = q := fun x => e x.symm
      have hs' : P = σ.pendingOn q := by simpa [ht, Phase.pending, e'] using hs
      simp only [e, if_false]
      omega
  · intro k q hk
    exact h.below k q (by simpa using hk)
  · intro k1 k2 q hk1 hk2
    exact h.inj k1 k2 q (by simpa using hk1) (by simpa using hk2)
  · exact h.counter_same t _ _ (by rw [ht]; rfl)

end concurrent6

section concurrent7
variable {T : Type} [DecidableEq T] {N : Nat}

/-- The write of `n++` followed by the call of `Unlock`. -/
theorem System.Inv.set_write {key : Fin N → T} {M : Nat} {σ : System T N}
    (h : σ.Inv key M) (t : Fin N) (i tmp : Nat) (ht : σ.threads t = ⟨i, .incr tmp⟩) :
    (σ.set t ⟨i, .inUnlock (.U112 (key t))⟩ σ.m
      (Function.update σ.n (key t) (tmp + 1))).Inv key M := by
  have hok := h.ok t
  rw [ht] at hok
  have hht : (σ.threads t).phase.holding = true := by rw [ht]; rfl
  have hg := h.guard_same t ⟨i, .inUnlock (.U112 (key t))⟩ σ.m
    (Function.update σ.n (key t) (tmp + 1)) (by rw [ht]; rfl) rfl
  have fh := System.set_flag (fun θ => θ.phase.holding) σ t ⟨i, .inUnlock (.U112 (key t))⟩ σ.m
    (Function.update σ.n (key t) (tmp + 1)) (by rw [ht]; rfl)
  simp only at fh
  refine ⟨?_, hg.1, hg.2, ?_, ?_, ?_, h.below, h.inj, ?_, h.map⟩
  · intro t2
    by_cases e : t2 = t
    · subst e
      simp only [System.set_threads_self, System.set_m, System.set_n, Thread.Ok]
      exact ⟨hok.1, trivial, hok.2.2⟩
    · rw [System.set_threads_of_ne _ _ _ _ _ _ e]
      refine (h.ok t2).mono (fun _ => rfl) (fun _ hq => hq) (fun _ _ _ _ => rfl) ?_
      intro hh2
      have ek : key t2 ≠ key t := fun x => e (h.excl t2 t hh2 hht x)
      simp [Function.update, ek]
  · exact h.excl_same t _ _ _ (fun _ => hht)
  · intro k q hk hq
    obtain ⟨t1, ht1, hk1⟩ := h.owned k q hk hq
    exact ⟨t1, by rw [fh]; exact ht1, hk1⟩
  · exact h.count_same t _ _ _ (by rw [ht]; intro q; rfl) (fun _ => rfl)
  · intro k
    have hs := sum_update_threads (fun x θ => if key x = k then θ.increments else 0) σ.threads t
      ⟨i, .inUnlock (.U112 (key t))⟩
    have hc := h.counter k
    show Function.update σ.n (key t) (tmp + 1) k = ∑ x : Fin N, if key x = k then
      (Function.update σ.threads t ⟨i, .inUnlock (.U112 (key t))⟩ x).increments else 0
    simp only at hs
    generalize (∑ x : Fin N, if key x = k then
      (Function.update σ.threads t ⟨i, .inUnlock (.U112 (key t))⟩ x).increments else 0) = S at hs ⊢
    rw [← hc] at hs
    by_cases ek : k = key t
    · subst ek
      simp only [if_true, ht, Thread.increments, Function.update_same] at hs ⊢
      rw [hok.2.1]
      omega
    · have ek' : ¬ key t = k := fun x => ek x.symm
      simp only [ek', if_false, Function.update_noteq ek] at hs ⊢
      omega

/-- Lines 119-121 of `Unlock` when the count read is 0: the entry is deleted. -/
theorem System.Inv.set_delete {key : Fin N → T} {M : Nat} {σ : System T N}
    (h : σ.Inv key M) (t : Fin N) (i p : Nat)
    (ht : σ.threads t = ⟨i, .inUnlock (.U120 (key t) p 0)⟩) :
    (σ.set t ⟨i, .inUnlock (.U122 p)⟩ (σ.m.delete (key t)) σ.n).Inv key M := by
  have hok := h.ok t
  rw [ht] at hok
  obtain ⟨hi, _, hp, hlocked, hcount⟩ := hok
  have hht : (σ.threads t).phase.holding = true := by rw [ht]; rfl
  have hgt : (σ.threads t).phase.guardHeld = true := by rw [ht]; rfl
  have hg := h.guard_same t ⟨i, .inUnlock (.U122 p)⟩ (σ.m.delete (key t)) σ.n
    (by rw [ht]; rfl) (mu_delete _ _)
  have fh := System.set_flag (fun θ => θ.phase.holding) σ t ⟨i, .inUnlock (.U122 p)⟩
    (σ.m.delete (key t)) σ.n (by rw [ht]; rfl)
  simp only at fh
  have hzero : σ.pendingOn p = 0 := by
    have := h.count p
    omega
  refine ⟨?_, hg.1, hg.2, ?_, ?_, ?_, ?_, ?_, ?_, locks_isSome_delete _ _ h.map⟩
  · intro t2
    by_cases e : t2 = t
    · subst e
      simp only [System.set_threads_self, System.set_m, System.set_n, Thread.Ok, lookup_delete,
        heap_delete]
      refine ⟨hi, hlocked, Or.inr ⟨by simp, ?_⟩⟩
      intro k1
      by_cases ek : k1 = key t2
      · simp [ek]
      · simp only [ek, if_false]
        exact fun hk1 => ek (h.inj _ _ p hk1 hp)
    · rw [System.set_threads_of_ne _ _ _ _ _ _ e]
      refine (h.ok t2).stable (h.others_unguarded t hgt t2 e) ?_ ?_
      · intro q hq hor
        have ek : key t2 ≠ key t := by
          intro x
          rcases hor with hh2 | hp2
          · exact e (h.excl t2 t hh2 hht x)
          · rw [x, hp] at hq
            cases hq
            have := System.pendingOn_pos σ t2 p hp2
            omega
        simp [lookup_delete, ek, hq]
      · intro q _ _ hlk
        simpa using hlk
  · exact h.excl_same t _ _ _ (fun _ => hht)
  · intro k q hk hq
    simp only [System.set_m, lookup_delete, heap_delete] at hk hq
    by_cases ek : k = key t
    · simp [ek] at hk
    · simp only [ek, if_false] at hk
      obtain ⟨t1, ht1, hk1⟩ := h.owned k q hk hq
      exact ⟨t1, by rw [fh]; exact ht1, hk1⟩
  · exact h.count_same t _ _ _ (by rw [ht]; intro q; rfl) (fun _ => by simp)
  · intro k q hk
    simp only [System.set_m, lookup_delete, next_delete] at hk ⊢
    by_cases ek : k = key t
    · simp [ek] at hk
    · simp only [ek, if_false] at hk
      exact h.below k q hk
  · intro k1 k2 q hk1 hk2
    simp only [System.set_m, lookup_delete] at hk1 hk2
    by_cases e1 : k1 = key t
    · simp [e1] at hk1
    · by_cases e2 : k2 = key t
      · simp [e2] at hk2
      · simp only [e1, e2, if_false] at hk1 hk2
        exact h.inj k1 k2 q hk1 hk2
  · exact h.counter_same t _ _ (by rw [ht]; rfl)

/-- Line 122 of `Unlock`: `nameLock.Unlock()`. -/
theorem System.Inv.set_unlock {key : Fin N → T} {M : Nat} {σ : System T N}
    (h : σ.Inv key M) (t : Fin N) (i p : Nat) (ht : σ.threads t = ⟨i, .inUnlock (.U122 p)⟩) :
    (σ.set t ⟨i, .inUnlock .U124⟩
      (σ.m.store p ⟨⟨false⟩, (σ.m.heap p).waiters⟩) σ.n).Inv key M := by
  have hok := h.ok t
  rw [ht] at hok
  obtain ⟨hi, hlocked, hor⟩ := hok
  have hht : (σ.threads t).phase.holding = true := by rw [ht]; rfl
  have hgt : (σ.threads t).phase.guardHeld = true := by rw [ht]; rfl
  have hg := h.guard_same t ⟨i, .inUnlock .U124⟩
    (σ.m.store p ⟨⟨false⟩, (σ.m.heap p).waiters⟩) σ.n (by rw [ht]; rfl) rfl
  have hw : ∀ q, ((σ.m.store p ⟨⟨false⟩, (σ.m.heap p).waiters⟩).heap q).waiters =
      (σ.m.heap q).waiters := by
    intro q
    rw [heap_store]
    split
    · rename_i e
      rw [e]
    · rfl
  have hnot : ∀ t2 q, t2 ≠ t → (σ.threads t2).phase.holding = true →
      σ.m.lookup (key t2) = some q → q ≠ p := by
    intro t2 q e hh2 hq x
    rw [x] at hq
    rcases hor with hp | hp
    · exact e (h.excl t2 t hh2 hht (h.inj _ _ p hq hp))
    · exact hp.2 _ hq
  refine ⟨?_, hg.1, hg.2, ?_, ?_, ?_, ?_, ?_, ?_, h.map⟩
  · intro t2
    by_cases e : t2 = t
    · subst e
      simp only [System.set_threads_self, System.set_m, System.set_n, Thread.Ok]
      exact hi
    · rw [System.set_threads_of_ne _ _ _ _ _ _ e]
      refine (h.ok t2).stable (h.others_unguarded t hgt t2 e) ?_ ?_
      · intro q hq _
        simpa using hq
      · intro q hq hh2 hlk
        simp only [System.set_m, heap_store, hnot t2 q e hh2 hq, if_false]
        exact hlk
  · exact h.excl_same t _ _ _ (fun x => by cases x)
  · intro k q hk hq
    simp only [System.set_m, lookup_store, heap_store] at hk hq
    by_cases e : q = p
    · simp [e] at hq
    · simp only [e, if_false] at hq
      obtain ⟨t1, ht1, hk1⟩ := h.owned k q hk hq
      have e1 : t1 ≠ t := by
        intro x
        rw [x] at hk1
        rw [← hk1] at hk
        rcases hor with hp | hp
        · rw [hp] at hk
          cases hk
          exact e rfl
        · rw [hp.1] at hk
          cases hk
      exact ⟨t1, by rw [System.set_threads_of_ne _ _ _ _ _ _ e1]; exact ht1, hk1⟩
  · exact h.count_same t _ _ _ (by rw [ht]; intro q; rfl) hw
  · intro k q hk
    exact h.below k q (by simpa using hk)
  · intro k1 k2 q hk1 hk2
    exact h.inj k1 k2 q (by simpa using hk1) (by simpa using hk2)
  · exact h.counter_same t _ _ (by rw [ht]; rfl)

end concurrent7

section concurrent8
variable {T : Type} [DecidableEq T] {N : Nat}

/-- Every statement of every caller keeps the invariant. -/
theorem System.Inv.step {key : Fin N → T} {M : Nat} {σ σ1 : System T N} (hN : N < 2147483648)
    (h : σ.Inv key M) (t : Fin N) (hs : System.step key M t σ = some σ1) : σ1.Inv key M := by
  have hok := h.ok t
  unfold System.step at hs
  cases hθ : σ.threads t with
  | mk i ph =>
  rw [hθ] at hs hok
  cases ph with
  | finished => simp [Thread.step] at hs
  | loop =>
    simp only [Thread.step, Option.map_some', Option.some.injEq] at hs
    subst hs
    have hi : i ≤ M := hok
    by_cases hlt : i < M
    · simp only [hlt, if_true]
      exact h.set_local t _ σ.m ⟨hlt, rfl⟩ (fun _ => rfl) (fun _ => rfl) rfl rfl h.map
        (by rw [hθ]; rfl) (by rw [hθ]; intro; rfl) (by rw [hθ]; rfl) (by rw [hθ]; rfl)
    · simp only [hlt, if_false]
      have hiM : i = M := by omega
      exact h.set_local t _ σ.m hiM (fun _ => rfl) (fun _ => rfl) rfl rfl h.map
        (by rw [hθ]; rfl) (by rw [hθ]; intro; rfl) (by rw [hθ]; rfl) (by rw [hθ]; rfl)
  | incr tmp =>
    simp only [Thread.step, Option.map_some', Option.some.injEq] at hs
    subst hs
    exact h.set_write t i tmp hθ
  | inLock pc =>
    cases pc with
    | L62 name =>
      obtain ⟨hi, hname⟩ := hok
      subst hname
      cases hg : σ.m.mu.locked with
      | true => simp [Thread.step, Mutex.Lock, hg] at hs
      | false =>
        simp only [Thread.step, step_L62, Mutex.Lock, hg, Bool.false_eq_true, if_false,
          Option.map_some', Option.some.injEq] at hs
        subst hs
        exact h.set_acquire t _ hg ⟨hi, rfl⟩ (by rw [hθ]; rfl) (by rw [hθ]; intro; rfl)
          (by rw [hθ]; rfl) rfl
    | L63 name =>
      simp only [Thread.step, step_L63, Option.map_some', Option.some.injEq] at hs
      subst hs
      exact h.set_local t _ _ hok (by simp) (by simp) (by simp) (by simp) (by simp)
        (by rw [hθ]; rfl) (by rw [hθ]; intro; rfl) (by rw [hθ]; rfl) (by rw [hθ]; rfl)
    | L67 name =>
      obtain ⟨hi, hname⟩ := hok
      subst hname
      simp only [Thread.step, step_L67, lookupOrCreate_eq _ _ h.map, Option.map_some',
        Option.some.injEq] at hs
      subst hs
      cases hp : σ.m.lookup (key t) with
      | none =>
        have e1 : (σ.m.lookupOrCreateD (key t)).1 = σ.m.next := by
          rw [fst_lookupOrCreateD, hp]
          rfl
        rw [e1]
        exact h.set_create t i hθ hp
      | some p =>
        rw [lookupOrCreateD_of_some _ _ _ hp]
        exact h.set_local t _ _ ⟨hi, hp⟩ (fun _ => rfl) (fun _ => rfl) rfl rfl h.map
          (by rw [hθ]; rfl) (by rw [hθ]; intro; rfl) (by rw [hθ]; rfl) (by rw [hθ]; rfl)
    | L75 p =>
      simp only [Thread.step, step_L75, Option.map_some', Option.some.injEq] at hs
      subst hs
      exact h.set_inc hN t i p hθ
    | L76 p =>
      have hgt : (σ.threads t).phase.guardHeld = true := by rw [hθ]; rfl
      have hg := (h.guardOwner t hgt).1
      simp only [Thread.step, step_L76, Mutex.Unlock, hg, if_true, Option.map_some',
        Option.some.injEq] at hs
      subst hs
      exact h.set_release t _ hgt hok (by rw [hθ]; rfl) (by rw [hθ]; intro; rfl)
        (by rw [hθ]; rfl) rfl
    | L80 p =>
      cases hl : (σ.m.heap p).mu.locked with
      | true => simp [Thread.step, lockCtr.Lock, Mutex.Lock, hl] at hs
      | false =>
        simp only [Thread.step, step_L80, lockCtr.Lock, Mutex.Lock, hl, Bool.false_eq_true,
          if_false, Option.map_some', Option.some.injEq] at hs
        subst hs
        exact h.set_lock t i p hθ hl
    | L81 p =>
      simp only [Thread.step, step_L81, Option.map_some', Option.some.injEq] at hs
      subst hs
      exact h.set_dec hN t i p hθ
    | ret v =>
      simp only [Thread.step, Option.map_some', Option.some.injEq] at hs
      subst hs
      exact h.set_local t _ σ.m ⟨hok.1, rfl, hok.2⟩ (fun _ => rfl) (fun _ => rfl) rfl rfl h.map
        (by rw [hθ]; rfl) (by rw [hθ]; intro; rfl) (by rw [hθ]; rfl) (by rw [hθ]; rfl)
    | _ => exact hok.elim
  | inUnlock pc =>
    cases pc with
    | U112 name =>
      obtain ⟨hi, hname, hp⟩ := hok
      subst hname
      cases hg : σ.m.mu.locked with
      | true => simp [Thread.step, Mutex.Lock, hg] at hs
      | false =>
        simp only [Thread.step, step_U112, Mutex.Lock, hg, Bool.false_eq_true, if_false,
          Option.map_some', Option.some.injEq] at hs
        subst hs
        exact h.set_acquire t _ hg ⟨hi, rfl, by simpa [Thread.Ok] using hp⟩ (by rw [hθ]; rfl)
          (by rw [hθ]; intro; rfl) (by rw [hθ]; rfl) rfl
    | U113 name =>
      obtain ⟨hi, hname, p, hp, hl⟩ := hok
      subst hname
      simp only [Thread.step, step_U113, hp, Option.map_some', Option.some.injEq] at hs
      subst hs
      exact h.set_local t _ σ.m ⟨hi, rfl, hp, hl⟩ (fun _ => rfl) (fun _ => rfl) rfl rfl h.map
        (by rw [hθ]; rfl) (by rw [hθ]; intro; rfl) (by rw [hθ]; rfl) (by rw [hθ]; rfl)
    | U119 name p =>
      obtain ⟨hi, hname, hp, hl⟩ := hok
      subst hname
      simp only [Thread.step, step_U119, Option.map_some', Option.some.injEq] at hs
      subst hs
      exact h.set_local t _ σ.m ⟨hi, rfl, hp, hl, rfl⟩ (fun _ => rfl) (fun _ => rfl) rfl rfl h.map
        (by rw [hθ]; rfl) (by rw [hθ]; intro; rfl) (by rw [hθ]; rfl) (by rw [hθ]; rfl)
    | U120 name p c =>
      obtain ⟨hi, hname, hp, hl, hc⟩ := hok
      subst hname
      simp only [Thread.step, step_U120, Option.map_some', Option.some.injEq] at hs
      subst hs
      by_cases hz : c = 0
      · subst hz
        simp only [if_true]
        exact h.set_delete t i p hθ
      · simp only [hz, if_false]
        exact h.set_local t _ σ.m ⟨hi, hl, Or.inl hp⟩ (fun _ => rfl) (fun _ => rfl) rfl rfl h.map
          (by rw [hθ]; rfl) (by rw [hθ]; intro; rfl) (by rw [hθ]; rfl) (by rw [hθ]; rfl)
    | U122 p =>
      have hl := hok.2.1
      simp only [Thread.step, step_U122, lockCtr.Unlock, Mutex.Unlock, hl, if_true,
        Option.map_some', Option.some.injEq] at hs
      subst hs
      exact h.set_unlock t i p hθ
    | U124 =>
      have hgt : (σ.threads t).phase.guardHeld = true := by rw [hθ]; rfl
      have hg := (h.guardOwner t hgt).1
      simp only [Thread.step, step_U124, Mutex.Unlock, hg, if_true, Option.map_some',
        Option.some.injEq] at hs
      subst hs
      exact h.set_release t _ hgt hok (by rw [hθ]; rfl) (by rw [hθ]; intro; rfl)
        (by rw [hθ]; rfl) rfl
    | ret v =>
      simp only [Thread.step, Option.map_some', Option.some.injEq] at hs
      subst hs
      have hi : i < M := hok
      exact h.set_local t _ σ.m (Nat.succ_le_of_lt hi) (fun _ => rfl) (fun _ => rfl) rfl rfl h.map
        (by rw [hθ]; rfl) (by rw [hθ]; intro; rfl) (by rw [hθ]; rfl) (by rw [hθ]; rfl)
    | _ => exact hok.elim

/-- The invariant holds in every reachable state. -/
theorem Reachable.inv {key : Fin N → T} {M : Nat} {σ : System T N} (hN : N < 2147483648)
    (h : Reachable key M σ) : σ.Inv key M := by
  induction h with
  | init => exact System.init_inv key M
  | step σ σ1 t _ hs ih => exact ih.step hN t hs

end concurrent8

section concurrent9
variable {T : Type} [DecidableEq T] {N : Nat}

/-- A caller that has the guard can always execute its next statement. -/
theorem Thread.Ok.step_isSome_of_guardHeld {k : T} {M : Nat} {m : MapLock T} {n : T → Nat}
    {θ : Thread T} (h : θ.Ok k M m n) (hg : θ.phase.guardHeld = true) :
    (θ.step k M m n).isSome = true := by
  obtain ⟨i, ph⟩ := θ
  cases ph with
  | loop => cases hg
  | finished => cases hg
  | incr tmp => cases hg
  | inLock pc =>
    cases pc <;> simp only [Phase.guardHeld] at hg <;> try cases hg
    all_goals simp [Thread.step]
    · cases m.lookupOrCreate _ <;> simp
    · cases m.mu.Unlock <;> simp
  | inUnlock pc =>
    cases pc <;> simp only [Phase.guardHeld] at hg <;> try cases hg
    all_goals simp [Thread.step]
    · cases m.lookup _ <;> simp
    · cases m.mu.Unlock <;> simp
    · cases (m.heap _).Unlock <;> simp
    · cases m.mu.Unlock <;> simp

/-- With the guard free, a caller that holds the lock of its key can always
execute its next statement. -/
theorem Thread.Ok.step_isSome_of_holding {k : T} {M : Nat} {m : MapLock T} {n : T → Nat}
    {θ : Thread T} (h : θ.Ok k M m n) (hh : θ.phase.holding = true)
    (hfree : m.mu.locked = false) : (θ.step k M m n).isSome = true := by
  cases hg : θ.phase.guardHeld with
  | true => exact h.step_isSome_of_guardHeld hg
  | false =>
    obtain ⟨i, ph⟩ := θ
    cases ph with
    | loop => cases hh
    | finished => cases hh
    | incr tmp => simp [Thread.step]
    | inLock pc =>
      cases pc <;> simp only [Phase.holding] at hh <;> try cases hh
      all_goals simp [Thread.step]
    | inUnlock pc =>
      cases pc <;> simp only [Phase.holding, Phase.guardHeld, Thread.Ok] at hh hg h <;>
        try cases hh
      all_goals try cases hg
      simp [Thread.step, Mutex.Lock, hfree]

/-- Unless all callers have finished, some caller can execute a statement. -/
theorem System.Inv.progress {key : Fin N → T} {M : Nat} {σ : System T N} (h : σ.Inv key M)
    (t0 : Fin N) (hnf : (σ.threads t0).phase ≠ .finished) :
    ∃ t, (System.step key M t σ).isSome = true := by
  have key1 : ∀ t, ((σ.threads t).step (key t) M σ.m σ.n).isSome = true →
      (System.step key M t σ).isSome = true := by
    intro t ht
    simp [System.step, ht]
  cases hg : σ.m.mu.locked with
  | true =>
    obtain ⟨t, ht⟩ := h.guardOwned hg
    exact ⟨t, key1 t ((h.ok t).step_isSome_of_guardHeld ht)⟩
  | false =>
    have hold : ∀ t, (σ.threads t).phase.holding = true →
        ∃ t, (System.step key M t σ).isSome = true :=
      fun t ht => ⟨t, key1 t ((h.ok t).step_isSome_of_holding ht hg)⟩
    have hok := h.ok t0
    cases hθ : σ.threads t0 with
    | mk i ph =>
    rw [hθ] at hok hnf
    cases ph with
    | finished => exact absurd rfl hnf
    | loop => exact ⟨t0, key1 t0 (by simp [hθ, Thread.step])⟩
    | incr tmp => exact ⟨t0, key1 t0 (by simp [hθ, Thread.step])⟩
    | inLock pc =>
      cases pc with
      | L62 name => exact ⟨t0, key1 t0 (by simp [hθ, Thread.step, Mutex.Lock, hg])⟩
      | L63 name => exact ⟨t0, key1 t0 (by simp [hθ, Thread.step])⟩
      | L67 name =>
        exact ⟨t0, key1 t0 (by simp [hθ, Thread.step, lookupOrCreate_eq _ _ h.map])⟩
      | L75 p => exact ⟨t0, key1 t0 (by simp [hθ, Thread.step])⟩
      | L76 p =>
        have := (h.guardOwner t0 (by rw [hθ]; rfl)).1
        rw [hg] at this
        cases this
      | L80 p =>
        cases hl : (σ.m.heap p).mu.locked with
        | false => exact ⟨t0, key1 t0 (by simp [hθ, Thread.step, lockCtr.Lock, Mutex.Lock, hl])⟩
        | true =>
          obtain ⟨t1, ht1, _⟩ := h.owned (key t0) p hok.2 hl
          exact hold t1 ht1
      | L81 p => exact ⟨t0, key1 t0 (by simp [hθ, Thread.step])⟩
      | ret v => exact ⟨t0, key1 t0 (by simp [hθ, Thread.step])⟩
      | _ => exact hok.elim
    | inUnlock pc =>
      cases pc with
      | U112 name => exact hold t0 (by rw [hθ]; rfl)
      | U113 name => exact hold t0 (by rw [hθ]; rfl)
      | U119 name p => exact hold t0 (by rw [hθ]; rfl)
      | U120 name p c => exact hold t0 (by rw [hθ]; rfl)
      | U122 p => exact hold t0 (by rw [hθ]; rfl)
      | U124 =>
        have := (h.guardOwner t0 (by rw [hθ]; rfl)).1
        rw [hg] at this
        cases this
      | ret v => exact ⟨t0, key1 t0 (by simp [hθ, Thread.step])⟩
      | _ => exact hok.elim

omit [DecidableEq T] in
/-- No caller ever dies. -/
theorem Thread.Ok.not_dead {k : T} {M : Nat} {m : MapLock T} {n : T → Nat} {θ : Thread T}
    (h : θ.Ok k M m n) : θ.phase.dead = false := by
  obtain ⟨i, ph⟩ := θ
  cases ph with
  | loop => rfl
  | finished => rfl
  | incr tmp => rfl
  | inLock pc => cases pc <;> first | rfl | exact h.elim
  | inUnlock pc => cases pc <;> first | rfl | exact h.elim

end concurrent9

section concurrent10
variable {T : Type} [DecidableEq T] {N : Nat}

/-- Every statement a caller executes brings it one statement closer to the
end of its loop. -/
theorem Thread.Ok.step_decreases {k : T} {M : Nat} {m : MapLock T} {n : T → Nat} {θ : Thread T}
    (h : θ.Ok k M m n) (hg : θ.phase.guardHeld = true → m.mu.locked = true)
    (hm : m.locks.isSome = true)
    (r : Thread T × MapLock T × (T → Nat)) (hs : θ.step k M m n = some r) :
    r.1.remaining M + 1 = θ.remaining M := by
  obtain ⟨i, ph⟩ := θ
  cases ph with
  | finished => simp [Thread.step] at hs
  | loop =>
    simp only [Thread.step, Option.some.injEq] at hs
    subst hs
    have hi : i ≤ M := h
    by_cases hlt : i < M
    · simp only [hlt, if_true, Thread.remaining, Phase.offset]
      omega
    · simp only [hlt, if_false, Thread.remaining, Phase.offset]
      omega
  | incr tmp =>
    simp only [Thread.step, Option.some.injEq] at hs
    subst hs
    have hi : i < M := h.1
    simp only [Thread.remaining, Phase.offset]
    omega
  | inLock pc =>
    cases pc with
    | L62 name =>
      have hi : i < M := h.1
      cases hl : m.mu.locked with
      | true => simp [Thread.step, Mutex.Lock, hl] at hs
      | false =>
        simp only [Thread.step, step_L62, Mutex.Lock, hl, Bool.false_eq_true, if_false,
          Option.map_some', Option.some.injEq] at hs
        subst hs
        simp only [Thread.remaining, Phase.offset]
        omega
    | L63 name =>
      have hi : i < M := h.1
      simp only [Thread.step, step_L63, Option.map_some', Option.some.injEq] at hs
      subst hs
      simp only [Thread.remaining, Phase.offset]
      omega
    | L67 name =>
      have hi : i < M := h.1
      simp only [Thread.step, step_L67, lookupOrCreate_eq _ _ hm, Option.map_some',
        Option.some.injEq] at hs
      subst hs
      simp only [Thread.remaining, Phase.offset]
      omega
    | L75 p =>
      have hi : i < M := h.1
      simp only [Thread.step, step_L75, Option.map_some', Option.some.injEq] at hs
      subst hs
      simp only [Thread.remaining, Phase.offset]
      omega
    | L76 p =>
      have hi : i < M := h.1
      have hl := hg rfl
      simp only [Thread.step, step_L76, Mutex.Unlock, hl, if_true, Option.map_some',
        Option.some.injEq] at hs
      subst hs
      simp only [Thread.remaining, Phase.offset]
      omega
    | L80 p =>
      have hi : i < M := h.1
      cases hl : (m.heap p).mu.locked with
      | true => simp [Thread.step, lockCtr.Lock, Mutex.Lock, hl] at hs
      | false =>
        simp only [Thread.step, step_L80, lockCtr.Lock, Mutex.Lock, hl, Bool.false_eq_true,
          if_false, Option.map_some', Option.some.injEq] at hs
        subst hs
        simp only [Thread.remaining, Phase.offset]
        omega
    | L81 p =>
      have hi : i < M := h.1
      simp only [Thread.step, step_L81, Option.map_some', Option.some.injEq] at hs
      subst hs
      simp only [Thread.remaining, Phase.offset]
      omega
    | ret v =>
      have hi : i < M := h.1
      simp only [Thread.step, Option.some.injEq] at hs
      subst hs
      simp only [Thread.remaining, Phase.offset]
      omega
    | _ => exact h.elim
  | inUnlock pc =>
    cases pc with
    | U112 name =>
      have hi : i < M := h.1
      cases hl : m.mu.locked with
      | true => simp [Thread.step, Mutex.Lock, hl] at hs
      | false =>
        simp only [Thread.step, step_U112, Mutex.Lock, hl, Bool.false_eq_true, if_false,
          Option.map_some', Option.some.injEq] at hs
        subst hs
        simp only [Thread.remaining, Phase.offset]
        omega
    | U113 name =>
      have hi : i < M := h.1
      obtain ⟨_, hname, p, hp, _⟩ := h
      subst hname
      simp only [Thread.step, step_U113, hp, Option.map_some', Option.some.injEq] at hs
      subst hs
      simp only [Thread.remaining, Phase.offset]
      omega
    | U119 name p =>
      have hi : i < M := h.1
      simp only [Thread.step, step_U119, Option.map_some', Option.some.injEq] at hs
      subst hs
      simp only [Thread.remaining, Phase.offset]
      omega
    | U120 name p c =>
      have hi : i < M := h.1
      simp only [Thread.step, step_U120, Option.map_some', Option.some.injEq] at hs
      subst hs
      simp only [Thread.remaining, Phase.offset]
      omega
    | U122 p =>
      have hi : i < M := h.1
      have hl := h.2.1
      simp only [Thread.step, step_U122, lockCtr.Unlock, Mutex.Unlock, hl, if_true,
        Option.map_some', Option.some.injEq] at hs
      subst hs
      simp only [Thread.remaining, Phase.offset]
      omega
    | U124 =>
      have hi : i < M := h
      have hl := hg rfl
      simp only [Thread.step, step_U124, Mutex.Unlock, hl, if_true, Option.map_some',
        Option.some.injEq] at hs
      subst hs
      simp only [Thread.remaining, Phase.offset]
      omega
    | ret v =>
      have hi : i < M := h
      simp only [Thread.step, Option.some.injEq] at hs
      subst hs
      simp only [Thread.remaining, Phase.offset]
      omega
    | _ => exact h.elim

/-- Every statement brings the system one statement closer to its end. -/
theorem System.Inv.step_remaining {key : Fin N → T} {M : Nat} {σ σ1 : System T N}
    (h : σ.Inv key M) (t : Fin N) (hs : System.step key M t σ = some σ1) :
    σ1.remaining M + 1 = σ.remaining M := by
  unfold System.step at hs
  cases hr : (σ.threads t).step (key t) M σ.m σ.n with
  | none => simp [hr] at hs
  | some r =>
    simp only [hr, Option.map_some', Option.some.injEq] at hs
    subst hs
    have h1 := (h.ok t).step_decreases (fun hg => (h.guardOwner t hg).1) h.map r hr
    have h2 := sum_update_threads (fun _ θ => θ.remaining M) σ.threads t r.1
    show (∑ x : Fin N, (Function.update σ.threads t r.1 x).remaining M) + 1 =
      ∑ x : Fin N, (σ.threads x).remaining M
    simp only at h2
    omega

omit [DecidableEq T] in
/-- A caller that has not finished still has a statement to execute. -/
theorem Thread.Ok.remaining_pos {k : T} {M : Nat} {m : MapLock T} {n : T → Nat} {θ : Thread T}
    (h : θ.Ok k M m n) (hnf : θ.phase ≠ .finished) : 0 < θ.remaining M := by
  obtain ⟨i, ph⟩ := θ
  cases ph with
  | finished => exact absurd rfl hnf
  | loop => simp [Thread.remaining, Phase.offset]
  | incr tmp =>
    have hi : i < M := h.1
    simp only [Thread.remaining, Phase.offset]
    omega
  | inLock pc =>
    cases pc <;> first
      | exact h.elim
      | (have hi : i < M := h.1
         simp only [Thread.remaining, Phase.offset]
         omega)
  | inUnlock pc =>
    cases pc <;> first
      | exact h.elim
      | (have hi : i < M := h.1
         simp only [Thread.remaining, Phase.offset]
         omega)
      | (have hi : i < M := h
         simp only [Thread.remaining, Phase.offset]
         omega)

omit [DecidableEq T] in
theorem System.init_remaining (M : Nat) :
    (System.init : System T N).remaining M = N * (17 * M + 1) := by
  simp [System.remaining, System.init, Thread.remaining, Phase.offset]

/-- The schedule reaches only reachable states. -/
theorem Reachable.runSchedule {key : Fin N → T} {M : Nat} (ts : List (Fin N)) {σ : System T N}
    (h : Reachable key M σ) : Reachable key M (System.runSchedule key M ts σ) := by
  induction ts generalizing σ with
  | nil => exact h
  | cons t ts ih =>
    unfold System.runSchedule
    cases hs : System.step key M t σ with
    | none => exact ih h
    | some σ1 => exact ih (Reachable.step σ σ1 t h hs)

end concurrent10

section concurrent11
variable {T : Type} [DecidableEq T] {N : Nat}

/-- The number of statements still to execute never exceeds the number at the
start. -/
theorem Reachable.remaining_le {key : Fin N → T} {M : Nat} {σ : System T N} (hN : N < 2147483648)
    (h : Reachable key M σ) : σ.remaining M ≤ N * (17 * M + 1) := by
  induction h with
  | init => exact Nat.le_of_eq (System.init_remaining M)
  | step σ σ1 t hr hs ih =>
    have := (hr.inv hN).step_remaining t hs
    omega

/-- When all callers have finished, the counter of a key is `M` times the
number of callers of that key. -/
theorem System.Inv.counter_finished {key : Fin N → T} {M : Nat} {σ : System T N}
    (h : σ.Inv key M) (hfin : ∀ t, (σ.threads t).phase = .finished) (k : T) :
    σ.n k = (Finset.univ.filter fun t => key t = k).card * M := by
  have hinc : ∀ t, (σ.threads t).increments = M := by
    intro t
    have hok := h.ok t
    unfold Thread.Ok at hok
    rw [hfin t] at hok
    simp only [Thread.increments, hfin t]
    exact hok
  rw [h.counter k]
  simp only [hinc]
  rw [← Finset.sum_filter, Finset.sum_const, smul_eq_mul]

/-- C1: `N` callers (fewer than 2^31, the range of the `int32` waiter count),
caller `t` running `M` rounds of `Lock(key t); n++; Unlock(key t)`, interleaved
statement by statement from `New()`.  In every reachable state: at most one
caller holds the exclusive lock of any key; a caller between the read and the
write of its `n++` has read the current value of the counter (nobody else wrote
in between); no caller has died (no panic, no fatal error); unless all callers
have finished some caller can execute its next statement (no deadlock); every
statement executed brings the end one statement closer, so every run ends after
at most `N * (17 * M + 1)` statements; and when all callers have finished the
counter protected by a key equals `M` times the number of callers of that key,
which is `N * M` when all callers use the same key. -/
theorem mutual_exclusion (key : Fin N → T) (M : Nat) (hN : N < 2147483648) (σ : System T N)
    (h : Reachable key M σ) :
    (∀ t1 t2, (σ.threads t1).phase.holding = true → (σ.threads t2).phase.holding = true →
      key t1 = key t2 → t1 = t2) ∧
    (∀ t tmp, (σ.threads t).phase = .incr tmp → tmp = σ.n (key t)) ∧
    (∀ t, (σ.threads t).phase.dead = false) ∧
    ((∀ t, (σ.threads t).phase = .finished) ∨ ∃ t, (System.step key M t σ).isSome = true) ∧
    σ.remaining M ≤ N * (17 * M + 1) ∧
    (∀ t σ1, System.step key M t σ = some σ1 → σ1.remaining M + 1 = σ.remaining M) ∧
    ((∀ t, (σ.threads t).phase = .finished) →
      ∀ k, σ.n k = (Finset.univ.filter fun t => key t = k).card * M) ∧
    ((∀ t, (σ.threads t).phase = .finished) → ∀ K, (∀ t, key t = K) → σ.n K = N * M) := by
  have hinv := h.inv hN
  refine ⟨hinv.excl, ?_, fun t => (hinv.ok t).not_dead, ?_, h.remaining_le hN,
    fun t σ1 hs => hinv.step_remaining t hs, hinv.counter_finished, ?_⟩
  · intro t tmp ht
    have hok := hinv.ok t
    unfold Thread.Ok at hok
    rw [ht] at hok
    exact hok.2.1
  · by_cases hfin : ∀ t, (σ.threads t).phase = .finished
    · exact Or.inl hfin
    · push_neg at hfin
      obtain ⟨t0, ht0⟩ := hfin
      exact Or.inr (hinv.progress t0 ht0)
  · intro hfin K hK
    rw [hinv.counter_finished hfin K]
    simp [hK]

/-- C1, witness: `Test2`, three callers with one round each on "foo", run one
after the other: all finish and the counter is 3 (three callers times one
round). -/
theorem mutual_exclusion_witness :
    Reachable (fun _ => "foo") 1 test2Final ∧
    (∀ t, (test2Final.threads t).phase = .finished) ∧ test2Final.n "foo" = 3 * 1 :=
  have hr : Reachable (fun _ => "foo") 1 test2Final :=
    Reachable.runSchedule test2Schedule Reachable.init
  have hfin : ∀ t, (test2Final.threads t).phase = .finished := by decide!
  ⟨hr, hfin,
    (mutual_exclusion (fun _ => "foo") 1 (by decide) test2Final hr).2.2.2.2.2.2.2 hfin "foo"
      (fun _ => rfl)⟩

end concurrent11


section claims5
variable {T : Type} [DecidableEq T]

/-- Four statements into `Lock` (after `inc`, before the guard is released) the
waiter count of the entry is one above its value before the call. -/
theorem Lock_after_inc (l : MapLock T) (K : T) (hg : l.mu.locked = false) :
    (run 4 (Pc.L62 K, l)).2.waitersOf K = some (wrapInt32 ((l.waitersOf K).getD 0 + 1)) := by
  cases hp : l.lookup K with
  | none =>
    simp [MapLock.waitersOf, MapLock.entry, Mutex.Lock, lockCtr.inc, lockCtr.count,
      fst_lookupOrCreateD, lookup_lookupOrCreateD, heap_lookupOrCreateD, heap_store, hg, hp,
      lockCtr.zero]
  | some p =>
    simp [MapLock.waitersOf, MapLock.entry, Mutex.Lock, lockCtr.inc, lockCtr.count,
      fst_lookupOrCreateD, lookup_lookupOrCreateD, heap_lookupOrCreateD, heap_store, hg, hp]

/-- Four statements into `TryLock` the waiter count of the entry is one above
its value before the call. -/
theorem TryLock_after_inc (l : MapLock T) (K : T) (hg : l.mu.locked = false) :
    (run 4 (Pc.T86 K, l)).2.waitersOf K = some (wrapInt32 ((l.waitersOf K).getD 0 + 1)) := by
  cases hp : l.lookup K with
  | none =>
    simp [MapLock.waitersOf, MapLock.entry, Mutex.Lock, lockCtr.inc, lockCtr.count,
      fst_lookupOrCreateD, lookup_lookupOrCreateD, heap_lookupOrCreateD, heap_store, hg, hp,
      lockCtr.zero]
  | some p =>
    simp [MapLock.waitersOf, MapLock.entry, Mutex.Lock, lockCtr.inc, lockCtr.count,
      fst_lookupOrCreateD, lookup_lookupOrCreateD, heap_lookupOrCreateD, heap_store, hg, hp]

/-- When `Lock` returns, the waiter count of the entry is what it was before the
call, 0 if the call created the entry. -/
theorem Lock_returns_count (l : MapLock T) (K : T)
    (hr : ∀ c, l.entry K = some c → inInt32 c.waiters) (v : Option Bool)
    (hret : (l.Lock K).1 = Pc.ret v) :
    (l.Lock K).2.waitersOf K = some ((l.waitersOf K).getD 0) := by
  cases hg : l.mu.locked with
  | true => simp [Lock_guard_taken l K hg] at hret
  | false =>
    cases hp : l.lookup K with
    | none =>
      obtain ⟨_, _, h3, h4, _⟩ := Lock_absent l K hg hp
      simp [MapLock.waitersOf, MapLock.entry, hp, h3, h4, lockCtr.count]
    | some p =>
      have hr' := hr (l.heap p) (by simp [MapLock.entry, hp])
      cases hh : (l.heap p).mu.locked with
      | true => simp [(Lock_present_held l K p hg hp hh).1] at hret
      | false =>
        obtain ⟨_, _, h3, h4, _⟩ := Lock_present_free l K p hg hp hh
        simp [MapLock.waitersOf, MapLock.entry, hp, h3, h4, lockCtr.count,
          wrapInt32_inc_dec _ hr']

/-- When `TryLock` returns, the waiter count of the entry is what it was before
the call, 0 if the call created the entry. -/
theorem TryLock_returns_count (l : MapLock T) (K : T)
    (hr : ∀ c, l.entry K = some c → inInt32 c.waiters) (v : Option Bool)
    (hret : (l.TryLock K).1 = Pc.ret v) :
    (l.TryLock K).2.waitersOf K = some ((l.waitersOf K).getD 0) := by
  cases hg : l.mu.locked with
  | true => simp [TryLock_guard_taken l K hg] at hret
  | false =>
    cases hp : l.lookup K with
    | none =>
      obtain ⟨_, _, h3, h4, _⟩ := TryLock_absent l K hg hp
      simp [MapLock.waitersOf, MapLock.entry, hp, h3, h4, lockCtr.count]
    | some p =>
      have hr' := hr (l.heap p) (by simp [MapLock.entry, hp])
      cases hh : (l.heap p).mu.locked with
      | true => simp [(TryLock_present_held l K p hg hp hh).1] at hret
      | false =>
        obtain ⟨_, _, h3, h4, _⟩ := TryLock_present_free l K p hg hp hh
        simp [MapLock.waitersOf, MapLock.entry, hp, h3, h4, lockCtr.count,
          wrapInt32_inc_dec _ hr']

omit [DecidableEq T] in
theorem isHeld_eq_false_iff (l : MapLock T) (K : T) :
    l.isHeld K = false ↔ ∀ p, l.lookup K = some p → (l.heap p).mu.locked = false := by
  unfold MapLock.isHeld MapLock.entry
  cases l.lookup K <;> simp

/-- With the guard free, `Lock` and `TryLock` of a key whose lock is not held
return. -/
theorem Lock_TryLock_return (l : MapLock T) (K : T) (hg : l.mu.locked = false)
    (hfree : l.isHeld K = false) :
    (l.Lock K).1 = Pc.ret none ∧ (l.TryLock K).1 = Pc.ret (some false) := by
  cases hp : l.lookup K with
  | none => exact ⟨(Lock_absent l K hg hp).1, (TryLock_absent l K hg hp).1⟩
  | some p =>
    have hh := (isHeld_eq_false_iff l K).1 hfree p hp
    exact ⟨(Lock_present_free l K p hg hp hh).1, (TryLock_present_free l K p hg hp hh).1⟩

/-- C11: for every registry (its counters being `int32` values) and key `K`:
whenever `Lock(K)` returns, and whenever `TryLock(K)` returns, whatever its
result, the waiter count of the entry of `K` equals its value before the call
(0 if the call created the entry).  With the guard free and the lock of `K` not
held both calls do return, and between `inc` and the acquire attempt the count
is one above that value: the increment is undone by the decrement that follows
the acquire attempt. -/
theorem inc_dec_bracketing (l : MapLock T) (K : T)
    (hr : ∀ c, l.entry K = some c → inInt32 c.waiters) :
    (∀ v, (l.Lock K).1 = Pc.ret v →
      (l.Lock K).2.waitersOf K = some ((l.waitersOf K).getD 0)) ∧
    (∀ v, (l.TryLock K).1 = Pc.ret v →
      (l.TryLock K).2.waitersOf K = some ((l.waitersOf K).getD 0)) ∧
    (l.mu.locked = false → l.isHeld K = false →
      (∃ v, (l.Lock K).1 = Pc.ret v) ∧ (∃ v, (l.TryLock K).1 = Pc.ret v) ∧
      (run 4 (Pc.L62 K, l)).2.waitersOf K = some (wrapInt32 ((l.waitersOf K).getD 0 + 1)) ∧
      (run 4 (Pc.T86 K, l)).2.waitersOf K = some (wrapInt32 ((l.waitersOf K).getD 0 + 1))) :=
  ⟨fun v => Lock_returns_count l K hr v, fun v => TryLock_returns_count l K hr v,
    fun hg hfree => ⟨⟨_, (Lock_TryLock_return l K hg hfree).1⟩,
      ⟨_, (Lock_TryLock_return l K hg hfree).2⟩, Lock_after_inc l K hg, TryLock_after_inc l K hg⟩⟩

/-- C11, witness: the key "a" on the registry in which "a" was locked and
unlocked by a holder while a second caller was counted (entry present, unlocked,
count 1): `Lock("a")` and `TryLock("a")` return with count 1, having had count 2
in between. -/
theorem inc_dec_bracketing_witness :
    (heldAWaited.Unlock "a").2.waitersOf "a" = some 1 ∧
    ((heldAWaited.Unlock "a").2.Lock "a").1 = Pc.ret none ∧
    ((heldAWaited.Unlock "a").2.Lock "a").2.waitersOf "a" = some 1 ∧
    ((heldAWaited.Unlock "a").2.TryLock "a").1 = Pc.ret (some false) ∧
    ((heldAWaited.Unlock "a").2.TryLock "a").2.waitersOf "a" = some 1 ∧
    (run 4 (Pc.L62 "a", (heldAWaited.Unlock "a").2)).2.waitersOf "a" = some 2 ∧
    (run 4 (Pc.T86 "a", (heldAWaited.Unlock "a").2)).2.waitersOf "a" = some 2 :=
  have h := inc_dec_bracketing (heldAWaited.Unlock "a").2 "a"
    (fun c hc => by
      have e : c = ⟨⟨false⟩, 1⟩ := by
        have h1 : (heldAWaited.Unlock "a").2.entry "a" = some ⟨⟨false⟩, 1⟩ := by decide
        rw [h1] at hc
        exact (Option.some.inj hc).symm
      rw [e]
      exact ⟨by decide, by decide⟩)
  ⟨by decide, by decide, h.1 none (by decide), by decide, h.2.1 (some false) (by decide),
    (h.2.2 (by decide) (by decide)).2.2.1, (h.2.2 (by decide) (by decide)).2.2.2⟩

end claims5

section claims6
variable {T : Type} [DecidableEq T]

omit [DecidableEq T] in
/-- The entry of a key is the same in two registries that agree on its pointer
and on the object behind it. -/
theorem entry_congr (l l1 : MapLock T) (B : T) (hl : l1.lookup B = l.lookup B)
    (hh : ∀ p, l.lookup B = some p → l1.heap p = l.heap p) : l1.entry B = l.entry B := by
  unfold MapLock.entry
  rw [hl]
  cases hB : l.lookup B with
  | none => rfl
  | some p => simp [hh p hB]

/-- `Lock(A)` leaves the entry of every other key as it was, however the call
ends. -/
theorem Lock_frame (l : MapLock T) (A B : T) (hne : A ≠ B) (hwf : l.WF) :
    (l.Lock A).2.entry B = l.entry B := by
  have hBA : ¬ B = A := fun e => hne e.symm
  cases hg : l.mu.locked with
  | true => rw [Lock_guard_taken l A hg]
  | false =>
    cases hp : l.lookup A with
    | none =>
      obtain ⟨_, _, h3, h4, _⟩ := Lock_absent l A hg hp
      refine entry_congr l _ B (by simp [h3, hBA]) (fun q hq => ?_)
      simp [h4, Nat.ne_of_lt (hwf.below B q hq)]
    | some p =>
      have hq : ∀ q, l.lookup B = some q → q ≠ p :=
        fun q hq e => hBA (hwf.inj B A p (e ▸ hq) hp)
      cases hh : (l.heap p).mu.locked with
      | true =>
        obtain ⟨_, _, h3, h4, _⟩ := Lock_present_held l A p hg hp hh
        exact entry_congr l _ B (h3 B) (fun q hB => by simp [h4, hq q hB])
      | false =>
        obtain ⟨_, _, h3, h4, _⟩ := Lock_present_free l A p hg hp hh
        exact entry_congr l _ B (h3 B) (fun q hB => by simp [h4, hq q hB])

/-- `TryLock(A)` leaves the entry of every other key as it was, however the
call ends. -/
theorem TryLock_frame (l : MapLock T) (A B : T) (hne : A ≠ B) (hwf : l.WF) :
    (l.TryLock A).2.entry B = l.entry B := by
  have hBA : ¬ B = A := fun e => hne e.symm
  cases hg : l.mu.locked with
  | true => rw [TryLock_guard_taken l A hg]
  | false =>
    cases hp : l.lookup A with
    | none =>
      obtain ⟨_, _, h3, h4, _⟩ := TryLock_absent l A hg hp
      refine entry_congr l _ B (by simp [h3, hBA]) (fun q hq => ?_)
      simp [h4, Nat.ne_of_lt (hwf.below B q hq)]
    | some p =>
      have hq : ∀ q, l.lookup B = some q → q ≠ p :=
        fun q hq e => hBA (hwf.inj B A p (e ▸ hq) hp)
      cases hh : (l.heap p).mu.locked with
      | true =>
        obtain ⟨_, _, h3, h4, _⟩ := TryLock_present_held l A p hg hp hh
        exact entry_congr l _ B (h3 B) (fun q hB => by simp [h4, hq q hB])
      | false =>
        obtain ⟨_, _, h3, h4, _⟩ := TryLock_present_free l A p hg hp hh
        exact entry_congr l _ B (h3 B) (fun q hB => by simp [h4, hq q hB])

/-- `Unlock(A)` leaves the entry of every other key as it was, however the call
ends. -/
theorem Unlock_frame (l : MapLock T) (A B : T) (hne : A ≠ B) (hwf : l.WF) :
    (l.Unlock A).2.entry B = l.entry B := by
  have hBA : ¬ B = A := fun e => hne e.symm
  cases hg : l.mu.locked with
  | true => rw [Unlock_guard_taken l A hg]
  | false =>
    cases hp : l.lookup A with
    | none => rw [Unlock_absent l A hg hp]
    | some p =>
      have hq : ∀ q, l.lookup B = some q → q ≠ p :=
        fun q hq e => hBA (hwf.inj B A p (e ▸ hq) hp)
      cases hh : (l.heap p).mu.locked with
      | true =>
        obtain ⟨_, _, h3, h4, _⟩ := Unlock_present_held l A p hg hp hh
        exact entry_congr l _ B (by simp [h3, hBA]) (fun q hB => by simp [h4, hq q hB])
      | false =>
        obtain ⟨_, _, h3, h4, _⟩ := Unlock_present_free l A p hg hp hh
        exact entry_congr l _ B (by simp [h3, hBA]) (fun q hB => by simp [h4])

/-- C13: for all keys `A ≠ B` and every well-formed registry, each of
`Lock(A)`, `TryLock(A)` and `Unlock(A)`, however it ends (returned, panicked,
waiting), leaves the entry of `B` exactly as it was: present or absent, and when
present with the same lock state and the same waiter count. -/
theorem other_key_untouched (l : MapLock T) (A B : T) (hne : A ≠ B) (hwf : l.WF) :
    (l.Lock A).2.entry B = l.entry B ∧ (l.TryLock A).2.entry B = l.entry B ∧
    (l.Unlock A).2.entry B = l.entry B :=
  ⟨Lock_frame l A B hne hwf, TryLock_frame l A B hne hwf, Unlock_frame l A B hne hwf⟩

end claims6

section claims6b
variable {T : Type} [DecidableEq T]

omit [DecidableEq T] in
/-- A registry stays well formed when its map loses entries or stays as it is,
nothing is deallocated, and the counters of its entries are `int32` values. -/
theorem MapLock.WF.of_sub {l l1 : MapLock T} (hwf : l.WF)
    (hl : ∀ k p, l1.lookup k = some p → l.lookup k = some p) (hn : l.next ≤ l1.next)
    (hr : ∀ k p, l1.lookup k = some p → inInt32 (l1.heap p).waiters) : l1.WF :=
  ⟨fun k p hk => Nat.lt_of_lt_of_le (hwf.below k p (hl k p hk)) hn,
    fun k1 k2 p h1 h2 => hwf.inj k1 k2 p (hl k1 p h1) (hl k2 p h2), hr⟩

/-- A registry stays well formed when a fresh object is allocated for a key
that had no entry. -/
theorem MapLock.WF.of_alloc {l l1 : MapLock T} (hwf : l.WF) (K : T) (c : lockCtr)
    (hc : inInt32 c.waiters)
    (hl : ∀ k, l1.lookup k = if k = K then some l.next else l.lookup k)
    (hh : ∀ q, l1.heap q = if q = l.next then c else l.heap q)
    (hn : l1.next = l.next + 1) : l1.WF := by
  have hne : ∀ k p, l.lookup k = some p → p ≠ l.next :=
    fun k p hk => Nat.ne_of_lt (hwf.below k p hk)
  refine ⟨?_, ?_, ?_⟩
  · intro k p hk
    rw [hl] at hk
    rw [hn]
    by_cases e : k = K
    · simp only [e, if_true, Option.some.injEq] at hk
      omega
    · simp only [e, if_false] at hk
      exact Nat.lt_succ_of_lt (hwf.below k p hk)
  · intro k1 k2 p hk1 hk2
    rw [hl] at hk1 hk2
    by_cases e1 : k1 = K <;> by_cases e2 : k2 = K <;>
      simp only [e1, e2, if_true, if_false, Option.some.injEq] at hk1 hk2
    · rw [e1, e2]
    · subst hk1
      exact absurd rfl (hne k2 _ hk2)
    · subst hk2
      exact absurd rfl (hne k1 _ hk1)
    · exact hwf.inj k1 k2 p hk1 hk2
  · intro k p hk
    rw [hl] at hk
    rw [hh]
    by_cases e : k = K
    · simp only [e, if_true, Option.some.injEq] at hk
      simp [← hk, hc]
    · simp only [e, if_false] at hk
      simp only [hne k p hk, if_false]
      exact hwf.range k p hk

omit [DecidableEq T] in
/-- A registry stays well formed when one object is replaced by one whose
counter is an `int32` value. -/
theorem MapLock.WF.of_store {l l1 : MapLock T} (hwf : l.WF) (p : Nat) (c : lockCtr)
    (hc : inInt32 c.waiters)
    (hl : ∀ k q, l1.lookup k = some q → l.lookup k = some q)
    (hh : ∀ q, l1.heap q = if q = p then c else l.heap q)
    (hn : l1.next = l.next) : l1.WF := by
  refine hwf.of_sub hl (Nat.le_of_eq hn.symm) (fun k q hk => ?_)
  rw [hh]
  by_cases e : q = p
  · simp [e, hc]
  · simp only [e, if_false]
    exact hwf.range k q (hl k q hk)

theorem inInt32_zero : inInt32 0 := by
  unfold inInt32
  omega

/-- `Lock` keeps a registry well formed, however the call ends. -/
theorem Lock_WF (l : MapLock T) (K : T) (hwf : l.WF) : (l.Lock K).2.WF := by
  cases hg : l.mu.locked with
  | true => rw [Lock_guard_taken l K hg]; exact hwf
  | false =>
    cases hp : l.lookup K with
    | none =>
      obtain ⟨_, _, h3, h4, h5⟩ := Lock_absent l K hg hp
      exact hwf.of_alloc K _ inInt32_zero h3 h4 h5
    | some p =>
      cases hh : (l.heap p).mu.locked with
      | true =>
        obtain ⟨_, _, h3, h4, h5⟩ := Lock_present_held l K p hg hp hh
        exact hwf.of_store p _ (inInt32_wrapInt32 _) (fun k q hk => by rwa [h3] at hk) h4 h5
      | false =>
        obtain ⟨_, _, h3, h4, h5⟩ := Lock_present_free l K p hg hp hh
        exact hwf.of_store p _ (inInt32_wrapInt32 _) (fun k q hk => by rwa [h3] at hk) h4 h5

/-- `TryLock` keeps a registry well formed, however the call ends. -/
theorem TryLock_WF (l : MapLock T) (K : T) (hwf : l.WF) : (l.TryLock K).2.WF := by
  cases hg : l.mu.locked with
  | true => rw [TryLock_guard_taken l K hg]; exact hwf
  | false =>
    cases hp : l.lookup K with
    | none =>
      obtain ⟨_, _, h3, h4, h5⟩ := TryLock_absent l K hg hp
      exact hwf.of_alloc K _ inInt32_zero h3 h4 h5
    | some p =>
      cases hh : (l.heap p).mu.locked with
      | true =>
        obtain ⟨_, _, h3, h4, h5⟩ := TryLock_present_held l K p hg hp hh
        exact hwf.of_store p _ (inInt32_wrapInt32 _) (fun k q hk => by rwa [h3] at hk) h4 h5
      | false =>
        obtain ⟨_, _, h3, h4, h5⟩ := TryLock_present_free l K p hg hp hh
        exact hwf.of_store p _ (inInt32_wrapInt32 _) (fun k q hk => by rwa [h3] at hk) h4 h5

/-- `Unlock` keeps a registry well formed, however the call ends. -/
theorem Unlock_WF (l : MapLock T) (K : T) (hwf : l.WF) : (l.Unlock K).2.WF := by
  cases hg : l.mu.locked with
  | true => rw [Unlock_guard_taken l K hg]; exact hwf
  | false =>
    cases hp : l.lookup K with
    | none => rw [Unlock_absent l K hg hp]; exact hwf
    | some p =>
      have hsub : ∀ (l1 : MapLock T), (∀ k, l1.lookup k =
          if k = K ∧ (l.heap p).waiters = 0 then none else l.lookup k) →
          ∀ k q, l1.lookup k = some q → l.lookup k = some q := by
        intro l1 h3 k q hk
        rw [h3] at hk
        split at hk
        · cases hk
        · exact hk
      cases hh : (l.heap p).mu.locked with
      | true =>
        obtain ⟨_, _, h3, h4, h5⟩ := Unlock_present_held l K p hg hp hh
        exact hwf.of_store p ⟨⟨false⟩, (l.heap p).waiters⟩ (hwf.range K p hp) (hsub _ h3) h4 h5
      | false =>
        obtain ⟨_, _, h3, h4, h5⟩ := Unlock_present_free l K p hg hp hh
        exact hwf.of_sub (hsub _ h3) (Nat.le_of_eq h5.symm)
          (fun k q hk => by rw [h4]; exact hwf.range k q (hsub _ h3 k q hk))

/-- C13, witness: with "a" and "b" both held, the calls on "a" (`Lock` waits
for "a" and is counted, `TryLock` waits likewise, `Unlock` removes the entry of
"a") leave the entry of "b": present, locked, count 0. -/
theorem other_key_untouched_witness :
    "a" ≠ "b" ∧ (heldA.Lock "b").2.entry "b" = some ⟨⟨true⟩, 0⟩ ∧
    ((heldA.Lock "b").2.Lock "a").2.entry "b" = (heldA.Lock "b").2.entry "b" ∧
    ((heldA.Lock "b").2.TryLock "a").2.entry "b" = (heldA.Lock "b").2.entry "b" ∧
    ((heldA.Lock "b").2.Unlock "a").2.entry "b" = (heldA.Lock "b").2.entry "b" :=
  ⟨by decide, by decide,
    other_key_untouched (heldA.Lock "b").2 "a" "b" (by decide)
      (Lock_WF heldA "b" (Lock_WF New "a" New_WF))⟩

end claims6b

section claims7
variable {T : Type} [DecidableEq T]

/-- C14: the zero-value `MapLock` (nil map) behaves like `New()`: `Lock(K)` and
`TryLock(K)` first make the map (after the nil check the two registries are in
the same state, where a write to the nil map would have panicked) and end with
the same result and the same registry as on `New()`; `Unlock(K)` panics with
"unlock of unlocked entry", the read of the nil map finding no entry, and leaves
the registry as it was. -/
theorem zero_value_like_New (K : T) :
    (MapLock.zeroValue : MapLock T).Lock K = (New : MapLock T).Lock K ∧
    (MapLock.zeroValue : MapLock T).TryLock K = (New : MapLock T).TryLock K ∧
    run 2 (Pc.L62 K, (MapLock.zeroValue : MapLock T)) = run 2 (Pc.L62 K, (New : MapLock T)) ∧
    run 2 (Pc.T86 K, (MapLock.zeroValue : MapLock T)) = run 2 (Pc.T86 K, (New : MapLock T)) ∧
    (run 2 (Pc.L62 K, (MapLock.zeroValue : MapLock T))).2.locks = some (fun _ => none) ∧
    (run 2 (Pc.T86 K, (MapLock.zeroValue : MapLock T))).2.locks = some (fun _ => none) ∧
    (MapLock.zeroValue : MapLock T).lookupOrCreate K = none ∧
    ((MapLock.zeroValue : MapLock T).Lock K).1 = Pc.ret none ∧
    ((MapLock.zeroValue : MapLock T).TryLock K).1 = Pc.ret (some false) ∧
    (MapLock.zeroValue : MapLock T).Unlock K =
      (Pc.panicked "unlock of unlocked entry", MapLock.zeroValue) ∧
    (New : MapLock T).Unlock K = (Pc.panicked "unlock of unlocked entry", New) := by
  have hz : (MapLock.zeroValue : MapLock T).lookup K = none := rfl
  have hn : (New : MapLock T).lookup K = none := rfl
  refine ⟨rfl, rfl, rfl, rfl, rfl, rfl, rfl, ?_, ?_, Unlock_absent _ K rfl hz,
    Unlock_absent _ K rfl hn⟩
  · exact (Lock_absent _ K rfl hz).1
  · exact (TryLock_absent _ K rfl hz).1

end claims7


section callers
variable {T : Type} [DecidableEq T] {N : Nat}

omit [DecidableEq T] in
/-- Moving one caller changes a sum over the callers at that caller only. -/
theorem sum_update_pcs (g : Pc T → Nat) (f : Fin N → Pc T) (t : Fin N) (pc : Pc T) :
    (∑ x : Fin N, g (Function.update f t pc x)) + g (f t) = (∑ x : Fin N, g (f x)) + g pc := by
  have h1 := Finset.add_sum_erase Finset.univ (fun x => g (Function.update f t pc x))
    (Finset.mem_univ t)
  have h2 := Finset.add_sum_erase Finset.univ (fun x => g (f x)) (Finset.mem_univ t)
  have h3 : ∑ x ∈ Finset.univ.erase t, g (Function.update f t pc x) =
      ∑ x ∈ Finset.univ.erase t, g (f x) := by
    apply Finset.sum_congr rfl
    intro x hx
    rw [Function.update_noteq (Finset.ne_of_mem_erase hx)]
  simp only [Function.update_same] at h1 h2
  rw [h3] at h1
  omega

omit [DecidableEq T] in
theorem Callers.countedOn_set (σ : Callers T N) (t : Fin N) (pc : Pc T) (m : MapLock T) (p : Nat) :
    (σ.set t pc m).countedOn p + (if (σ.pcs t).counted p then 1 else 0) =
      σ.countedOn p + (if pc.counted p then 1 else 0) :=
  sum_update_pcs (fun x => if x.counted p then 1 else 0) σ.pcs t pc

omit [DecidableEq T] in
theorem Callers.countedOn_le (σ : Callers T N) (p : Nat) : σ.countedOn p ≤ N := by
  unfold Callers.countedOn
  calc (∑ t : Fin N, if (σ.pcs t).counted p then 1 else 0)
      ≤ ∑ _t : Fin N, 1 := Finset.sum_le_sum (fun t _ => by split <;> simp)
    _ = N := by simp

omit [DecidableEq T] in
theorem Callers.countedOn_eq_zero (σ : Callers T N) (p : Nat)
    (h : ∀ t, (σ.pcs t).counted p = false) : σ.countedOn p = 0 := by
  unfold Callers.countedOn
  simp [h]

omit [DecidableEq T] in
theorem Pc.aims_of_counted (pc : Pc T) (p : Nat) (h : pc.counted p = true) : pc.aims p = true := by
  cases pc <;> simp_all [Pc.aims, Pc.counted]

omit [DecidableEq T] in
@[simp] theorem Callers.m_set (σ : Callers T N) (t : Fin N) (pc : Pc T) (m : MapLock T) :
    (σ.set t pc m).m = m := rfl

omit [DecidableEq T] in
@[simp] theorem Callers.pcs_set_self (σ : Callers T N) (t : Fin N) (pc : Pc T) (m : MapLock T) :
    (σ.set t pc m).pcs t = pc := by
  simp [Callers.set]

omit [DecidableEq T] in
theorem Callers.pcs_set_of_ne (σ : Callers T N) (t : Fin N) (pc : Pc T) (m : MapLock T)
    (t2 : Fin N) (hne : t2 ≠ t) : (σ.set t pc m).pcs t2 = σ.pcs t2 := by
  simp [Callers.set, Function.update_noteq hne]

omit [DecidableEq T] in
/-- The invariant after one caller has moved from `pc0` to `pc` leaving the
registry `m`: the waiter counts follow the move, pointers stay allocated, and
the guard is taken or given up by its holder only. -/
theorem Callers.Inv.after {σ : Callers T N} (h : σ.Inv) (t : Fin N) (pc0 pc : Pc T)
    (m : MapLock T) (hpc : σ.pcs t = pc0)
    (hcount : ∀ p, (m.heap p).waiters + (if pc0.counted p then 1 else 0) =
      (σ.m.heap p).waiters + (if pc.counted p then 1 else 0))
    (hnext : σ.m.next ≤ m.next)
    (haims : ∀ p, pc.aims p = true → pc0.aims p = true ∨ p < m.next)
    (hlook : ∀ k p, m.lookup k = some p → σ.m.lookup k = some p ∨ p < m.next)
    (hread : ∀ name p c, pc = .U120 name p c → 0 ≤ c)
    (hg : pc.hasGuard = true →
      m.mu.locked = true ∧ (pc0.hasGuard = true ∨ σ.m.mu.locked = false))
    (hmu : σ.m.mu.locked = true → m.mu.locked = true ∨ pc0.hasGuard = true) : (σ.set t pc m).Inv := by
  subst hpc
  have hother : ∀ t2, t2 ≠ t → (σ.pcs t2).hasGuard = true → (σ.pcs t).hasGuard = false := by
    intro t2 hne h2
    cases h1 : (σ.pcs t).hasGuard with
    | false => rfl
    | true => exact absurd (h.guardOne t2 t h2 h1) hne
  refine ⟨?_, ?_, ?_, ?_, ?_, ?_⟩
  · intro p
    have hs := Callers.countedOn_set σ t pc m p
    have hc := h.count p
    have hp := hcount p
    simp only [Callers.m_set]
    cases h0 : (σ.pcs t).counted p <;> cases h1 : pc.counted p <;>
      simp only [h0, h1, if_true, Bool.false_eq_true, if_false] at hs hp <;> omega
  · intro t2 p
    by_cases e : t2 = t
    · subst e
      simp only [Callers.pcs_set_self, Callers.m_set]
      intro ha
      rcases haims p ha with h1 | h1
      · exact Nat.lt_of_lt_of_le (h.ptrs t2 p h1) hnext
      · exact h1
    · rw [Callers.pcs_set_of_ne _ _ _ _ _ e]
      exact fun ha => Nat.lt_of_lt_of_le (h.ptrs t2 p ha) hnext
  · intro k p hk
    rcases hlook k p hk with h1 | h1
    · exact Nat.lt_of_lt_of_le (h.below k p h1) hnext
    · exact h1
  · intro t2 name p c
    by_cases e : t2 = t
    · subst e
      simp only [Callers.pcs_set_self]
      exact hread name p c
    · rw [Callers.pcs_set_of_ne _ _ _ _ _ e]
      exact h.read t2 name p c
  · intro t2
    by_cases e : t2 = t
    · subst e
      simp only [Callers.pcs_set_self, Callers.m_set]
      exact fun hh => (hg hh).1
    · rw [Callers.pcs_set_of_ne _ _ _ _ _ e]
      intro h2
      simp only [Callers.m_set]
      rcases hmu (h.guardLocked t2 h2) with h1 | h1
      · exact h1
      · rw [hother t2 e h2] at h1; cases h1
  · intro t1 t2
    by_cases e1 : t1 = t <;> by_cases e2 : t2 = t
    · intro _ _; rw [e1, e2]
    · subst e1
      rw [Callers.pcs_set_self, Callers.pcs_set_of_ne _ _ _ _ _ e2]
      intro h1 h2
      rcases (hg h1).2 with h3 | h3
      · exact h.guardOne _ _ h3 h2
      · rw [h.guardLocked t2 h2] at h3; cases h3
    · subst e2
      rw [Callers.pcs_set_self, Callers.pcs_set_of_ne _ _ _ _ _ e1]
      intro h1 h2
      rcases (hg h2).2 with h3 | h3
      · exact h.guardOne _ _ h1 h3
      · rw [h.guardLocked t1 h1] at h3; cases h3
    · rw [Callers.pcs_set_of_ne _ _ _ _ _ e1, Callers.pcs_set_of_ne _ _ _ _ _ e2]
      exact h.guardOne t1 t2

omit [DecidableEq T] in
theorem Mutex.Lock_eq_some (m m1 : Mutex) :
    m.Lock = some m1 ↔ m.locked = false ∧ m1 = ⟨true⟩ := by
  cases m with | mk b => cases b <;> simp [Mutex.Lock, eq_comm]

theorem lookupOrCreate_eq_some (l : MapLock T) (name : T) (r : Nat × MapLock T)
    (h : l.lookupOrCreate name = some r) : r = l.lookupOrCreateD name := by
  cases hl : l.locks with
  | none => rw [lookupOrCreate_nil l name hl] at h; cases h
  | some f =>
    rw [lookupOrCreate_eq l name (by simp [hl])] at h
    exact (Option.some.inj h).symm

omit [DecidableEq T] in
/-- With fewer than `2^31` callers `inc` does not wrap around. -/
theorem Callers.Inv.inc_waiters (hN : N < 2147483648) {σ : Callers T N} (h : σ.Inv) (t : Fin N)
    (p : Nat) (hc : (σ.pcs t).counted p = false) :
    wrapInt32 ((σ.m.heap p).waiters + 1) = (σ.m.heap p).waiters + 1 := by
  have hs := Callers.countedOn_set σ t (.L76 p) σ.m p
  have hle := Callers.countedOn_le (σ.set t (.L76 p) σ.m) p
  have e1 : (Pc.L76 p : Pc T).counted p = true := by simp [Pc.counted]
  simp only [hc, e1, if_true, Bool.false_eq_true, if_false] at hs
  rw [h.count p]
  apply wrapInt32_of_inInt32
  unfold inInt32
  omega

omit [DecidableEq T] in
/-- A caller counted on an object finds its waiter count positive: `dec` does
not go below 0. -/
theorem Callers.Inv.dec_waiters (hN : N < 2147483648) {σ : Callers T N} (h : σ.Inv) (t : Fin N)
    (p : Nat) (hc : (σ.pcs t).counted p = true) :
    wrapInt32 ((σ.m.heap p).waiters + -1) = (σ.m.heap p).waiters - 1 ∧
      1 ≤ (σ.m.heap p).waiters := by
  have hs := Callers.countedOn_set σ t (.ret none) σ.m p
  have hle := Callers.countedOn_le σ p
  have e1 : (Pc.ret none : Pc T).counted p = false := rfl
  simp only [hc, e1, if_true, Bool.false_eq_true, if_false] at hs
  rw [h.count p]
  refine ⟨?_, by omega⟩
  have e : ((σ.countedOn p : Nat) : Int) + -1 = (σ.countedOn p : Int) - 1 := by omega
  rw [e]
  apply wrapInt32_of_inInt32
  unfold inInt32
  omega

/-- Lines 67-71 and 91-95: the entry is looked up, and created when missing;
the new object has count 0 and nobody is counted on it. -/
theorem Callers.Inv.after_lookupOrCreate {σ : Callers T N} (h : σ.Inv) (t : Fin N) (pc0 pc : Pc T)
    (name : T) (hpc : σ.pcs t = pc0) (hc0 : ∀ p, pc0.counted p = false)
    (hg0 : pc0.hasGuard = true) (hc : ∀ p, pc.counted p = false)
    (ha : ∀ p, pc.aims p = true → p = (σ.m.lookupOrCreateD name).1)
    (hread : ∀ name p c, pc ≠ .U120 name p c) :
    (σ.set t pc (σ.m.lookupOrCreateD name).2).Inv := by
  have hl := h.guardLocked t (by rw [hpc]; exact hg0)
  refine h.after t pc0 pc _ hpc ?_ ?_ ?_ ?_ (fun n p c e => absurd e (hread n p c)) ?_ ?_
  · intro p
    rw [hc0, hc, heap_lookupOrCreateD]
    cases hp : σ.m.lookup name with
    | some q => simp
    | none =>
      by_cases e : p = σ.m.next
      · subst e
        have hz : σ.countedOn σ.m.next = 0 := by
          apply Callers.countedOn_eq_zero
          intro t2
          cases hct : (σ.pcs t2).counted σ.m.next with
          | false => rfl
          | true =>
            exact absurd (h.ptrs t2 _ (Pc.aims_of_counted _ _ hct)) (Nat.lt_irrefl _)
        simp [h.count, hz, lockCtr.zero]
      · simp [e]
  · rw [next_lookupOrCreateD]
    split <;> omega
  · intro p hp
    right
    rw [ha p hp, fst_lookupOrCreateD, next_lookupOrCreateD]
    cases hq : σ.m.lookup name with
    | some q => simpa using h.below name q hq
    | none => simp
  · intro k p hk
    rw [lookup_lookupOrCreateD] at hk
    by_cases e : k = name
    · right
      subst e
      simp only [if_true, Option.some.injEq] at hk
      rw [← hk, next_lookupOrCreateD]
      cases hq : σ.m.lookup k with
      | some q => simpa using h.below k q hq
      | none => simp
    · left
      simpa [e] using hk
  · intro _
    exact ⟨by simpa using hl, Or.inl hg0⟩
  · intro _
    exact Or.inr hg0

omit [DecidableEq T] in
theorem Mutex.Unlock_of_locked (m : Mutex) (h : m.locked = true) : m.Unlock = some ⟨false⟩ := by
  simp [Mutex.Unlock, h]

omit [DecidableEq T] in
theorem Mutex.TryLock_of_locked (m : Mutex) (h : m.locked = true) : m.TryLock = (false, m) := by
  simp [Mutex.TryLock, h]

omit [DecidableEq T] in
/-- A move that changes no waiter count, allocates nothing, adds no entry and
leaves the guard as it is. -/
theorem Callers.Inv.after_quiet {σ : Callers T N} (h : σ.Inv) (t : Fin N) (pc0 pc : Pc T)
    (m : MapLock T) (hpc : σ.pcs t = pc0)
    (hw : ∀ q, (m.heap q).waiters = (σ.m.heap q).waiters) (hn : m.next = σ.m.next)
    (hl : ∀ k p, m.lookup k = some p → σ.m.lookup k = some p) (hmu : m.mu = σ.m.mu)
    (hc : ∀ q, pc.counted q = pc0.counted q) (ha : ∀ q, pc.aims q = true → pc0.aims q = true)
    (hread : ∀ name p c, pc = .U120 name p c → 0 ≤ c)
    (hg : pc.hasGuard = true → pc0.hasGuard = true) : (σ.set t pc m).Inv := by
  refine h.after t pc0 pc m hpc (fun q => by rw [hw, hc]) (Nat.le_of_eq hn.symm)
    (fun q hq => Or.inl (ha q hq)) (fun k p hk => Or.inl (hl k p hk)) hread ?_ ?_
  · intro hh
    have hl := h.guardLocked t (by rw [hpc]; exact hg hh)
    exact ⟨by rw [hmu]; exact hl, Or.inl (hg hh)⟩
  · intro hl
    exact Or.inl (by rw [hmu]; exact hl)

omit [DecidableEq T] in
/-- Lines 75 and 99: `nameLock.inc()`. -/
theorem Callers.Inv.after_inc (hN : N < 2147483648) {σ : Callers T N} (h : σ.Inv) (t : Fin N)
    (p : Nat) (pc0 pc : Pc T) (hpc : σ.pcs t = pc0) (hc0 : ∀ q, pc0.counted q = false)
    (ha0 : pc0.aims p = true) (hg0 : pc0.hasGuard = true)
    (hc : ∀ q, pc.counted q = decide (q = p)) (ha : ∀ q, pc.aims q = true → q = p)
    (hread : ∀ name p c, pc ≠ .U120 name p c) :
    (σ.set t pc (σ.m.store p (σ.m.heap p).inc)).Inv := by
  have hl := h.guardLocked t (by rw [hpc]; exact hg0)
  have hi := h.inc_waiters hN t p (by rw [hpc]; exact hc0 p)
  refine h.after t pc0 pc _ hpc ?_ (Nat.le_refl _) ?_ (fun k q hk => Or.inl (by simpa using hk))
    (fun n p c e => absurd e (hread n p c)) (fun _ => ⟨by simpa using hl, Or.inl hg0⟩)
    (fun _ => Or.inr hg0)
  · intro q
    rw [hc0, hc, heap_store]
    by_cases e : q = p
    · subst e
      simp [lockCtr.inc, hi]
    · simp [e]
  · intro q hq
    rw [ha q hq]
    exact Or.inl ha0

omit [DecidableEq T] in
/-- Lines 81 and 105: `nameLock.dec()`, after which the call returns. -/
theorem Callers.Inv.after_dec (hN : N < 2147483648) {σ : Callers T N} (h : σ.Inv) (t : Fin N)
    (p : Nat) (pc0 : Pc T) (v : Option Bool) (hpc : σ.pcs t = pc0)
    (hc0 : ∀ q, pc0.counted q = decide (q = p)) :
    (σ.set t (.ret v) (σ.m.store p (σ.m.heap p).dec)).Inv := by
  have hd := (h.dec_waiters hN t p (by rw [hpc, hc0]; simp)).1
  refine h.after t pc0 (.ret v) _ hpc ?_ (Nat.le_refl _) (by simp [Pc.aims, Pc.counted])
    (fun k q hk => Or.inl (by simpa using hk)) (by simp) (by simp [Pc.hasGuard])
    (fun hl => Or.inl (by simpa using hl))
  intro q
  rw [hc0, heap_store]
  by_cases e : q = p
  · subst e
    simp [lockCtr.dec, hd, Pc.counted]
  · simp [e, Pc.counted]

/-- The invariant is kept by every move of every caller, fewer than `2^31`
callers being there. -/
theorem Callers.Inv.move (hN : N < 2147483648) {σ σ1 : Callers T N} (h : σ.Inv) (t : Fin N)
    (a : Move T) (hs : Callers.step t a σ = some σ1) : σ1.Inv := by
  cases a with
  | call c =>
    simp only [Callers.step] at hs
    split at hs
    · rename_i hidle
      cases hs
      cases hpc : σ.pcs t <;> rw [hpc] at hidle <;> simp only [Pc.idle] at hidle <;>
        try (exact absurd hidle (by decide))
      all_goals
        cases c <;>
        exact h.after t _ _ _ hpc (by simp [Pc.counted, Call.start]) (Nat.le_refl _)
            (by simp [Pc.aims, Pc.counted, Call.start]) (fun k p hk => Or.inl hk)
            (by simp [Call.start]) (by simp [Pc.hasGuard, Call.start]) (fun hl => Or.inl hl)
    · cases hs
  | exec =>
    simp only [Callers.step] at hs
    cases hpc : σ.pcs t with
    | L62 name =>
      simp only [hpc, step_L62, Option.map_map, Option.map_eq_some', Mutex.Lock_eq_some] at hs
      obtain ⟨m1, ⟨hm, rfl⟩, rfl⟩ := hs
      exact h.after t _ _ _ hpc (by simp [Pc.counted]) (Nat.le_refl _)
        (by simp [Pc.aims, Pc.counted]) (fun k p hk => Or.inl (by simpa using hk))
        (by simp) (by simp [Pc.hasGuard, hm, MapLock.setMu]) (fun _ => Or.inl rfl)
    | T86 name =>
      simp only [hpc, step_T86, Option.map_map, Option.map_eq_some', Mutex.Lock_eq_some] at hs
      obtain ⟨m1, ⟨hm, rfl⟩, rfl⟩ := hs
      exact h.after t _ _ _ hpc (by simp [Pc.counted]) (Nat.le_refl _)
        (by simp [Pc.aims, Pc.counted]) (fun k p hk => Or.inl (by simpa using hk))
        (by simp) (by simp [Pc.hasGuard, hm, MapLock.setMu]) (fun _ => Or.inl rfl)
    | U112 name =>
      simp only [hpc, step_U112, Option.map_map, Option.map_eq_some', Mutex.Lock_eq_some] at hs
      obtain ⟨m1, ⟨hm, rfl⟩, rfl⟩ := hs
      exact h.after t _ _ _ hpc (by simp [Pc.counted]) (Nat.le_refl _)
        (by simp [Pc.aims, Pc.counted]) (fun k p hk => Or.inl (by simpa using hk))
        (by simp) (by simp [Pc.hasGuard, hm, MapLock.setMu]) (fun _ => Or.inl rfl)
    | L63 name =>
      have hl := h.guardLocked t (by rw [hpc]; rfl)
      simp only [hpc, step_L63, Option.map_some', Option.some.injEq] at hs
      subst hs
      exact h.after t _ _ _ hpc (by simp [Pc.counted]) (by simp)
        (by simp [Pc.aims, Pc.counted]) (fun k p hk => Or.inl (by simpa using hk))
        (by simp) (by simp [Pc.hasGuard, hl]) (fun _ => Or.inr rfl)
    | T87 name =>
      have hl := h.guardLocked t (by rw [hpc]; rfl)
      simp only [hpc, step_T87, Option.map_some', Option.some.injEq] at hs
      subst hs
      exact h.after t _ _ _ hpc (by simp [Pc.counted]) (by simp)
        (by simp [Pc.aims, Pc.counted]) (fun k p hk => Or.inl (by simpa using hk))
        (by simp) (by simp [Pc.hasGuard, hl]) (fun _ => Or.inr rfl)
    | L67 name =>
      have hl := h.guardLocked t (by rw [hpc]; rfl)
      simp only [hpc, step_L67] at hs
      cases hr : σ.m.lookupOrCreate name with
      | none =>
        simp only [hr, Option.map_some', Option.some.injEq] at hs
        subst hs
        exact h.after t _ _ _ hpc (by simp [Pc.counted]) (Nat.le_refl _)
          (by simp [Pc.aims, Pc.counted]) (fun k p hk => Or.inl hk)
          (by simp) (by simp [Pc.hasGuard]) (fun _ => Or.inr rfl)
      | some r =>
        simp only [hr, Option.map_some', Option.some.injEq] at hs
        subst hs
        rw [lookupOrCreate_eq_some _ _ _ hr]
        exact h.after_lookupOrCreate t _ _ name hpc (by simp [Pc.counted]) rfl
          (by simp [Pc.counted]) (by simp [Pc.aims, eq_comm]) (by simp)
    | T91 name =>
      have hl := h.guardLocked t (by rw [hpc]; rfl)
      simp only [hpc, step_T91] at hs
      cases hr : σ.m.lookupOrCreate name with
      | none =>
        simp only [hr, Option.map_some', Option.some.injEq] at hs
        subst hs
        exact h.after t _ _ _ hpc (by simp [Pc.counted]) (Nat.le_refl _)
          (by simp [Pc.aims, Pc.counted]) (fun k p hk => Or.inl hk)
          (by simp) (by simp [Pc.hasGuard]) (fun _ => Or.inr rfl)
      | some r =>
        simp only [hr, Option.map_some', Option.some.injEq] at hs
        subst hs
        rw [lookupOrCreate_eq_some _ _ _ hr]
        exact h.after_lookupOrCreate t _ _ name hpc (by simp [Pc.counted]) rfl
          (by simp [Pc.counted]) (by simp [Pc.aims, eq_comm]) (by simp)
    | L75 p =>
      simp only [hpc, step_L75, Option.map_some', Option.some.injEq] at hs
      subst hs
      exact h.after_inc hN t p _ _ hpc (by simp [Pc.counted]) (by simp [Pc.aims]) rfl
        (by simp [Pc.counted, eq_comm]) (by simp [Pc.aims, Pc.counted, eq_comm]) (by simp)
    | T99 p =>
      simp only [hpc, step_T99, Option.map_some', Option.some.injEq] at hs
      subst hs
      exact h.after_inc hN t p _ _ hpc (by simp [Pc.counted]) (by simp [Pc.aims]) rfl
        (by simp [Pc.counted, eq_comm]) (by simp [Pc.aims, Pc.counted, eq_comm]) (by simp)
    | L81 p =>
      simp only [hpc, step_L81, Option.map_some', Option.some.injEq] at hs
      subst hs
      exact h.after_dec hN t p _ _ hpc (by simp [Pc.counted, eq_comm])
    | T105 p b =>
      simp only [hpc, step_T105, Option.map_some', Option.some.injEq] at hs
      subst hs
      exact h.after_dec hN t p _ _ hpc (by simp [Pc.counted, eq_comm])
    | L76 p =>
      have hl := h.guardLocked t (by rw [hpc]; rfl)
      simp only [hpc, step_L76, Mutex.Unlock_of_locked _ hl, Option.map_some',
        Option.some.injEq] at hs
      subst hs
      exact h.after t _ _ _ hpc (by simp [Pc.counted]) (Nat.le_refl _)
        (fun q hq => Or.inl (by simpa [Pc.aims, Pc.counted] using hq))
        (fun k p hk => Or.inl (by simpa using hk))
        (by simp) (by simp [Pc.hasGuard]) (fun _ => Or.inr rfl)
    | U115 =>
      have hl := h.guardLocked t (by rw [hpc]; rfl)
      simp only [hpc, step_U115, Mutex.Unlock_of_locked _ hl, Option.map_some',
        Option.some.injEq] at hs
      subst hs
      exact h.after t _ _ _ hpc (by simp [Pc.counted]) (Nat.le_refl _)
        (by simp [Pc.aims, Pc.counted])
        (fun k p hk => Or.inl (by simpa using hk))
        (by simp) (by simp [Pc.hasGuard]) (fun _ => Or.inr rfl)
    | U124 =>
      have hl := h.guardLocked t (by rw [hpc]; rfl)
      simp only [hpc, step_U124, Mutex.Unlock_of_locked _ hl, Option.map_some',
        Option.some.injEq] at hs
      subst hs
      exact h.after t _ _ _ hpc (by simp [Pc.counted]) (Nat.le_refl _)
        (by simp [Pc.aims, Pc.counted])
        (fun k p hk => Or.inl (by simpa using hk))
        (by simp) (by simp [Pc.hasGuard]) (fun _ => Or.inr rfl)
    | T100 p =>
      have hl := h.guardLocked t (by rw [hpc]; rfl)
      simp only [hpc, step_T100, Mutex.TryLock_of_locked _ hl, Option.map_some',
        Option.some.injEq] at hs
      subst hs
      exact h.after_quiet t _ _ _ hpc (by simp) rfl (fun k p hk => by simpa using hk) rfl
        (by simp [Pc.counted]) (by simp [Pc.aims, Pc.counted]) (by simp) (fun _ => rfl)
    | L80 p =>
      simp only [hpc, step_L80, lockCtr.Lock, Option.map_map, Option.map_eq_some',
        Mutex.Lock_eq_some] at hs
      obtain ⟨m1, ⟨hm, rfl⟩, rfl⟩ := hs
      exact h.after_quiet t _ _ _ hpc
        (fun q => by simp only [Function.comp, heap_store]; split <;> simp [*]) rfl
        (fun k p hk => by simpa using hk) rfl
        (by simp [Pc.counted]) (by simp [Pc.aims, Pc.counted]) (by simp) (by simp [Pc.hasGuard])
    | T104 p b =>
      simp only [hpc, step_T104, lockCtr.Lock, Option.map_map, Option.map_eq_some',
        Mutex.Lock_eq_some] at hs
      obtain ⟨m1, ⟨hm, rfl⟩, rfl⟩ := hs
      exact h.after_quiet t _ _ _ hpc
        (fun q => by simp only [Function.comp, heap_store]; split <;> simp [*]) rfl
        (fun k p hk => by simpa using hk) rfl
        (by simp [Pc.counted]) (by simp [Pc.aims, Pc.counted]) (by simp) (fun _ => rfl)
    | U113 name =>
      simp only [hpc, step_U113] at hs
      cases hq : σ.m.lookup name with
      | none =>
        simp only [hq, Option.map_some', Option.some.injEq] at hs
        subst hs
        exact h.after_quiet t _ _ _ hpc (fun _ => rfl) rfl (fun k p hk => hk) rfl
          (by simp [Pc.counted]) (by simp [Pc.aims, Pc.counted]) (by simp) (fun _ => rfl)
      | some p =>
        simp only [hq, Option.map_some', Option.some.injEq] at hs
        subst hs
        exact h.after_quiet t _ _ _ hpc (fun _ => rfl) rfl (fun k p hk => hk) rfl
          (by simp [Pc.counted]) (by simp [Pc.aims, Pc.counted]) (by simp) (fun _ => rfl)
    | U119 name p =>
      simp only [hpc, step_U119, Option.map_some', Option.some.injEq] at hs
      subst hs
      refine h.after_quiet t _ _ _ hpc (fun _ => rfl) rfl (fun k p hk => hk) rfl
        (by simp [Pc.counted]) (by simp [Pc.aims, Pc.counted]) ?_ (fun _ => rfl)
      intro n q c e
      cases e
      simp [lockCtr.count, h.count]
    | U120 name p c =>
      simp only [hpc, step_U120, Option.map_some', Option.some.injEq] at hs
      subst hs
      refine h.after_quiet t _ _ _ hpc (fun q => by split <;> simp)
        (by split <;> simp) ?_ (by split <;> simp)
        (by simp [Pc.counted]) (by simp [Pc.aims, Pc.counted]) (by simp) (fun _ => rfl)
      intro k q hk
      simp only at hk
      split at hk
      · rw [lookup_delete] at hk
        split at hk
        · cases hk
        · exact hk
      · exact hk
    | U122 p =>
      simp only [hpc, step_U122] at hs
      cases hu : (σ.m.heap p).Unlock with
      | none =>
        simp only [hu, Option.map_some', Option.some.injEq] at hs
        subst hs
        exact h.after_quiet t _ _ _ hpc (fun _ => rfl) rfl (fun k p hk => hk) rfl
          (by simp [Pc.counted]) (by simp [Pc.aims, Pc.counted]) (by simp) (by simp [Pc.hasGuard])
      | some c =>
        simp only [hu, Option.map_some', Option.some.injEq] at hs
        subst hs
        have hcw : c.waiters = (σ.m.heap p).waiters := by
          simp only [lockCtr.Unlock, Option.map_eq_some'] at hu
          obtain ⟨m1, _, rfl⟩ := hu
          rfl
        exact h.after_quiet t _ _ _ hpc
          (fun q => by simp only [heap_store]; split <;> simp [*]) rfl
          (fun k p hk => by simpa using hk) rfl
          (by simp [Pc.counted]) (by simp [Pc.aims, Pc.counted]) (by simp) (fun _ => rfl)
    | ret v => simp [hpc] at hs
    | panicked msg => simp [hpc] at hs
    | fatal msg => simp [hpc] at hs

omit [DecidableEq T] in
/-- The start satisfies the invariant. -/
theorem Callers.init_invariant : (Callers.init : Callers T N).Inv := by
  refine ⟨?_, ?_, ?_, ?_, ?_, ?_⟩
  · intro p
    have hz : (Callers.init : Callers T N).countedOn p = 0 :=
      Callers.countedOn_eq_zero _ p (fun _ => rfl)
    rw [hz]
    rfl
  · intro t p hp
    cases hp
  · intro k p hk
    cases hk
  · intro t name p c hc
    cases hc
  · intro t ht
    cases ht
  · intro t1 t2 h1
    cases h1

/-- Every reachable state satisfies the invariant. -/
theorem Callers.Reachable.invariant (hN : N < 2147483648) {σ : Callers T N}
    (hr : Callers.Reachable σ) : σ.Inv := by
  induction hr with
  | init => exact Callers.init_invariant
  | step σ σ1 t a _ hs ih => exact ih.move hN t a hs

/-- The state reached by a list of moves is reachable. -/
theorem Callers.Reachable.of_runMoves (xs : List (Fin N × Move T)) (σ : Callers T N)
    (hr : Callers.Reachable σ) : Callers.Reachable (Callers.runMoves xs σ) := by
  induction xs generalizing σ with
  | nil => exact hr
  | cons x xs ih =>
    simp only [Callers.runMoves]
    cases hs : Callers.step x.1 x.2 σ with
    | none => exact ih σ hr
    | some σ1 => exact ih σ1 (Callers.Reachable.step σ σ1 x.1 x.2 hr hs)

/-- C12: the waiter count never goes negative.  In every state reached from
`New()` by fewer than `2^31` callers calling `Lock`, `TryLock` and `Unlock` on
any keys in any order, interleaved statement by statement (`inc`, the lock
attempt, `dec`, the read of the count and the zero-check are steps of their
own), the waiter count of every entry in the map is at least 0, and so is the
value `Unlock` has read (line 119) when it compares it with 0 to decide whether
to delete the entry.  The count of every object is the number of callers that
have executed `inc` and not yet `dec` on it. -/
theorem waiters_never_negative (hN : N < 2147483648) (σ : Callers T N)
    (hr : Callers.Reachable σ) :
    (∀ k c, σ.m.entry k = some c → 0 ≤ c.count) ∧
    (∀ t name p c, σ.pcs t = .U120 name p c → 0 ≤ c) ∧
    (∀ p, (σ.m.heap p).waiters = (σ.countedOn p : Int)) := by
  have h := hr.invariant hN
  refine ⟨?_, h.read, h.count⟩
  intro k c hc
  simp only [MapLock.entry, Option.map_eq_some'] at hc
  obtain ⟨p, _, rfl⟩ := hc
  simp [lockCtr.count, h.count]

/-- C12, witness: two callers on "a"; the first holds the lock, the second has
executed `inc` and waits for the lock, the first is in `Unlock("a")` at the
zero-check having read the count 1. -/
theorem waiters_never_negative_witness :
    Callers.Reachable contended ∧ contended.pcs 0 = .U120 "a" 0 1 ∧
    contended.pcs 1 = .L80 0 ∧ contended.m.entry "a" = some ⟨⟨true⟩, 1⟩ ∧
    ((∀ k c, contended.m.entry k = some c → 0 ≤ c.count) ∧
    (∀ t name p c, contended.pcs t = .U120 name p c → 0 ≤ c) ∧
    (∀ p, (contended.m.heap p).waiters = (contended.countedOn p : Int))) :=
  ⟨Callers.Reachable.of_runMoves _ _ Callers.Reachable.init, by decide, by decide, by decide,
    waiters_never_negative (by decide) contended
      (Callers.Reachable.of_runMoves _ _ Callers.Reachable.init)⟩

end callers

end Maplock
